import Mathlib

/-!
Shallow embedding of the ternary-scale analysis library (src/ternary.js)
and proofs of the specification claims about it.

Conventions of the embedding:
* JS numbers holding integer values are modelled as `Nat`/`Int` (`Int` where
  the source can go negative), exact rationals model the cents arithmetic.
* A JS `Map` (insertion ordered, unique keys) is modelled as an association
  list `List (Nat × Int)`; `Map.set` of a present key updates in place,
  `Map.set` of a fresh key appends, `Map.delete` removes the unique entry.
* `while` loops are modelled either by structural/well-founded recursion or
  by a fuel parameter large enough for all reachable executions; theorems
  establish the fuel is sufficient wherever it matters.
* Functions that can throw in JS return `Option`, `none` modelling the throw.
-/

/-- JS `mod(n, m)` from src/ternary.js (Python-style modulo, positive result
for positive `m`); on integers with `m > 0` this is exactly `Int.emod`. -/
def jsMod (n : Int) (m : Int) : Int :=
  ((n % m) + m) % m

/-- JS `rotate(arr, amount)` from src/ternary.js: cyclic left shift by
`amount mod length`. -/
def rotate {α : Type} (arr : List α) (amount : Int) : List α :=
  if arr.length = 0 then arr
  else
    let n := (jsMod amount arr.length).toNat
    if n = 0 then arr else arr.drop n ++ arr.take n

/-- JS `compareArrays(a, b)` from src/ternary.js: lexicographic comparison,
returning a negative, zero or positive integer. -/
def compareArrays (a b : List Nat) : Int :=
  match a, b with
  | [], [] => 0
  | [], _ :: _ => (0 : Int) - (b.length : Int)
  | _ :: _, [] => (a.length : Int)
  | x :: xs, y :: ys =>
    if x < y then -1 else if y < x then 1 else compareArrays xs ys

/-- JS `arraysEqual(a, b)` from src/ternary.js. -/
def arraysEqual (a b : List Nat) : Bool :=
  a == b

/-- JS `rotations(word)` from src/ternary.js: the list of all rotations,
by rotation amount `0, 1, …, length-1`. -/
def rotationsList {α : Type} (word : List α) : List (List α) :=
  (List.range word.length).map (fun i => rotate word (i : Int))

/-- Models `Map.set`: update in place when the key is present, append
otherwise. -/
def mapSet (l : List (Nat × Int)) (k : Nat) (v : Int) : List (Nat × Int) :=
  if l.any (fun e => e.1 == k) then
    l.map (fun e => if e.1 == k then (k, v) else e)
  else
    l ++ [(k, v)]

/-- Models `Map.delete`: removes the entry with the given key. -/
def mapDelete (l : List (Nat × Int)) (k : Nat) : List (Nat × Int) :=
  l.filter (fun e => !(e.1 == k))

/-- Models `map.get(key) || 0` (JS lookup with default 0). -/
def mapGet (l : List (Nat × Int)) (k : Nat) : Int :=
  match l.find? (fun e => e.1 == k) with
  | some e => e.2
  | none => 0

/-- The `CountVector` class of src/ternary.js: a multiset / sparse integer
vector backed by a JS `Map` from step class to signed count. -/
structure CountVector where
  entries : List (Nat × Int)
deriving DecidableEq, Repr

/-- `CountVector.ZERO` from src/ternary.js. -/
def CountVector.ZERO : CountVector := ⟨[]⟩

/-- `CountVector.fromSlice(arr)` from src/ternary.js: letter counts of a word,
keys appearing in first-occurrence order. -/
def CountVector.fromSlice (arr : List Nat) : CountVector :=
  ⟨arr.foldl (fun acc c => mapSet acc c (mapGet acc c + 1)) []⟩

/-- The loop body of `CountVector.prototype.add` from src/ternary.js: merge
one entry of `other` into the accumulated map, deleting a key whose new
count is 0. -/
def addEntry (acc : List (Nat × Int)) (e : Nat × Int) : List (Nat × Int) :=
  let newVal := mapGet acc e.1 + e.2
  if newVal = 0 then mapDelete acc e.1 else mapSet acc e.1 newVal

/-- `CountVector.prototype.add` from src/ternary.js: starts from a copy of
`this` and folds the entries of `other` in. -/
def CountVector.add (a b : CountVector) : CountVector :=
  ⟨b.entries.foldl addEntry a.entries⟩

/-- `CountVector.prototype.neg` from src/ternary.js. -/
def CountVector.neg (a : CountVector) : CountVector :=
  ⟨a.entries.map (fun e => (e.1, -e.2))⟩

/-- `CountVector.prototype.scalarMul` from src/ternary.js; note it keeps the
key even when `lambda = 0` produces an explicit zero entry. -/
def CountVector.scalarMul (a : CountVector) (lambda : Int) : CountVector :=
  ⟨a.entries.map (fun e => (e.1, lambda * e.2))⟩

/-- `CountVector.prototype.get` from src/ternary.js (`0` when absent). -/
def CountVector.get (a : CountVector) (k : Nat) : Int :=
  mapGet a.entries k

/-- `CountVector.prototype.len` from src/ternary.js: sum of absolute values. -/
def CountVector.len (a : CountVector) : Int :=
  a.entries.foldl (fun s e => s + |e.2|) 0

/-- `CountVector.prototype.isEmpty` from src/ternary.js. -/
def CountVector.isEmpty (a : CountVector) : Bool :=
  a.len == 0

/-- `CountVector.prototype.equals` from src/ternary.js: stored-entry count
must agree, and every stored entry of `this` must agree with `other.get`. -/
def CountVector.equals (a b : CountVector) : Bool :=
  a.entries.length == b.entries.length &&
    a.entries.all (fun e => b.get e.1 == e.2)

/-- The set of stored keys of a count vector. -/
def CountVector.keyList (a : CountVector) : List Nat :=
  a.entries.map Prod.fst

/-- Well-formedness invariant every JS `Map` enjoys: stored keys are distinct. -/
def CountVector.WF (a : CountVector) : Prop :=
  a.keyList.Nodup

/-- A count vector is normalized when it stores no explicit zero count
(`fromSlice` output is always normalized; `scalarMul 0` output is not). -/
def CountVector.Normalized (a : CountVector) : Prop :=
  ∀ e ∈ a.entries, e.2 ≠ 0

/-- Value equality over the full domain of step classes — the relation the
spec asserts `equals` to compute. -/
def CountVector.PointwiseEq (a b : CountVector) : Prop :=
  ∀ k : Nat, a.get k = b.get k

instance : DecidablePred CountVector.WF := fun a =>
  inferInstanceAs (Decidable (List.Nodup _))

instance (a : CountVector) : Decidable (CountVector.Normalized a) :=
  inferInstanceAs (Decidable (∀ e ∈ a.entries, e.2 ≠ 0))

/-! ### Association-map lemmas -/

theorem mapGet_nil (k : Nat) : mapGet [] k = 0 := rfl

theorem mapGet_cons (e : Nat × Int) (l : List (Nat × Int)) (k : Nat) :
    mapGet (e :: l) k = if e.1 = k then e.2 else mapGet l k := by
  by_cases h : e.1 = k <;> simp [mapGet, List.find?_cons, h]

theorem mapGet_eq_zero_of_not_mem (l : List (Nat × Int)) (k : Nat)
    (h : k ∉ l.map Prod.fst) : mapGet l k = 0 := by
  induction l with
  | nil => rfl
  | cons e rest ih =>
    simp only [List.map_cons, List.mem_cons] at h
    push_neg at h
    rw [mapGet_cons, if_neg (Ne.symm h.1), ih h.2]

theorem mem_keys_of_mapGet_ne (l : List (Nat × Int)) (k : Nat)
    (h : mapGet l k ≠ 0) : k ∈ l.map Prod.fst := by
  by_contra hk
  exact h (mapGet_eq_zero_of_not_mem l k hk)

theorem mapGet_of_mem_nodup (l : List (Nat × Int)) (e : Nat × Int)
    (hnd : (l.map Prod.fst).Nodup) (he : e ∈ l) : mapGet l e.1 = e.2 := by
  induction l with
  | nil => cases he
  | cons a rest ih =>
    simp only [List.map_cons, List.nodup_cons] at hnd
    rcases List.mem_cons.mp he with h | h
    · subst h; rw [mapGet_cons, if_pos rfl]
    · have hne : a.1 ≠ e.1 := by
        intro hq
        exact hnd.1 (hq ▸ (List.mem_map.mpr ⟨e, h, rfl⟩))
      rw [mapGet_cons, if_neg hne, ih hnd.2 h]

theorem mapGet_mem_of_ne (l : List (Nat × Int)) (k : Nat)
    (h : mapGet l k ≠ 0) : (k, mapGet l k) ∈ l := by
  induction l with
  | nil => exact absurd rfl h
  | cons a rest ih =>
    rw [mapGet_cons] at h ⊢
    by_cases hk : a.1 = k
    · rw [if_pos hk] at h ⊢
      exact List.mem_cons.mpr (Or.inl (by rw [← hk]))
    · rw [if_neg hk] at h ⊢
      exact List.mem_cons.mpr (Or.inr (ih h))

theorem keyList_mapSet_present (l : List (Nat × Int)) (k : Nat) (v : Int)
    (h : l.any (fun e => e.1 == k) = true) :
    (mapSet l k v).map Prod.fst = l.map Prod.fst := by
  unfold mapSet
  rw [if_pos h, List.map_map]
  apply List.map_congr_left
  intro e _
  by_cases he : e.1 = k
  · simp [he]
  · simp [he]

theorem keyList_mapSet_absent (l : List (Nat × Int)) (k : Nat) (v : Int)
    (h : ¬ l.any (fun e => e.1 == k) = true) :
    (mapSet l k v).map Prod.fst = l.map Prod.fst ++ [k] := by
  unfold mapSet
  rw [if_neg h, List.map_append]
  rfl

theorem any_key_iff (l : List (Nat × Int)) (k : Nat) :
    l.any (fun e => e.1 == k) = true ↔ k ∈ l.map Prod.fst := by
  simp [List.any_eq_true, List.mem_map]

theorem mapGet_map_upd_self (l : List (Nat × Int)) (k : Nat) (v : Int)
    (h : k ∈ l.map Prod.fst) :
    mapGet (l.map (fun e => if e.1 == k then (k, v) else e)) k = v := by
  induction l with
  | nil => simp at h
  | cons a rest ih =>
    by_cases ha : a.1 = k
    · simp only [List.map_cons, if_pos (show (a.1 == k) = true by simp [ha])]
      rw [mapGet_cons, if_pos rfl]
    · simp only [List.map_cons, if_neg (show ¬ (a.1 == k) = true by simp [ha])]
      rw [mapGet_cons, if_neg ha]
      apply ih
      simp only [List.map_cons, List.mem_cons] at h
      exact h.resolve_left (fun hc => ha hc.symm)

theorem mapGet_map_upd_other (l : List (Nat × Int)) (k q : Nat) (v : Int)
    (hq : q ≠ k) :
    mapGet (l.map (fun e => if e.1 == k then (k, v) else e)) q = mapGet l q := by
  induction l with
  | nil => rfl
  | cons a rest ih =>
    by_cases ha : a.1 = k
    · simp only [List.map_cons, if_pos (show (a.1 == k) = true by simp [ha])]
      rw [mapGet_cons, mapGet_cons, if_neg (fun hc => hq hc.symm),
        if_neg (fun hc : a.1 = q => hq (by rw [← hc, ha]))]
      exact ih
    · simp only [List.map_cons, if_neg (show ¬ (a.1 == k) = true by simp [ha])]
      rw [mapGet_cons, mapGet_cons]
      by_cases haq : a.1 = q
      · rw [if_pos haq, if_pos haq]
      · rw [if_neg haq, if_neg haq]; exact ih

theorem mapGet_append_single (l : List (Nat × Int)) (k q : Nat) (v : Int)
    (hq : q ≠ k) : mapGet (l ++ [(k, v)]) q = mapGet l q := by
  induction l with
  | nil =>
    rw [List.nil_append, mapGet_cons, if_neg (fun hc : k = q => hq hc.symm)]
  | cons a rest ih =>
    rw [List.cons_append, mapGet_cons, mapGet_cons]
    by_cases haq : a.1 = q
    · rw [if_pos haq, if_pos haq]
    · rw [if_neg haq, if_neg haq]; exact ih

theorem mapGet_append_single_self (l : List (Nat × Int)) (k : Nat) (v : Int)
    (h : k ∉ l.map Prod.fst) : mapGet (l ++ [(k, v)]) k = v := by
  induction l with
  | nil => rw [List.nil_append, mapGet_cons, if_pos rfl]
  | cons a rest ih =>
    simp only [List.map_cons, List.mem_cons] at h
    push_neg at h
    rw [List.cons_append, mapGet_cons, if_neg (Ne.symm h.1)]
    exact ih h.2

theorem mapGet_mapSet_self (l : List (Nat × Int)) (k : Nat) (v : Int) :
    mapGet (mapSet l k v) k = v := by
  unfold mapSet
  by_cases h : l.any (fun e => e.1 == k) = true
  · rw [if_pos h]
    exact mapGet_map_upd_self l k v ((any_key_iff l k).mp h)
  · rw [if_neg h]
    exact mapGet_append_single_self l k v (fun hm => h ((any_key_iff l k).mpr hm))

theorem mapGet_mapSet_other (l : List (Nat × Int)) (k q : Nat) (v : Int)
    (hq : q ≠ k) : mapGet (mapSet l k v) q = mapGet l q := by
  unfold mapSet
  by_cases h : l.any (fun e => e.1 == k) = true
  · rw [if_pos h]; exact mapGet_map_upd_other l k q v hq
  · rw [if_neg h]; exact mapGet_append_single l k q v hq

theorem mapGet_mapDelete_self (l : List (Nat × Int)) (k : Nat) :
    mapGet (mapDelete l k) k = 0 := by
  apply mapGet_eq_zero_of_not_mem
  intro hm
  rcases List.mem_map.mp hm with ⟨e, he, hk⟩
  have := List.of_mem_filter he
  simp [hk] at this

theorem mapGet_mapDelete_other (l : List (Nat × Int)) (k q : Nat)
    (hq : q ≠ k) : mapGet (mapDelete l k) q = mapGet l q := by
  induction l with
  | nil => rfl
  | cons a rest ih =>
    unfold mapDelete at ih ⊢
    by_cases ha : a.1 = k
    · rw [List.filter_cons_of_neg (by simp [ha])]
      rw [mapGet_cons, if_neg (fun hc : a.1 = q => hq (by rw [← hc, ha]))]
      exact ih
    · rw [List.filter_cons_of_pos (by simp [ha]), mapGet_cons, mapGet_cons]
      by_cases haq : a.1 = q
      · rw [if_pos haq, if_pos haq]
      · rw [if_neg haq, if_neg haq]; exact ih

/-- `addEntry` behaves pointwise like addition at the touched key. -/
theorem mapGet_addEntry_self (acc : List (Nat × Int)) (e : Nat × Int) :
    mapGet (addEntry acc e) e.1 = mapGet acc e.1 + e.2 := by
  unfold addEntry
  by_cases h : mapGet acc e.1 + e.2 = 0
  · rw [if_pos h, mapGet_mapDelete_self, h]
  · rw [if_neg h, mapGet_mapSet_self]

theorem mapGet_addEntry_other (acc : List (Nat × Int)) (e : Nat × Int)
    (q : Nat) (hq : q ≠ e.1) : mapGet (addEntry acc e) q = mapGet acc q := by
  unfold addEntry
  by_cases h : mapGet acc e.1 + e.2 = 0
  · rw [if_pos h, mapGet_mapDelete_other acc e.1 q hq]
  · rw [if_neg h, mapGet_mapSet_other acc e.1 q _ hq]

theorem mem_keys_mapDelete (l : List (Nat × Int)) (k q : Nat)
    (h : q ∈ (mapDelete l k).map Prod.fst) :
    q ≠ k ∧ q ∈ l.map Prod.fst := by
  rcases List.mem_map.mp h with ⟨e, he, hq⟩
  have hmem := List.mem_of_mem_filter he
  have hkey := List.of_mem_filter he
  constructor
  · intro hc
    subst hq
    simp [hc] at hkey
  · exact hq ▸ List.mem_map.mpr ⟨e, hmem, rfl⟩

theorem nodup_keys_addEntry (acc : List (Nat × Int)) (e : Nat × Int)
    (h : (acc.map Prod.fst).Nodup) : ((addEntry acc e).map Prod.fst).Nodup := by
  unfold addEntry
  by_cases hz : mapGet acc e.1 + e.2 = 0
  · rw [if_pos hz]
    exact ((List.filter_sublist acc).map Prod.fst).nodup h
  · rw [if_neg hz]
    by_cases hp : acc.any (fun x => x.1 == e.1) = true
    · rw [keyList_mapSet_present acc e.1 _ hp]; exact h
    · rw [keyList_mapSet_absent acc e.1 _ hp]
      have hk : e.1 ∉ acc.map Prod.fst := fun hm => hp ((any_key_iff acc e.1).mpr hm)
      simp only [List.nodup_append, List.nodup_cons, List.nodup_nil]
      refine ⟨h, by simp, ?_⟩
      intro q hq
      simp only [List.mem_singleton]
      intro hc
      exact hk (hc ▸ hq)

theorem normalized_addEntry (acc : List (Nat × Int)) (e : Nat × Int)
    (h : ∀ x ∈ acc, x.2 ≠ 0) : ∀ x ∈ addEntry acc e, x.2 ≠ 0 := by
  unfold addEntry
  by_cases hz : mapGet acc e.1 + e.2 = 0
  · rw [if_pos hz]
    exact fun x hx => h x (List.mem_of_mem_filter hx)
  · rw [if_neg hz]
    unfold mapSet
    by_cases hp : acc.any (fun x => x.1 == e.1) = true
    · rw [if_pos hp]
      intro x hx
      rcases List.mem_map.mp hx with ⟨y, hy, hview⟩
      by_cases hk : y.1 = e.1
      · rw [← hview]
        simp only [if_pos (show (y.1 == e.1) = true by simp [hk])]
        exact hz
      · rw [← hview]
        simp only [if_neg (show ¬ (y.1 == e.1) = true by simp [hk])]
        exact h y hy
    · rw [if_neg hp]
      intro x hx
      rcases List.mem_append.mp hx with hx | hx
      · exact h x hx
      · rw [List.mem_singleton.mp hx]
        exact hz

theorem mapGet_foldl_addEntry (l : List (Nat × Int)) :
    ∀ acc : List (Nat × Int), (l.map Prod.fst).Nodup → ∀ k : Nat,
    mapGet (l.foldl addEntry acc) k = mapGet acc k + mapGet l k := by
  induction l with
  | nil => intro acc _ k; rw [List.foldl_nil, mapGet_nil, add_zero]
  | cons e rest ih =>
    intro acc hnd k
    simp only [List.map_cons, List.nodup_cons] at hnd
    rw [List.foldl_cons, ih (addEntry acc e) hnd.2 k, mapGet_cons]
    by_cases hk : e.1 = k
    · subst hk
      rw [if_pos rfl, mapGet_addEntry_self,
        mapGet_eq_zero_of_not_mem rest e.1 hnd.1, add_zero]
    · rw [if_neg hk, mapGet_addEntry_other acc e k (fun hc => hk hc.symm)]

theorem nodup_keys_foldl_addEntry (l : List (Nat × Int)) :
    ∀ acc : List (Nat × Int), (acc.map Prod.fst).Nodup →
    ((l.foldl addEntry acc).map Prod.fst).Nodup := by
  induction l with
  | nil => exact fun acc h => h
  | cons e rest ih =>
    intro acc h
    exact ih (addEntry acc e) (nodup_keys_addEntry acc e h)

theorem normalized_foldl_addEntry (l : List (Nat × Int)) :
    ∀ acc : List (Nat × Int), (∀ x ∈ acc, x.2 ≠ 0) →
    ∀ x ∈ l.foldl addEntry acc, x.2 ≠ 0 := by
  induction l with
  | nil => exact fun acc h => h
  | cons e rest ih =>
    intro acc h
    exact ih (addEntry acc e) (normalized_addEntry acc e h)

/-! ### CountVector-level lemmas -/

theorem CountVector.get_add (a b : CountVector) (hb : b.WF) (k : Nat) :
    (a.add b).get k = a.get k + b.get k :=
  mapGet_foldl_addEntry b.entries a.entries hb k

theorem CountVector.add_WF (a b : CountVector) (ha : a.WF) : (a.add b).WF :=
  nodup_keys_foldl_addEntry b.entries a.entries ha

theorem CountVector.add_normalized (a b : CountVector) (ha : a.Normalized) :
    (a.add b).Normalized :=
  normalized_foldl_addEntry b.entries a.entries ha

theorem CountVector.mem_keyList_iff (a : CountVector) (ha : a.WF)
    (na : a.Normalized) (k : Nat) : k ∈ a.keyList ↔ a.get k ≠ 0 := by
  constructor
  · intro hm
    rcases List.mem_map.mp hm with ⟨e, he, hk⟩
    have := mapGet_of_mem_nodup a.entries e ha he
    rw [CountVector.get, ← hk, this]
    exact na e he
  · exact fun h => mem_keys_of_mapGet_ne a.entries k h

/-- The characterization `equals` actually computes, for well-formed
normalized vectors: full-domain value equality. Shared helper used by the
claim theorems about count-vector equality and group laws. -/
theorem equals_iff_pointwise_aux (a b : CountVector) (ha : a.WF) (hb : b.WF)
    (na : a.Normalized) (nb : b.Normalized) :
    a.equals b = true ↔ a.PointwiseEq b := by
  simp only [CountVector.equals, Bool.and_eq_true, beq_iff_eq,
    List.all_eq_true]
  constructor
  · rintro ⟨hlen, hall⟩ k
    by_cases hz : a.get k = 0
    · rw [hz]
      by_contra hbz
      have hbne : b.get k ≠ 0 := fun hc => hbz hc.symm
      have hkb : k ∈ b.keyList := (b.mem_keyList_iff hb nb k).mpr hbne
      have hsub : ∀ q ∈ a.keyList, q ∈ b.keyList := by
        intro q hq
        rcases List.mem_map.mp hq with ⟨e, he, hkq⟩
        have hge : b.get e.1 = e.2 := by simpa using hall e he
        apply (b.mem_keyList_iff hb nb q).mpr
        rw [← hkq, hge]
        exact na e he
      have hfin : a.keyList.toFinset = b.keyList.toFinset := by
        apply Finset.eq_of_subset_of_card_le
        · intro q hq
          exact List.mem_toFinset.mpr (hsub q (List.mem_toFinset.mp hq))
        · rw [List.toFinset_card_of_nodup ha, List.toFinset_card_of_nodup hb]
          simp only [CountVector.keyList, List.length_map]
          omega
      have hka : k ∈ a.keyList := by
        have hkf : k ∈ b.keyList.toFinset := List.mem_toFinset.mpr hkb
        rw [← hfin] at hkf
        exact List.mem_toFinset.mp hkf
      exact ((a.mem_keyList_iff ha na k).mp hka) hz
    · have hmem := mapGet_mem_of_ne a.entries k hz
      have := hall (k, a.get k) hmem
      simpa using this.symm
  · intro hpt
    constructor
    · have hiff : ∀ q, q ∈ a.keyList ↔ q ∈ b.keyList := by
        intro q
        rw [a.mem_keyList_iff ha na q, b.mem_keyList_iff hb nb q, hpt q]
      have hfin : a.keyList.toFinset = b.keyList.toFinset := by
        ext q
        simp only [List.mem_toFinset]
        exact hiff q
      have := congrArg Finset.card hfin
      rw [List.toFinset_card_of_nodup ha, List.toFinset_card_of_nodup hb] at this
      simpa [CountVector.keyList] using this
    · intro e he
      have hae : a.get e.1 = e.2 := mapGet_of_mem_nodup a.entries e ha he
      simp [← hpt e.1, hae]

theorem foldl_addEntry_eq_nil (l : List (Nat × Int)) :
    ∀ acc : List (Nat × Int), (l.map Prod.fst).Nodup →
    (∀ q ∈ acc.map Prod.fst, q ∈ l.map Prod.fst) →
    (∀ e ∈ l, mapGet acc e.1 = -e.2) →
    l.foldl addEntry acc = [] := by
  induction l with
  | nil =>
    intro acc _ hsub _
    match acc with
    | [] => rfl
    | e :: rest => exact absurd (hsub e.1 (by simp)) (by simp)
  | cons e rest ih =>
    intro acc hnd hsub hval
    simp only [List.map_cons, List.nodup_cons] at hnd
    rw [List.foldl_cons]
    have hstep : addEntry acc e = mapDelete acc e.1 := by
      unfold addEntry
      rw [if_pos (by rw [hval e (by simp)]; ring)]
    rw [hstep]
    apply ih (mapDelete acc e.1) hnd.2
    · intro q hq
      rcases mem_keys_mapDelete acc e.1 q hq with ⟨hne, hmem⟩
      have := hsub q hmem
      simp only [List.map_cons, List.mem_cons] at this
      exact this.resolve_left hne
    · intro x hx
      have hxk : x.1 ≠ e.1 := by
        intro hc
        apply hnd.1
        exact hc ▸ List.mem_map.mpr ⟨x, hx, rfl⟩
      rw [mapGet_mapDelete_other acc e.1 x.1 hxk]
      exact hval x (by simp [hx])

theorem CountVector.add_neg_entries (v : CountVector) (hv : v.WF) :
    (v.add v.neg).entries = [] := by
  show v.neg.entries.foldl addEntry v.entries = []
  have hkeys : v.neg.entries.map Prod.fst = v.entries.map Prod.fst := by
    simp [CountVector.neg]
  apply foldl_addEntry_eq_nil
  · rw [hkeys]; exact hv
  · intro q hq; rw [hkeys]; exact hq
  · intro e he
    rcases List.mem_map.mp he with ⟨x, hx, hview⟩
    rw [← hview]
    simp only
    rw [mapGet_of_mem_nodup v.entries x hv hx, neg_neg]

/-! ### Claim C7: CountVector.equals vs full-domain value equality -/

/-- C7 counterexample: the claim "equality is value equality over the full
domain of classes, so a vector holding an explicit zero entry (for example one
produced by scalarMul(0)) is equal to the vector with that key absent" is
false on the code: `(fromSlice [0]).scalarMul 0` stores the explicit entry
`(0, 0)`, agrees with `ZERO` at every class, yet `equals` returns `false`
(the stored-entry counts 1 and 0 differ). -/
theorem countVector_pointwise_but_not_equals :
    CountVector.PointwiseEq ((CountVector.fromSlice [0]).scalarMul 0)
      CountVector.ZERO ∧
    ((CountVector.fromSlice [0]).scalarMul 0).equals CountVector.ZERO
      = false := by
  constructor
  · have hv : (CountVector.fromSlice [0]).scalarMul 0 =
        CountVector.mk [(0, 0)] := by decide
    rw [hv]
    intro k
    show mapGet [(0, 0)] k = mapGet [] k
    rw [mapGet_cons]
    split <;> rfl
  · decide

/-- C7 (amended): `u.equals v` decides value equality over the full domain of
step classes for well-formed count vectors that store no explicit zero entry;
the restriction to zero-free stored entries is forced by the counterexample
(`scalarMul 0` output stores explicit zeros and is `equals`-distinct from the
key-absent form). -/
theorem countVector_equals_iff_pointwise (u v : CountVector)
    (hu : u.WF) (hv : v.WF) (nu : u.Normalized) (nv : v.Normalized) :
    u.equals v = true ↔ u.PointwiseEq v :=
  equals_iff_pointwise_aux u v hu hv nu nv

/-- Witness for `countVector_equals_iff_pointwise` at the concrete vectors
built from the words `[0,1]` and `[1,0]` (stored in different insertion
orders but pointwise equal). -/
theorem countVector_equals_iff_pointwise_witness :
    (CountVector.fromSlice [0, 1]).WF ∧
    (CountVector.fromSlice [1, 0]).WF ∧
    (CountVector.fromSlice [0, 1]).Normalized ∧
    (CountVector.fromSlice [1, 0]).Normalized ∧
    ((CountVector.fromSlice [0, 1]).equals (CountVector.fromSlice [1, 0])
        = true ↔
      CountVector.PointwiseEq (CountVector.fromSlice [0, 1])
        (CountVector.fromSlice [1, 0])) :=
  ⟨by decide, by decide, by decide, by decide,
    countVector_equals_iff_pointwise _ _ (by decide) (by decide) (by decide)
      (by decide)⟩

/-! ### Claim C8: count-vector group laws -/

/-- C8 counterexample: commutativity of `add` up to `equals` fails for every
pair of count vectors: with `v = (fromSlice [0]).scalarMul 0` (stored entry
`(0, 0)`) and `w = ZERO`, `v.add w` keeps the explicit zero entry while
`w.add v` deletes it, and `equals` distinguishes the two results. -/
theorem countVector_add_comm_counterexample :
    (((CountVector.fromSlice [0]).scalarMul 0).add CountVector.ZERO).equals
      (CountVector.ZERO.add ((CountVector.fromSlice [0]).scalarMul 0))
      = false := by
  decide

/-- C8 (amended): for every well-formed count vector `v` (distinct stored
keys, as JS Maps guarantee), `v.add(v.neg())` equals `ZERO`; and
`v.add(w).equals(w.add(v))` holds whenever `v` and `w` additionally store no
explicit zero entry — the restriction on the commutativity law is forced by
the counterexample above, while the inverse law needs no such restriction. -/
theorem countVector_group_laws (v w : CountVector)
    (hv : v.WF) (hw : w.WF) :
    (v.add v.neg).equals CountVector.ZERO = true ∧
    (v.Normalized → w.Normalized →
      (v.add w).equals (w.add v) = true) := by
  constructor
  · have hnil := CountVector.add_neg_entries v hv
    simp [CountVector.equals, hnil, CountVector.ZERO]
  · intro nv nw
    apply (equals_iff_pointwise_aux (v.add w) (w.add v)
      (CountVector.add_WF v w hv) (CountVector.add_WF w v hw)
      (CountVector.add_normalized v w nv)
      (CountVector.add_normalized w v nw)).mpr
    intro k
    rw [CountVector.get_add v w hw k, CountVector.get_add w v hv k]
    ring

/-- Witness for `countVector_group_laws` at `v = fromSlice [0, 0, 1]`,
`w = fromSlice [1, 2]`. -/
theorem countVector_group_laws_witness :
    (CountVector.fromSlice [0, 0, 1]).WF ∧
    (CountVector.fromSlice [1, 2]).WF ∧
    (((CountVector.fromSlice [0, 0, 1]).add
        (CountVector.fromSlice [0, 0, 1]).neg).equals CountVector.ZERO
        = true ∧
      ((CountVector.fromSlice [0, 0, 1]).Normalized →
        (CountVector.fromSlice [1, 2]).Normalized →
        ((CountVector.fromSlice [0, 0, 1]).add
            (CountVector.fromSlice [1, 2])).equals
          ((CountVector.fromSlice [1, 2]).add
            (CountVector.fromSlice [0, 0, 1])) = true)) :=
  ⟨by decide, by decide,
    countVector_group_laws _ _ (by decide) (by decide)⟩

/-! ### Claim C2: guidedGsChains / weakPeriodCountVector -/

/-- The periodicity test inside `weakPeriodCountVector` (src/ternary.js):
does the length-`l` prefix of `arr`, repeated `l`-periodically, reproduce all
of `arr` (elementwise via `CountVector.equals`)? -/
def weakPeriodCheck (arr : List CountVector) (l : Nat) : Bool :=
  (List.range arr.length).all (fun i =>
    (arr.getD i CountVector.ZERO).equals
      ((arr.take l).getD (i % l) CountVector.ZERO))

/-- The `for (let l = 1; l <= arr.length; l++)` search of
`weakPeriodCountVector`, with an explicit fuel argument (the fuel
`arr.length` is exactly enough to reach `l = arr.length`; once `l` exceeds
`arr.length` the function returns `arr`, matching the source's fallthrough
return). -/
def weakPeriodGo (arr : List CountVector) : Nat → Nat → List CountVector
  | 0, _ => arr
  | fuel + 1, l =>
    if l ≤ arr.length then
      if weakPeriodCheck arr l then arr.take l
      else weakPeriodGo arr fuel (l + 1)
    else arr

/-- `weakPeriodCountVector(arr)` from src/ternary.js: the shortest prefix
that weakly (i.e. with truncation at the end) generates `arr` periodically. -/
def weakPeriodCountVector (arr : List CountVector) : List CountVector :=
  weakPeriodGo arr (arr.length + 1) 1

/-- The acceptance test inside `guidedGsChains` (src/ternary.js): the last
element of the rotation must differ (via `CountVector.equals`) from every
earlier element.  The empty case is unreachable, as `rotations` of a
non-empty chain produce non-empty rotations. -/
def acceptGsRotation (rotation : List CountVector) : Bool :=
  match rotation.getLast? with
  | none => true
  | some last => !(rotation.dropLast.any (fun cv => cv.equals last))

/-- `guidedGsChains(chain)` from src/ternary.js: for every rotation of the
chain, if its last element differs from all earlier elements, push the
weak-period reduction of the rotation *without its last element*. -/
def guidedGsChains (chain : List CountVector) : List (List CountVector) :=
  (rotationsList chain).foldl
    (fun results rotation =>
      if acceptGsRotation rotation then
        results ++ [weakPeriodCountVector rotation.dropLast]
      else results)
    []

theorem foldl_push_filter {α β : Type} (p : α → Bool) (f : α → β) :
    ∀ (rs : List α) (acc : List β),
    rs.foldl (fun res r => if p r then res ++ [f r] else res) acc
      = acc ++ (rs.filter p).map f := by
  intro rs
  induction rs with
  | nil => intro acc; simp
  | cons r rest ih =>
    intro acc
    by_cases h : p r
    · simp only [List.foldl_cons, if_pos h, ih, List.filter_cons_of_pos h,
        List.map_cons, List.append_assoc, List.singleton_append]
    · simp only [List.foldl_cons, if_neg h, ih,
        List.filter_cons_of_neg (by simpa using h)]

/-- Shape of a `weakPeriodGo` run: either it stops at the first length
`l' ≥ l` passing the check and returns that prefix, or no length in
`[l, arr.length]` passes and it returns `arr` whole. -/
theorem weakPeriodGo_spec (arr : List CountVector) :
    ∀ fuel l, arr.length + 1 - l ≤ fuel → 1 ≤ l →
    (∃ l', l ≤ l' ∧ l' ≤ arr.length ∧ weakPeriodCheck arr l' = true ∧
        weakPeriodGo arr fuel l = arr.take l' ∧
        (∀ m, l ≤ m → m < l' → weakPeriodCheck arr m = false)) ∨
    (weakPeriodGo arr fuel l = arr ∧
      (∀ m, l ≤ m → m ≤ arr.length → weakPeriodCheck arr m = false)) := by
  intro fuel
  induction fuel with
  | zero =>
    intro l hfuel _
    right
    constructor
    · rfl
    · intro m hm hmlen
      omega
  | succ fuel ih =>
    intro l hfuel hl
    by_cases hlen : l ≤ arr.length
    · by_cases hchk : weakPeriodCheck arr l = true
      · left
        exact ⟨l, le_refl l, hlen, hchk,
          by simp [weakPeriodGo, hlen, hchk], fun m hm hml => by omega⟩
      · have hrec : weakPeriodGo arr (fuel + 1) l = weakPeriodGo arr fuel (l + 1) := by
          simp [weakPeriodGo, hlen, hchk]
        rcases ih (l + 1) (by omega) (by omega) with
          ⟨l', hl', hlen', hchk', heq, hmin⟩ | ⟨heq, hnone⟩
        · left
          refine ⟨l', by omega, hlen', hchk', hrec ▸ heq, ?_⟩
          intro m hm hml
          by_cases hml' : m = l
          · subst hml'
            exact Bool.eq_false_iff.mpr hchk
          · exact hmin m (by omega) hml
        · right
          refine ⟨hrec ▸ heq, ?_⟩
          intro m hm hmlen
          by_cases hml : m = l
          · subst hml
            exact Bool.eq_false_iff.mpr hchk
          · exact hnone m (by omega) hmlen
    · right
      constructor
      · cases fuel <;> simp [weakPeriodGo, hlen]
      · intro m hm hmlen
        omega

theorem weakPeriodCheck_length (arr : List CountVector)
    (hself : ∀ cv ∈ arr, cv.equals cv = true) :
    weakPeriodCheck arr arr.length = true := by
  unfold weakPeriodCheck
  rw [List.all_eq_true]
  intro i hi
  rw [List.mem_range] at hi
  rw [List.take_length, Nat.mod_eq_of_lt hi]
  rw [List.getD_eq_getElem arr CountVector.ZERO hi]
  exact hself _ (List.getElem_mem hi)

/-- C2 counterexample: on the two-element chain of distinct count vectors
`[⟨0↦1⟩, ⟨1↦1⟩]` both rotations are accepted (their last element differs
from the other element), but the code returns the weak-period reduction of
the rotation *minus its last element* (`[⟨0↦1⟩]`, resp. `[⟨1↦1⟩]`), while
the claim demands the minimal-period reduction of the whole accepted chain,
which here is the full two-element chain itself. -/
theorem guidedGsChains_claim_counterexample :
    guidedGsChains [CountVector.fromSlice [0], CountVector.fromSlice [1]] =
      [[CountVector.fromSlice [0]], [CountVector.fromSlice [1]]] ∧
    acceptGsRotation [CountVector.fromSlice [0], CountVector.fromSlice [1]]
      = true ∧
    weakPeriodCountVector
      [CountVector.fromSlice [0], CountVector.fromSlice [1]] =
      [CountVector.fromSlice [0], CountVector.fromSlice [1]] ∧
    ([CountVector.fromSlice [0]] : List CountVector) ≠
      [CountVector.fromSlice [0], CountVector.fromSlice [1]] := by
  decide

/-- C2 (amended): `guidedGsChains` accepts a rotation iff its last element
differs from every other element (`acceptGsRotation`), and for each accepted
rotation returns the rotation *without its last element* reduced to its
minimal weak period: the reduction `weakPeriodCountVector arr` is a prefix
of `arr`, passes the weak-periodicity test, and its length is minimal among
the lengths `l ≥ 1` passing that test.  (The self-equality hypothesis holds
for all well-formed count vectors and in particular all vectors the engine
builds; it is needed because `CountVector.equals` is reflexive only on
duplicate-key-free maps.) -/
theorem guidedGsChains_amended (chain arr : List CountVector)
    (hself : ∀ cv ∈ arr, cv.equals cv = true) :
    guidedGsChains chain =
      ((rotationsList chain).filter acceptGsRotation).map
        (fun r => weakPeriodCountVector r.dropLast) ∧
    weakPeriodCountVector arr = arr.take (weakPeriodCountVector arr).length ∧
    (arr ≠ [] → 1 ≤ (weakPeriodCountVector arr).length ∧
      weakPeriodCheck arr (weakPeriodCountVector arr).length = true) ∧
    (∀ l, 1 ≤ l → weakPeriodCheck arr l = true →
      (weakPeriodCountVector arr).length ≤ l) := by
  have hspec := weakPeriodGo_spec arr (arr.length + 1) 1 (by omega)
    (le_refl 1)
  refine ⟨?_, ?_, ?_, ?_⟩
  · unfold guidedGsChains
    rw [foldl_push_filter acceptGsRotation
      (fun r => weakPeriodCountVector r.dropLast) (rotationsList chain) []]
    rw [List.nil_append]
  · rcases hspec with ⟨l', _, hlen', _, heq, _⟩ | ⟨heq, _⟩
    · unfold weakPeriodCountVector
      rw [heq, List.length_take]
      rw [Nat.min_eq_left hlen']
    · unfold weakPeriodCountVector
      rw [heq, List.take_length]
  · intro hne
    have hlenpos : 1 ≤ arr.length := by
      cases arr with
      | nil => exact absurd rfl hne
      | cons a rest => simp
    rcases hspec with ⟨l', hl', hlen', hchk', heq, _⟩ | ⟨_, hnone⟩
    · unfold weakPeriodCountVector
      rw [heq, List.length_take, Nat.min_eq_left hlen']
      exact ⟨hl', hchk'⟩
    · exact absurd (weakPeriodCheck_length arr hself)
        (by simp [hnone arr.length hlenpos (le_refl arr.length)])
  · intro l hl hchk
    rcases hspec with ⟨l', hl', hlen', hchk', heq, hmin⟩ | ⟨heq, hnone⟩
    · unfold weakPeriodCountVector
      rw [heq, List.length_take, Nat.min_eq_left hlen']
      by_contra hc
      push_neg at hc
      exact absurd hchk (by simp [hmin l hl hc])
    · unfold weakPeriodCountVector
      rw [heq]
      by_contra hc
      push_neg at hc
      exact absurd hchk (by simp [hnone l hl (by omega)])

/-- Witness for `guidedGsChains_amended` at the concrete chain
`[⟨0↦1⟩, ⟨1↦1⟩]`. -/
theorem guidedGsChains_amended_witness :
    (∀ cv ∈ ([CountVector.fromSlice [0], CountVector.fromSlice [1]] :
        List CountVector), cv.equals cv = true) ∧
    (guidedGsChains [CountVector.fromSlice [0], CountVector.fromSlice [1]] =
      ((rotationsList [CountVector.fromSlice [0],
          CountVector.fromSlice [1]]).filter acceptGsRotation).map
        (fun r => weakPeriodCountVector r.dropLast) ∧
    weakPeriodCountVector [CountVector.fromSlice [0],
        CountVector.fromSlice [1]] =
      ([CountVector.fromSlice [0], CountVector.fromSlice [1]] :
        List CountVector).take (weakPeriodCountVector
          [CountVector.fromSlice [0], CountVector.fromSlice [1]]).length ∧
    (([CountVector.fromSlice [0], CountVector.fromSlice [1]] :
        List CountVector) ≠ [] →
      1 ≤ (weakPeriodCountVector [CountVector.fromSlice [0],
          CountVector.fromSlice [1]]).length ∧
      weakPeriodCheck [CountVector.fromSlice [0], CountVector.fromSlice [1]]
        (weakPeriodCountVector [CountVector.fromSlice [0],
          CountVector.fromSlice [1]]).length = true) ∧
    (∀ l, 1 ≤ l →
      weakPeriodCheck [CountVector.fromSlice [0], CountVector.fromSlice [1]]
        l = true →
      (weakPeriodCountVector [CountVector.fromSlice [0],
          CountVector.fromSlice [1]]).length ≤ l)) :=
  ⟨by decide, guidedGsChains_amended _ _ (by decide)⟩

/-! ### Claim C3: det3 / getUnimodularBasis -/

/-- The 3-entry step-vector objects (string keys "0", "1", "2" in JS) that
`guideFrameToResult` and `getUnimodularBasis` work with. -/
structure V3 where
  x : Int
  y : Int
  z : Int
deriving DecidableEq, Repr

/-- The `cvToObj` conversion inside `guideFrameToResult` (src/ternary.js):
a count vector restricted to classes 0, 1, 2. -/
def cvToObj (cv : CountVector) : V3 :=
  ⟨cv.get 0, cv.get 1, cv.get 2⟩

/-- `det3(v0, v1, v2)` from src/ternary.js: the signed 3×3 determinant by the
rule of Sarrus. -/
def det3 (v0 v1 v2 : V3) : Int :=
  v0.x * v1.y * v2.z + v0.y * v1.z * v2.x + v0.z * v1.x * v2.y -
    v0.z * v1.y * v2.x - v0.y * v1.x * v2.z - v0.x * v1.z * v2.y

/-- `toStepVectorObj(v)` from src/ternary.js; on a 3-entry integer object it
is the identity. -/
def toStepVectorObj (v : V3) : V3 :=
  ⟨v.x, v.y, v.z⟩

/-- The `GuideFrame` class from src/ternary.js. -/
structure GuideFrame where
  gs : List CountVector
  polyoffset : List CountVector
deriving DecidableEq, Repr

/-- `GuideFrame.prototype.complexity`. -/
def GuideFrame.complexity (f : GuideFrame) : Nat :=
  f.gs.length * f.polyoffset.length

/-- `GuideFrame.prototype.multiplicity`. -/
def GuideFrame.multiplicity (f : GuideFrame) : Nat :=
  f.polyoffset.length

/-- The record `guideFrameToResult(structure)` from src/ternary.js returns. -/
structure GuideFrameResult where
  gs : List V3
  aggregate : V3
  polyoffset : List V3
  multiplicity : Nat
  complexity : Nat
deriving DecidableEq, Repr

/-- `guideFrameToResult(structure)` from src/ternary.js. -/
def guideFrameToResult (st : GuideFrame) : GuideFrameResult :=
  { gs := st.gs.map cvToObj
    aggregate := cvToObj (st.gs.foldl CountVector.add CountVector.ZERO)
    polyoffset := st.polyoffset.map cvToObj
    multiplicity := st.multiplicity
    complexity := st.complexity }

/-- The `i ≤ j` index-pair traversal order of the gs/gs double loop in
`getUnimodularBasis` (src/ternary.js): outer index `i` ascending, inner
index `j` from `i`. -/
def upperPairs (l : List V3) : List (V3 × V3) :=
  l.enum.flatMap (fun p => (l.drop p.1).map (fun w => (p.2, w)))

/-- The unimodularity test `Math.abs(det3(stepSig, v, w)) === 1` applied to
the first matching pair of a candidate list. -/
def findBasisPair (stepSig : V3) (pairs : List (V3 × V3)) :
    Option (V3 × V3) :=
  pairs.find? (fun p => (det3 stepSig p.1 p.2).natAbs == 1)

/-- `getUnimodularBasis(structures, stepSig)` from src/ternary.js.  For a
multiplicity-1 frame it scans the `gs × gs` upper pairs and then the
`polyoffset × gs` pairs; for any other multiplicity it tests the single pair
`(gs[0], polyoffset[last])`.  A multiplicity-&gt;1 frame with empty `gs` would
make the JS code throw while reading fields of `undefined`; the model skips
such a frame (the engine never builds one), and theorems exclude it by
hypothesis. -/
def getUnimodularBasis :
    List GuideFrame → V3 → Option (V3 × V3 × GuideFrameResult)
  | [], _ => none
  | st :: rest, stepSig =>
    let result := guideFrameToResult st
    if st.multiplicity = 1 then
      match findBasisPair stepSig (upperPairs result.gs) with
      | some p => some (toStepVectorObj p.1, toStepVectorObj p.2, result)
      | none =>
        match findBasisPair stepSig
            (result.polyoffset.flatMap
              (fun v => result.gs.map (fun w => (v, w)))) with
        | some p => some (toStepVectorObj p.1, toStepVectorObj p.2, result)
        | none => getUnimodularBasis rest stepSig
    else
      match result.polyoffset.getLast? with
      | none => getUnimodularBasis rest stepSig
      | some off =>
        match result.gs.head? with
        | none => getUnimodularBasis rest stepSig
        | some v0 =>
          if (det3 stepSig v0 off).natAbs = 1 then
            some (toStepVectorObj v0, toStepVectorObj off, result)
          else getUnimodularBasis rest stepSig

/-- The pairs the specification describes for one frame: `gs × gs` upper
pairs when the multiplicity is 1, the single gs/polyoffset pair otherwise. -/
def claimedPairs (f : GuideFrame) : List (V3 × V3) :=
  let r := guideFrameToResult f
  if f.multiplicity = 1 then upperPairs r.gs
  else
    match r.polyoffset.getLast?, r.gs.head? with
    | some off, some v0 => [(v0, off)]
    | _, _ => []

theorem toStepVectorObj_id (v : V3) : toStepVectorObj v = v := rfl

theorem det3_zero_middle (s w : V3) : det3 s ⟨0, 0, 0⟩ w = 0 := by
  simp [det3]

theorem cvToObj_zero : cvToObj CountVector.ZERO = ⟨0, 0, 0⟩ := rfl

theorem find?_map_comp {α β : Type} (g : α → β) (q : β → Bool)
    (l : List α) : (l.map g).find? q = (l.find? (fun a => q (g a))).map g := by
  induction l with
  | nil => rfl
  | cons a rest ih =>
    by_cases h : q (g a) = true
    · simp [List.find?_cons, h]
    · simp only [List.map_cons, List.find?_cons, h, Bool.false_eq_true,
        if_false]
      exact ih

theorem find?_append_first {α : Type} (p : α → Bool) (l1 l2 : List α) :
    (l1 ++ l2).find? p =
      match l1.find? p with
      | some x => some x
      | none => l2.find? p := by
  induction l1 with
  | nil => rfl
  | cons a rest ih =>
    cases h : p a with
    | true => simp [List.find?_cons, h]
    | false =>
      simp only [List.cons_append, List.find?_cons, h]
      exact ih

theorem getUnimodularBasis_cons (st : GuideFrame) (rest : List GuideFrame)
    (s : V3)
    (h1 : st.multiplicity = 1 → st.polyoffset = [CountVector.ZERO])
    (h0 : st.multiplicity ≠ 1 → st.gs ≠ []) :
    getUnimodularBasis (st :: rest) s =
      match findBasisPair s (claimedPairs st) with
      | some p => some (p.1, p.2, guideFrameToResult st)
      | none => getUnimodularBasis rest s := by
  by_cases hm : st.multiplicity = 1
  · have hpoly := h1 hm
    have hcl : claimedPairs st = upperPairs (guideFrameToResult st).gs := by
      simp [claimedPairs, hm]
    rw [hcl]
    cases hfb : findBasisPair s (upperPairs (guideFrameToResult st).gs) with
    | some p =>
      simp only [getUnimodularBasis, if_pos hm, hfb, toStepVectorObj_id]
    | none =>
      have hprod : findBasisPair s
          ((guideFrameToResult st).polyoffset.flatMap
            (fun v => (guideFrameToResult st).gs.map (fun w => (v, w))))
          = none := by
        apply List.find?_eq_none.mpr
        intro pair hpair
        simp only [guideFrameToResult, hpoly, List.map_cons, List.map_nil,
          cvToObj_zero, List.flatMap_cons, List.flatMap_nil,
          List.append_nil, List.mem_map] at hpair
        rcases hpair with ⟨w, _, hw⟩
        rw [← hw]
        simp [det3_zero_middle]
      simp only [getUnimodularBasis, if_pos hm, hfb, hprod]
  · cases hlast : (guideFrameToResult st).polyoffset.getLast? with
    | none =>
      have hcl : claimedPairs st = [] := by
        simp [claimedPairs, hm, hlast]
      rw [hcl]
      simp only [getUnimodularBasis, if_neg hm, hlast, findBasisPair,
        List.find?_nil]
    | some off =>
      cases hhead : (guideFrameToResult st).gs.head? with
      | none =>
        exfalso
        apply h0 hm
        have : (guideFrameToResult st).gs = [] := List.head?_eq_none_iff.mp hhead
        simpa [guideFrameToResult] using this
      | some v0 =>
        have hcl : claimedPairs st = [(v0, off)] := by
          simp [claimedPairs, hm, hlast, hhead]
        rw [hcl]
        by_cases hdet : (det3 s v0 off).natAbs = 1
        · simp only [getUnimodularBasis, if_neg hm, hlast, hhead,
            if_pos hdet, toStepVectorObj_id, findBasisPair, List.find?_cons,
            beq_iff_eq, hdet]
          simp
        · simp only [getUnimodularBasis, if_neg hm, hlast, hhead,
            if_neg hdet, findBasisPair, List.find?_cons]
          have : ((det3 s v0 off).natAbs == 1) = false := by
            simp [hdet]
          simp [this]

/-- The first-tested-pair semantics the specification describes for
`getUnimodularBasis`: flatten the claimed pair lists of the ranked frames in
order tagged with their frame, take the first pair whose determinant with the
step signature is ±1, and return it with the frame's result record. -/
def basisSpecRhs (L : List GuideFrame) (s : V3) :
    Option (V3 × V3 × GuideFrameResult) :=
  ((L.flatMap (fun f => (claimedPairs f).map (fun p => (p.1, p.2, f)))).find?
    (fun t => (det3 s t.1 t.2.1).natAbs == 1)).map
    (fun t => (t.1, t.2.1, guideFrameToResult t.2.2))

/-- C3: `getUnimodularBasis` iterates the ranked frames in the given order,
tests the `(gs i, gs j)` pairs (`i ≤ j`) for multiplicity-1 frames and the
single gs/polyoffset pair `(gs 0, polyoffset last)` for frames of other
multiplicity, returns the first tested pair whose signed 3×3 determinant
with the step signature has absolute value 1 together with the originating
frame, and returns `none` iff no frame in the whole list has such a pair.
The hypotheses record the two invariants of frames the engine builds:
multiplicity-1 frames carry the polyoffset `[ZERO]` (whose extra
polyoffset × gs tests can never fire, every such determinant being 0), and
other frames carry a non-empty `gs`. -/
theorem getUnimodularBasis_spec (structures : List GuideFrame) (stepSig : V3)
    (H1 : ∀ f ∈ structures, f.multiplicity = 1 →
      f.polyoffset = [CountVector.ZERO])
    (H0 : ∀ f ∈ structures, f.multiplicity ≠ 1 → f.gs ≠ []) :
    getUnimodularBasis structures stepSig = basisSpecRhs structures stepSig ∧
    (getUnimodularBasis structures stepSig = none ↔
      ∀ f ∈ structures, ∀ p ∈ claimedPairs f,
        (det3 stepSig p.1 p.2).natAbs ≠ 1) := by
  have main : ∀ L : List GuideFrame,
      (∀ f ∈ L, f.multiplicity = 1 → f.polyoffset = [CountVector.ZERO]) →
      (∀ f ∈ L, f.multiplicity ≠ 1 → f.gs ≠ []) →
      getUnimodularBasis L stepSig = basisSpecRhs L stepSig := by
    intro L
    induction L with
    | nil => intro _ _; rfl
    | cons st rest ih =>
      intro h1 h0
      rw [getUnimodularBasis_cons st rest stepSig (h1 st (by simp))
        (h0 st (by simp))]
      unfold basisSpecRhs
      rw [List.flatMap_cons, find?_append_first, find?_map_comp]
      cases hfb : findBasisPair stepSig (claimedPairs st) with
      | some p =>
        unfold findBasisPair at hfb
        rw [hfb]
        rfl
      | none =>
        unfold findBasisPair at hfb
        rw [hfb]
        exact ih (fun f hf => h1 f (by simp [hf]))
          (fun f hf => h0 f (by simp [hf]))
  refine ⟨main structures H1 H0, ?_⟩
  rw [main structures H1 H0]
  unfold basisSpecRhs
  rw [Option.map_eq_none']
  rw [List.find?_eq_none]
  constructor
  · intro h f hf p hp
    have := h (p.1, p.2, f)
      (List.mem_flatMap.mpr ⟨f, hf, List.mem_map.mpr ⟨p, hp, rfl⟩⟩)
    simpa using this
  · intro h t ht
    rcases List.mem_flatMap.mp ht with ⟨f, hf, htf⟩
    rcases List.mem_map.mp htf with ⟨p, hp, hview⟩
    rw [← hview]
    simpa using h f hf p hp

/-- Witness for `getUnimodularBasis_spec`: a single multiplicity-1 frame
with gs vectors `⟨0↦1⟩, ⟨1↦1⟩` and the step signature `(1,1,1)`; the pair
`(gs 0, gs 1)` has determinant 1. -/
theorem getUnimodularBasis_spec_witness :
    (∀ f ∈ [GuideFrame.mk [CountVector.fromSlice [0],
        CountVector.fromSlice [1]] [CountVector.ZERO]],
      f.multiplicity = 1 → f.polyoffset = [CountVector.ZERO]) ∧
    (∀ f ∈ [GuideFrame.mk [CountVector.fromSlice [0],
        CountVector.fromSlice [1]] [CountVector.ZERO]],
      f.multiplicity ≠ 1 → f.gs ≠ []) ∧
    (getUnimodularBasis [GuideFrame.mk [CountVector.fromSlice [0],
        CountVector.fromSlice [1]] [CountVector.ZERO]] ⟨1, 1, 1⟩ =
      basisSpecRhs [GuideFrame.mk [CountVector.fromSlice [0],
        CountVector.fromSlice [1]] [CountVector.ZERO]] ⟨1, 1, 1⟩ ∧
    (getUnimodularBasis [GuideFrame.mk [CountVector.fromSlice [0],
        CountVector.fromSlice [1]] [CountVector.ZERO]] ⟨1, 1, 1⟩ = none ↔
      ∀ f ∈ [GuideFrame.mk [CountVector.fromSlice [0],
          CountVector.fromSlice [1]] [CountVector.ZERO]],
        ∀ p ∈ claimedPairs f, (det3 ⟨1, 1, 1⟩ p.1 p.2).natAbs ≠ 1)) :=
  ⟨by decide, by decide,
    getUnimodularBasis_spec _ _ (by decide) (by decide)⟩

/-! ### Claim C4: edTuningsForTernary -/

/-- `EDO_BOUND` from src/ternary.js. -/
def EDO_BOUND : Nat := 111

/-- `S_LOWER_BOUND` from src/ternary.js (cents). -/
def S_LOWER_BOUND : ℚ := 20

/-- `S_UPPER_BOUND` from src/ternary.js (cents). -/
def S_UPPER_BOUND : ℚ := 200

/-- `stepsAsCents(steps, ed, equaveCents)` from src/ternary.js, with exact
rational arithmetic in place of JS floats (division by `ed = 0` yields 0 in
ℚ where JS yields Infinity; both fall outside any finite cents window with a
positive lower bound, which is the only way the engine uses it). -/
def stepsAsCents (steps ed : Nat) (equaveCents : ℚ) : ℚ :=
  ((steps : ℚ) / (ed : ℚ)) * equaveCents

/-- `edTuningsForTernary(stepSig, edBound, aberLower, aberUpper, equaveCents)`
from src/ternary.js: the triple loop `3 ≤ l < edBound`, `2 ≤ m < l`,
`1 ≤ s < m` with the bound and cents-window tests. -/
def edTuningsForTernary (stepSig : Nat × Nat × Nat) (edBound : Nat)
    (aberLower aberUpper equaveCents : ℚ) : List (Nat × Nat × Nat) :=
  (List.range' 3 (edBound - 3)).flatMap (fun l =>
    (List.range' 2 (l - 2)).flatMap (fun m =>
      (List.range' 1 (m - 1)).filterMap (fun s =>
        let ed := l * stepSig.1 + m * stepSig.2.1 + s * stepSig.2.2
        if ed ≤ edBound ∧
            aberLower ≤ stepsAsCents s ed equaveCents ∧
            stepsAsCents s ed equaveCents ≤ aberUpper
        then some (l, m, s) else none)))

/-- Membership characterization of the ED-tuning enumerator (shared helper):
exactly the triples satisfying all loop bounds (including `l < edBound`),
the total-size bound and the cents window are emitted. -/
theorem mem_edTunings_iff (sig : Nat × Nat × Nat) (B : Nat) (lo hi eq : ℚ)
    (l m s : Nat) :
    (l, m, s) ∈ edTuningsForTernary sig B lo hi eq ↔
      (3 ≤ l ∧ l < B ∧ 2 ≤ m ∧ m < l ∧ 1 ≤ s ∧ s < m ∧
        l * sig.1 + m * sig.2.1 + s * sig.2.2 ≤ B ∧
        lo ≤ stepsAsCents s (l * sig.1 + m * sig.2.1 + s * sig.2.2) eq ∧
        stepsAsCents s (l * sig.1 + m * sig.2.1 + s * sig.2.2) eq ≤ hi) := by
  unfold edTuningsForTernary
  simp only [List.mem_flatMap, List.mem_filterMap, List.mem_range'_1]
  constructor
  · rintro ⟨l', ⟨hl1, hl2⟩, m', ⟨hm1, hm2⟩, s', ⟨hs1, hs2⟩, hsome⟩
    by_cases hc : l' * sig.1 + m' * sig.2.1 + s' * sig.2.2 ≤ B ∧
        lo ≤ stepsAsCents s' (l' * sig.1 + m' * sig.2.1 + s' * sig.2.2) eq ∧
        stepsAsCents s' (l' * sig.1 + m' * sig.2.1 + s' * sig.2.2) eq ≤ hi
    · rw [if_pos hc] at hsome
      obtain ⟨rfl, rfl, rfl⟩ : l' = l ∧ m' = m ∧ s' = s := by
        have := Option.some.inj hsome
        refine ⟨congrArg Prod.fst this, ?_, ?_⟩
        · exact congrArg (fun t => t.2.1) this
        · exact congrArg (fun t => t.2.2) this
      exact ⟨hl1, by omega, hm1, by omega, hs1, by omega, hc.1, hc.2.1,
        hc.2.2⟩
    · rw [if_neg hc] at hsome
      cases hsome
  · rintro ⟨hl1, hl2, hm1, hm2, hs1, hs2, hb, hlo, hhi⟩
    refine ⟨l, ⟨hl1, by omega⟩, m, ⟨hm1, by omega⟩, s, ⟨hs1, by omega⟩, ?_⟩
    rw [if_pos ⟨hb, hlo, hhi⟩]

/-- C4 counterexample: the claim omits the loop bound `l < edBound`.  For
the step signature `(1,0,0)`, bound `B = 10`, window `[20, 200]` and a
1200-cent equave, the triple `(10, 2, 1)` satisfies every constraint the
claim lists (`3 ≤ 10`, `2 ≤ 2 < 10`, `1 ≤ 1 < 2`,
`10·1 + 2·0 + 1·0 = 10 ≤ 10`, s-step of `120` cents inside the window), yet
the code never emits it because its outer loop stops at `l = 9`. -/
theorem edTunings_completeness_counterexample :
    (10, 2, 1) ∉ edTuningsForTernary (1, 0, 0) 10 20 200 1200 ∧
    3 ≤ 10 ∧ 2 ≤ 2 ∧ 2 < 10 ∧ 1 ≤ 1 ∧ 1 < 2 ∧
    10 * 1 + 2 * 0 + 1 * 0 ≤ 10 ∧
    (20 : ℚ) ≤ stepsAsCents 1 (10 * 1 + 2 * 0 + 1 * 0) 1200 ∧
    stepsAsCents 1 (10 * 1 + 2 * 0 + 1 * 0) 1200 ≤ 200 := by
  refine ⟨?_, by omega, by omega, by omega, by omega, by omega, by omega,
    by norm_num [stepsAsCents], by norm_num [stepsAsCents]⟩
  intro hmem
  have h := (mem_edTunings_iff (1, 0, 0) 10 20 200 1200 10 2 1).mp hmem
  omega

/-- C4 (amended): `edTuningsForTernary` emits `(l, m, s)` iff `3 ≤ l`,
`l < edBound`, `2 ≤ m < l`, `1 ≤ s < m`, `l·n0 + m·n1 + s·n2 ≤ edBound`, and
the cents size of one s step lies in `[sLower, sUpper]` — soundness and
completeness relative to these constraints; the extra constraint
`l < edBound`, present in the loop header, is forced by the counterexample. -/
theorem edTuningsForTernary_sound_complete (sig : Nat × Nat × Nat)
    (B : Nat) (lo hi eq : ℚ) (l m s : Nat) :
    (l, m, s) ∈ edTuningsForTernary sig B lo hi eq ↔
      (3 ≤ l ∧ l < B ∧ 2 ≤ m ∧ m < l ∧ 1 ≤ s ∧ s < m ∧
        l * sig.1 + m * sig.2.1 + s * sig.2.2 ≤ B ∧
        lo ≤ stepsAsCents s (l * sig.1 + m * sig.2.1 + s * sig.2.2) eq ∧
        stepsAsCents s (l * sig.1 + m * sig.2.1 + s * sig.2.2) eq ≤ hi) :=
  mem_edTunings_iff sig B lo hi eq l m s

/-! ### Claim C10: stringToNumbers -/

/-- `STEP_LETTERS` from src/ternary.js (index = arity, last entry for
arity ≥ 11). -/
def STEP_LETTERS : List (List Char) :=
  ["", "X", "Ls", "Lms", "Lmns", "HLmns", "HLmnst", "BHLmnst", "BHLmnstw",
   "BCHLmnstw", "BCHLmnpstw",
   "ABCDEFGHIJKLMNOPQRSTUVWXYZabcdefghijklmnopqrstuvwxyz"].map
    String.toList

/-- The alphabet `stringToNumbers` selects: `STEP_LETTERS[min(arity, 11)]`
where arity is the number of distinct characters in the input. -/
def stepAlphabet (word : List Char) : List Char :=
  STEP_LETTERS.getD (min word.dedup.length 11) []

/-- `stringToNumbers(word)` from src/ternary.js: each character is looked up
in the selected alphabet (`indexOf`); characters not in the alphabet are
silently skipped (`idx === -1`).  Total by construction — the JS "never
throws" claim corresponds to this being a plain function. -/
def stringToNumbers (word : List Char) : List Nat :=
  let letters := stepAlphabet word
  word.filterMap (fun c =>
    if c ∈ letters then some (letters.indexOf c) else none)

theorem filterMap_if_eq_map_filter {α β : Type} (p : α → Prop)
    [DecidablePred p] (f : α → β) (l : List α) :
    l.filterMap (fun c => if p c then some (f c) else none) =
      (l.filter (fun c => decide (p c))).map f := by
  induction l with
  | nil => rfl
  | cons a rest ih =>
    by_cases h : p a
    · rw [List.filterMap_cons, List.filter_cons_of_pos (by simpa using h)]
      rw [if_pos h, List.map_cons, ih]
    · rw [List.filterMap_cons, List.filter_cons_of_neg (by simpa using h),
        if_neg h, ih]

/-- C10: `stringToNumbers` selects the alphabet by distinct-character count,
maps each character occurring in the alphabet to its alphabet index, and
silently omits every other character, so that an input containing an
unrecognized symbol yields a strictly shorter numeric word (and never an
error — the function is total). -/
theorem stringToNumbers_spec (w : List Char) :
    stringToNumbers w =
      (w.filter (fun c => c ∈ stepAlphabet w)).map
        (fun c => (stepAlphabet w).indexOf c) ∧
    (stringToNumbers w).length ≤ w.length ∧
    ((∃ c ∈ w, c ∉ stepAlphabet w) →
      (stringToNumbers w).length < w.length) := by
  have h1 : stringToNumbers w =
      (w.filter (fun c => c ∈ stepAlphabet w)).map
        (fun c => (stepAlphabet w).indexOf c) :=
    filterMap_if_eq_map_filter _ _ w
  refine ⟨h1, ?_, ?_⟩
  · rw [h1, List.length_map]
    exact List.length_filter_le _ w
  · intro hex
    rw [h1, List.length_map]
    rcases hex with ⟨c, hc, hcn⟩
    apply lt_of_le_of_ne (List.length_filter_le _ w)
    intro hlen
    have := (List.filter_length_eq_length.mp hlen) c hc
    simp only [decide_eq_true_eq] at this
    exact hcn this

/-- Witness for `stringToNumbers_spec` on the input word "Lsz": arity 3
selects the alphabet "Lms", the character `z` is dropped, and the numeric
word is strictly shorter. -/
theorem stringToNumbers_spec_witness :
    (∃ c ∈ ("Lsz".toList), c ∉ stepAlphabet ("Lsz".toList)) ∧
    (stringToNumbers ("Lsz".toList)).length < ("Lsz".toList).length :=
  ⟨by decide, (stringToNumbers_spec ("Lsz".toList)).2.2 (by decide)⟩

/-! ### Word analysis: wordOnDegree, dyadOnDegree, spectra, maximum variety -/

/-- `wordOnDegree(scale, degree, subwordLength)` from src/ternary.js: the
subword of the given length starting at a scale degree, wrapping cyclically
(and concatenating full copies when the length exceeds the scale length). -/
def wordOnDegree (scale : List Nat) (degree : Int) (subwordLength : Nat) :
    List Nat :=
  let rotated := rotate scale degree
  if subwordLength ≤ scale.length then rotated.take subwordLength
  else
    let fullCopies := subwordLength / scale.length
    let remainder := subwordLength % scale.length
    (List.range fullCopies).foldl (fun res _ => res ++ rotated) [] ++
      rotated.take remainder

/-- `dyadOnDegree(scale, degree, intervalClass)` from src/ternary.js. -/
def dyadOnDegree (scale : List Nat) (degree : Int) (intervalClass : Nat) :
    CountVector :=
  CountVector.fromSlice (wordOnDegree scale degree intervalClass)

/-- Insertion into a sorted list of keys (ascending). -/
def insortNat (k : Nat) : List Nat → List Nat
  | [] => [k]
  | a :: rest => if k ≤ a then k :: a :: rest else a :: insortNat k rest

/-- Keys sorted ascending — the order in which a JS object with
integer-like keys serializes them. -/
def sortKeys (l : List Nat) : List Nat :=
  l.foldr insortNat []

/-- The canonical serialization key `cv.toString()` computes in
src/ternary.js: `JSON.stringify` of an object whose integer keys appear in
ascending numeric order.  Modelled as the ascending-key entry list; two
well-formed count vectors produce the same JS string iff they produce the
same `canonKey`. -/
def CountVector.canonKey (cv : CountVector) : List (Nat × Int) :=
  (sortKeys cv.keyList).map (fun k => (k, cv.get k))

/-- The loop body of `distinctSpectrum` (src/ternary.js): the state is the
`seen` set of serialization keys plus the result array. -/
def spectrumStep (scale : List Nat) (subwordLength : Nat)
    (st : List (List (Nat × Int)) × List CountVector) (degree : Nat) :
    List (List (Nat × Int)) × List CountVector :=
  let cv := dyadOnDegree scale (degree : Int) subwordLength
  if cv.canonKey ∈ st.1 then st
  else (st.1 ++ [cv.canonKey], st.2 ++ [cv])

/-- `distinctSpectrum(scale, subwordLength)` from src/ternary.js: the
distinct (by serialization) dyad count vectors over all degrees. -/
def distinctSpectrum (scale : List Nat) (subwordLength : Nat) :
    List CountVector :=
  ((List.range scale.length).foldl (spectrumStep scale subwordLength)
    (([], []) : List (List (Nat × Int)) × List CountVector)).2

/-- `maximumVariety(scale)` from src/ternary.js. -/
def maximumVariety (scale : List Nat) : Nat :=
  if scale.length = 0 then 0
  else
    (List.range' 1 (scale.length / 2)).foldl
      (fun maxVar subwordLength =>
        max maxVar (distinctSpectrum scale subwordLength).length)
      0

/-! ### Ceiling-division toolkit for the Bresenham/mechanical-word bridge -/

/-- Ceiling division on naturals. -/
def cdiv (m n : Nat) : Nat :=
  (m + n - 1) / n

theorem cdiv_le_iff (m n y : Nat) (hn : 0 < n) :
    cdiv m n ≤ y ↔ m ≤ n * y := by
  unfold cdiv
  rw [Nat.div_le_iff_le_mul_add_pred hn]
  omega

theorem le_mul_cdiv (m n : Nat) (hn : 0 < n) : m ≤ n * cdiv m n :=
  (cdiv_le_iff m n (cdiv m n) hn).mp (le_refl _)

theorem cdiv_mono (m1 m2 n : Nat) (hn : 0 < n) (h : m1 ≤ m2) :
    cdiv m1 n ≤ cdiv m2 n :=
  (cdiv_le_iff m1 n _ hn).mpr (le_trans h (le_mul_cdiv m2 n hn))

theorem cdiv_add_le (m c n : Nat) (hn : 0 < n) (hc : c ≤ n) :
    cdiv (m + c) n ≤ cdiv m n + 1 := by
  rw [cdiv_le_iff _ n _ hn]
  have := le_mul_cdiv m n hn
  have : n * (cdiv m n + 1) = n * cdiv m n + n := by ring
  omega

theorem cdiv_add_le_add (p q n : Nat) (hn : 0 < n) :
    cdiv (p + q) n ≤ cdiv p n + cdiv q n := by
  rw [cdiv_le_iff _ n _ hn]
  have h1 := le_mul_cdiv p n hn
  have h2 := le_mul_cdiv q n hn
  have : n * (cdiv p n + cdiv q n) = n * cdiv p n + n * cdiv q n := by ring
  omega

theorem cdiv_le_div_succ (q n : Nat) (hn : 0 < n) :
    cdiv q n ≤ q / n + 1 := by
  rw [cdiv_le_iff _ n _ hn]
  have := Nat.div_add_mod q n
  have := Nat.mod_lt q hn
  have : n * (q / n + 1) = n * (q / n) + n := by ring
  omega

theorem div_le_cdiv_sub (p q n : Nat) (hn : 0 < n) :
    cdiv p n + q / n ≤ cdiv (p + q) n := by
  have hC := le_mul_cdiv (p + q) n hn
  have hq : n * (q / n) ≤ q := by
    rw [Nat.mul_comm]
    exact Nat.div_mul_le_self q n
  have hCq : q / n ≤ cdiv (p + q) n := by
    refine Nat.le_of_mul_le_mul_left ?_ hn
    omega
  have hp : cdiv p n ≤ cdiv (p + q) n - q / n := by
    rw [cdiv_le_iff _ n _ hn]
    have hsplit : n * ((cdiv (p + q) n - q / n) + q / n) =
        n * (cdiv (p + q) n - q / n) + n * (q / n) := by ring
    rw [Nat.sub_add_cancel hCq] at hsplit
    omega
  omega

theorem cdiv_add_mul (x k n : Nat) (hn : 0 < n) :
    cdiv (x + k * n) n = cdiv x n + k := by
  apply Nat.le_antisymm
  · rw [cdiv_le_iff _ n _ hn]
    have h1 := le_mul_cdiv x n hn
    have hdist : n * (cdiv x n + k) = n * cdiv x n + k * n := by ring
    omega
  · have hC := le_mul_cdiv (x + k * n) n hn
    have hk : k ≤ cdiv (x + k * n) n := by
      refine Nat.le_of_mul_le_mul_left ?_ hn
      have : n * k = k * n := by ring
      omega
    have hx : cdiv x n ≤ cdiv (x + k * n) n - k := by
      rw [cdiv_le_iff _ n _ hn]
      have hsplit : n * ((cdiv (x + k * n) n - k) + k) =
          n * (cdiv (x + k * n) n - k) + n * k := by ring
      rw [Nat.sub_add_cancel hk] at hsplit
      have : n * k = k * n := by ring
      omega
    omega

/-! ### MOS generation (Bresenham) -/

/-- The `while (currentX !== a || currentY !== b)` loop of
`darkestMosModeAndGenBresenham` (src/ternary.js); fuel `a + b` is exactly
the number of iterations of any reachable run. -/
def bresLoop (a b : Nat) : Nat → Nat → Nat → List Nat
  | 0, _, _ => []
  | fuel + 1, x, y =>
    if x = a ∧ y = b then []
    else if b * (x + 1) ≤ a * y then 0 :: bresLoop a b fuel (x + 1) y
    else 1 :: bresLoop a b fuel x (y + 1)

/-- The `while (r !== 0)` loop of `extendedGcd` (src/ternary.js); the second
state component strictly decreases, so fuel `b + 1` always suffices. -/
def extendedGcdGo : Nat → Nat → Nat → Int → Int → Int → Int → Nat × Int × Int
  | 0, oldR, _, oldS, _, oldT, _ => (oldR, oldS, oldT)
  | fuel + 1, oldR, r, oldS, s, oldT, t =>
    if r = 0 then (oldR, oldS, oldT)
    else
      extendedGcdGo fuel r (oldR % r) s (oldS - ((oldR / r : Nat) : Int) * s)
        t (oldT - ((oldR / r : Nat) : Int) * t)

/-- `extendedGcd(a, b)` from src/ternary.js (on the engine's Nat inputs). -/
def extendedGcd (a b : Nat) : Nat × Int × Int :=
  extendedGcdGo (b + 1) a b 1 0 0 1

/-- `modinv(a, b)` from src/ternary.js; `none` models the
"Non-coprime generator error" throw. -/
def modinv (a b : Nat) : Option Nat :=
  match extendedGcd a b with
  | (g, x, _) =>
    if g ≠ 1 then none
    else some ((((x % (b : Int)) + b) % b).toNat)

/-- `darkestMosModeAndGenBresenham(a, b)` from src/ternary.js, with fuel for
the non-coprime self-recursion (each recursive call divides both arguments
by a gcd ≥ 2, so fuel `a + b + 1` always suffices; the JS code diverges on
`a = b = 0`, modelled by `none` at fuel 0). -/
def darkestMosModeAndGenGo : Nat → Nat → Nat → Option (List Nat × CountVector)
  | 0, _, _ => none
  | fuel + 1, a, b =>
    let d := Nat.gcd a b
    if d = 1 then
      match modinv a (a + b) with
      | none => none
      | some countGenerSteps =>
        let resultScale := bresLoop a b (a + b) 0 0
        some (resultScale,
          CountVector.fromSlice (resultScale.take countGenerSteps))
    else
      match darkestMosModeAndGenGo fuel (a / d) (b / d) with
      | none => none
      | some (primMos, gener) =>
        some ((List.range d).foldl (fun acc _ => acc ++ primMos) [], gener)

/-- Entry point with sufficient fuel. -/
def darkestMosModeAndGenBresenham (a b : Nat) :
    Option (List Nat × CountVector) :=
  darkestMosModeAndGenGo (a + b + 1) a b

theorem extendedGcdGo_fst :
    ∀ fuel oldR r (oldS s oldT t : Int), r < fuel →
    (extendedGcdGo fuel oldR r oldS s oldT t).1 = Nat.gcd oldR r := by
  intro fuel
  induction fuel with
  | zero => intro _ r _ _ _ _ h; omega
  | succ fuel ih =>
    intro oldR r oldS s oldT t h
    by_cases hr : r = 0
    · subst hr
      simp [extendedGcdGo]
    · have hmod : oldR % r < r := Nat.mod_lt _ (Nat.pos_of_ne_zero hr)
      simp only [extendedGcdGo, if_neg hr]
      rw [ih r (oldR % r) _ _ _ _ (by omega)]
      rw [Nat.gcd_comm r (oldR % r), ← Nat.gcd_rec r oldR,
        Nat.gcd_comm r oldR]

theorem extendedGcd_fst (a b : Nat) : (extendedGcd a b).1 = Nat.gcd a b :=
  extendedGcdGo_fst (b + 1) a b 1 0 0 1 (by omega)

theorem modinv_isSome (a b : Nat) (h : Nat.gcd a b = 1) :
    ∃ c, modinv a b = some c := by
  unfold modinv
  have hg : (extendedGcd a b).1 = 1 := by rw [extendedGcd_fst, h]
  rcases hext : extendedGcd a b with ⟨g, x, y⟩
  rw [hext] at hg
  simp only at hg
  subst hg
  simp

/-! ### The mechanical word: ceiling-function characterization -/

/-- The ceiling word-height function: number of 1-letters among the first
`t` letters of the Bresenham word for slope `b / n`. -/
def mechY (b n t : Nat) : Nat :=
  cdiv (b * t) n

/-- Letter of the mechanical word at position `t`. -/
def mechStep (b n t : Nat) : Nat :=
  mechY b n (t + 1) - mechY b n t

theorem mechY_zero (b n : Nat) (hn : 0 < n) : mechY b n 0 = 0 := by
  unfold mechY cdiv
  rw [Nat.mul_zero, Nat.zero_add]
  exact Nat.div_eq_of_lt (by omega)

theorem mechY_mono (b n : Nat) (hn : 0 < n) {t t' : Nat} (h : t ≤ t') :
    mechY b n t ≤ mechY b n t' :=
  cdiv_mono _ _ n hn (Nat.mul_le_mul_left b h)

theorem mechY_succ_le (b n t : Nat) (hn : 0 < n) (hbn : b ≤ n) :
    mechY b n (t + 1) ≤ mechY b n t + 1 := by
  unfold mechY
  have : b * (t + 1) = b * t + b := by ring
  rw [this]
  exact cdiv_add_le (b * t) b n hn hbn

theorem mechY_le_self (b n t : Nat) (hn : 0 < n) (hbn : b ≤ n) :
    mechY b n t ≤ t := by
  unfold mechY
  rw [cdiv_le_iff _ n _ hn]
  exact Nat.mul_le_mul_right t hbn

theorem mechY_full (b n : Nat) (hn : 0 < n) : mechY b n n = b := by
  unfold mechY
  have : b * n = 0 + b * n := by omega
  rw [this, cdiv_add_mul 0 b n hn]
  unfold cdiv
  rw [Nat.zero_add, Nat.div_eq_of_lt (by omega : n - 1 < n)]
  omega

theorem mechY_decomp (b n t : Nat) (hn : 0 < n) :
    mechY b n t = b * (t / n) + mechY b n (t % n) := by
  unfold mechY
  have hsplit : b * t = b * (t % n) + (b * (t / n)) * n := by
    have := Nat.div_add_mod t n
    calc b * t = b * (n * (t / n) + t % n) := by rw [this]
    _ = b * (t % n) + (b * (t / n)) * n := by ring
  rw [hsplit, cdiv_add_mul _ _ n hn]
  omega

theorem mechStep_mod (b n t : Nat) (hn : 0 < n) :
    mechStep b n t = mechStep b n (t % n) := by
  unfold mechStep
  have h1 : mechY b n t = b * (t / n) + mechY b n (t % n) :=
    mechY_decomp b n t hn
  have h2 : mechY b n (t + 1) = b * (t / n) + mechY b n (t % n + 1) := by
    unfold mechY
    have hsplit : b * (t + 1) = b * (t % n + 1) + (b * (t / n)) * n := by
      have := Nat.div_add_mod t n
      calc b * (t + 1) = b * ((n * (t / n) + t % n) + 1) := by rw [this]
      _ = b * (t % n + 1) + (b * (t / n)) * n := by ring
    rw [hsplit, cdiv_add_mul _ _ n hn]
    omega
  omega

theorem count_ones_range' (b n : Nat) (hn : 0 < n) (hbn : b ≤ n) :
    ∀ m d, ((List.range' d m).map
      (fun t => mechStep b n (t % n))).count 1 =
      mechY b n (d + m) - mechY b n d := by
  intro m
  induction m with
  | zero => intro d; simp
  | succ m ih =>
    intro d
    rw [List.range'_succ, List.map_cons, List.count_cons, ih (d + 1)]
    rw [← mechStep_mod b n d hn]
    have hA := mechY_mono b n hn (show d ≤ d + 1 by omega)
    have hB := mechY_succ_le b n d hn hbn
    have hC := mechY_mono b n hn (show d + 1 ≤ d + 1 + m by omega)
    have hstep : mechStep b n d = mechY b n (d + 1) - mechY b n d := rfl
    have harr : d + 1 + m = d + (m + 1) := by omega
    rw [harr] at hC
    by_cases h1 : mechStep b n d = 1
    · rw [if_pos (by simpa using h1)]
      rw [show d + 1 + m = d + (m + 1) by omega]
      omega
    · rw [if_neg (by simpa using h1)]
      rw [show d + 1 + m = d + (m + 1) by omega]
      omega

theorem bresLoop_eq_mech (a b : Nat) (ha : 0 < a) (hb : 0 < b) :
    ∀ fuel i, i + fuel = a + b →
    bresLoop a b fuel (i - mechY b (a + b) i) (mechY b (a + b) i) =
      (List.range' i fuel).map (fun t => mechStep b (a + b) t) := by
  have hn : 0 < a + b := by omega
  have hbn : b ≤ a + b := by omega
  intro fuel
  induction fuel with
  | zero => intro i _; simp [bresLoop]
  | succ fuel ih =>
    intro i hi
    have hilt : i < a + b := by omega
    have hYle := mechY_le_self b (a + b) i hn hbn
    have hYmono := mechY_mono b (a + b) hn (show i ≤ i + 1 by omega)
    have hYsucc := mechY_succ_le b (a + b) i hn hbn
    have hnotdone : ¬(i - mechY b (a + b) i = a ∧ mechY b (a + b) i = b) := by
      rintro ⟨hx, hy⟩
      omega
    have hcond : (b * (i - mechY b (a + b) i + 1) ≤ a * mechY b (a + b) i) ↔
        mechY b (a + b) (i + 1) = mechY b (a + b) i := by
      have hsub : b * (i - mechY b (a + b) i + 1) =
          b * i + b - b * mechY b (a + b) i := by
        have : b * mechY b (a + b) i ≤ b * i :=
          Nat.mul_le_mul_left b hYle
        have hexp : b * (i - mechY b (a + b) i + 1) + b * mechY b (a + b) i
            = b * i + b := by
          have : b * (i - mechY b (a + b) i + 1) + b * mechY b (a + b) i =
              b * ((i - mechY b (a + b) i) + mechY b (a + b) i) + b := by
            ring
          rw [this, Nat.sub_add_cancel hYle]
        omega
      constructor
      · intro hle
        have hni : (a + b) * mechY b (a + b) i ≥ b * (i + 1) := by
          have : a * mechY b (a + b) i + b * mechY b (a + b) i =
              (a + b) * mechY b (a + b) i := by ring
          have hbi : b * (i + 1) = b * i + b := by ring
          omega
        have hdown : mechY b (a + b) (i + 1) ≤ mechY b (a + b) i := by
          have hx := (cdiv_le_iff (b * (i + 1)) (a + b)
            (mechY b (a + b) i) hn).mpr (by omega)
          exact hx
        omega
      · intro heq
        have : (a + b) * mechY b (a + b) (i + 1) ≥ b * (i + 1) :=
          le_mul_cdiv _ _ hn
        rw [heq] at this
        have hsplit : (a + b) * mechY b (a + b) i =
            a * mechY b (a + b) i + b * mechY b (a + b) i := by ring
        have hbi : b * (i + 1) = b * i + b := by ring
        omega
    by_cases hc : b * (i - mechY b (a + b) i + 1) ≤ a * mechY b (a + b) i
    · have heq := hcond.mp hc
      have hstep0 : mechStep b (a + b) i = 0 := by
        unfold mechStep
        omega
      simp only [bresLoop, if_neg hnotdone, if_pos hc]
      have hx1 : i - mechY b (a + b) i + 1 = (i + 1) - mechY b (a + b) (i + 1) := by
        omega
      have hy1 : mechY b (a + b) i = mechY b (a + b) (i + 1) := heq.symm
      rw [hx1, hy1, ih (i + 1) (by omega)]
      rw [List.range'_succ, List.map_cons, hstep0]
    · have hne : mechY b (a + b) (i + 1) ≠ mechY b (a + b) i := by
        intro heq
        exact hc (hcond.mpr heq)
      have hstep1 : mechStep b (a + b) i = 1 := by
        unfold mechStep
        omega
      simp only [bresLoop, if_neg hnotdone, if_neg hc]
      have hy1 : mechY b (a + b) i + 1 = mechY b (a + b) (i + 1) := by
        omega
      have hx1 : i - mechY b (a + b) i = (i + 1) - mechY b (a + b) (i + 1) := by
        omega
      rw [hx1, hy1, ih (i + 1) (by omega)]
      rw [List.range'_succ, List.map_cons, hstep1]

/-! ### Rotation and window lemmas -/

theorem rotate_natCast {α : Type} (l : List α) (d : Nat) :
    rotate l (d : Int) = l.drop (d % l.length) ++ l.take (d % l.length) := by
  unfold rotate
  by_cases hl : l.length = 0
  · rw [if_pos hl]
    cases l with
    | nil => simp
    | cons a rest => simp at hl
  · rw [if_neg hl]
    have hn : 0 < l.length := Nat.pos_of_ne_zero hl
    have hmod : jsMod (d : Int) (l.length : Int) = ((d % l.length : Nat) : Int) := by
      unfold jsMod
      have h1 : ((d : Int) % (l.length : Int)) = ((d % l.length : Nat) : Int) := by
        push_cast
        rfl
      rw [h1]
      rw [show ((d % l.length : Nat) : Int) + (l.length : Int) =
          ((d % l.length : Nat) : Int) + (l.length : Int) * 1 by ring]
      rw [Int.add_mul_emod_self_left]
      apply Int.emod_eq_of_lt
      · positivity
      · exact_mod_cast Nat.mod_lt d hn
    rw [hmod]
    simp only [Int.toNat_natCast]
    by_cases hz : d % l.length = 0
    · rw [if_pos hz, hz]
      simp
    · rw [if_neg hz]

theorem range'_split (s m k : Nat) (h : k ≤ m) :
    List.range' s m = List.range' s k ++ List.range' (s + k) (m - k) := by
  have h2 := List.range'_append s k (m - k) 1
  rw [show s + 1 * k = s + k by ring] at h2
  rw [show (m - k) + k = m by omega] at h2
  exact h2.symm

theorem range'_take (s m k : Nat) (h : k ≤ m) :
    (List.range' s m).take k = List.range' s k := by
  rw [range'_split s m k h]
  have hlen : (List.range' s k).length = k := List.length_range' s 1 k
  nth_rewrite 1 [← hlen]
  rw [List.take_left]

theorem range'_drop (s m k : Nat) (h : k ≤ m) :
    (List.range' s m).drop k = List.range' (s + k) (m - k) := by
  rw [range'_split s m k h]
  have hlen : (List.range' s k).length = k := List.length_range' s 1 k
  nth_rewrite 1 [← hlen]
  rw [List.drop_left]

theorem bresWord_eq (a b : Nat) (ha : 0 < a) (hb : 0 < b) :
    bresLoop a b (a + b) 0 0 =
      (List.range' 0 (a + b)).map (fun t => mechStep b (a + b) t) := by
  have h := bresLoop_eq_mech a b ha hb (a + b) 0 (by omega)
  rw [mechY_zero b (a + b) (by omega)] at h
  simpa using h

theorem bresWord_length (a b : Nat) (ha : 0 < a) (hb : 0 < b) :
    (bresLoop a b (a + b) 0 0).length = a + b := by
  rw [bresWord_eq a b ha hb, List.length_map]
  exact List.length_range' 0 1 (a + b)

theorem rotate_mech_word (b n d : Nat) (hn : 0 < n) (hd : d < n) :
    rotate ((List.range' 0 n).map (fun t => mechStep b n t)) (d : Int) =
      (List.range' d n).map (fun t => mechStep b n (t % n)) := by
  have hlen : ((List.range' 0 n).map (fun t => mechStep b n t)).length = n := by
    rw [List.length_map]
    exact List.length_range' 0 1 n
  rw [rotate_natCast, hlen, Nat.mod_eq_of_lt hd]
  rw [← List.map_drop, ← List.map_take]
  rw [range'_drop 0 n d (by omega), range'_take 0 n d (by omega)]
  rw [Nat.zero_add]
  have hsplit : List.range' d n =
      List.range' d (n - d) ++ List.range' n d := by
    have := range'_split d n (n - d) (by omega)
    rw [show d + (n - d) = n by omega, show n - (n - d) = d by omega] at this
    exact this
  rw [hsplit, List.map_append]
  congr 1
  · apply List.map_congr_left
    intro t ht
    rw [List.mem_range'_1] at ht
    rw [Nat.mod_eq_of_lt (by omega)]
  · rw [List.range'_eq_map_range n d, List.map_map, ← List.range_eq_range']
    apply List.map_congr_left
    intro i hi
    rw [List.mem_range] at hi
    show mechStep b n i = mechStep b n ((n + i) % n)
    rw [Nat.add_mod_left, Nat.mod_eq_of_lt (by omega)]

theorem wordOnDegree_mech (a b d l : Nat) (ha : 0 < a) (hb : 0 < b)
    (hd : d < a + b) (hl : l ≤ a + b) :
    wordOnDegree (bresLoop a b (a + b) 0 0) (d : Int) l =
      (List.range' d l).map (fun t => mechStep b (a + b) (t % (a + b))) := by
  unfold wordOnDegree
  rw [bresWord_eq a b ha hb, rotate_mech_word b (a + b) d (by omega) hd]
  have hlen : ((List.range' 0 (a + b)).map
      (fun t => mechStep b (a + b) t)).length = a + b := by
    rw [List.length_map]
    exact List.length_range' 0 1 (a + b)
  rw [hlen, if_pos hl]
  rw [← List.map_take, range'_take d (a + b) l hl]

theorem window_count_one (a b d l : Nat) (ha : 0 < a) (hb : 0 < b)
    (hd : d < a + b) (hl : l ≤ a + b) :
    (wordOnDegree (bresLoop a b (a + b) 0 0) (d : Int) l).count 1 =
      mechY b (a + b) (d + l) - mechY b (a + b) d := by
  rw [wordOnDegree_mech a b d l ha hb hd hl]
  exact count_ones_range' b (a + b) (by omega) (by omega) l d

theorem window_mem_binary (a b d l : Nat) (ha : 0 < a) (hb : 0 < b)
    (hd : d < a + b) (hl : l ≤ a + b) :
    ∀ x ∈ wordOnDegree (bresLoop a b (a + b) 0 0) (d : Int) l,
      x = 0 ∨ x = 1 := by
  rw [wordOnDegree_mech a b d l ha hb hd hl]
  intro x hx
  rcases List.mem_map.mp hx with ⟨t, _, hview⟩
  have h1 := mechY_mono b (a + b) (show 0 < a + b by omega)
    (show t % (a + b) ≤ t % (a + b) + 1 by omega)
  have h2 := mechY_succ_le b (a + b) (t % (a + b)) (by omega) (by omega)
  unfold mechStep at hview
  omega

theorem window_length (a b d l : Nat) (ha : 0 < a) (hb : 0 < b)
    (hd : d < a + b) (hl : l ≤ a + b) :
    (wordOnDegree (bresLoop a b (a + b) 0 0) (d : Int) l).length = l := by
  rw [wordOnDegree_mech a b d l ha hb hd hl, List.length_map]
  exact List.length_range' d 1 l

theorem window_count_bounds (a b d l : Nat) (ha : 0 < a) (hb : 0 < b)
    (hd : d < a + b) (hl : l ≤ a + b) :
    b * l / (a + b) ≤
      (wordOnDegree (bresLoop a b (a + b) 0 0) (d : Int) l).count 1 ∧
    (wordOnDegree (bresLoop a b (a + b) 0 0) (d : Int) l).count 1 ≤
      b * l / (a + b) + 1 := by
  rw [window_count_one a b d l ha hb hd hl]
  have hn : 0 < a + b := by omega
  have hmul : b * (d + l) = b * d + b * l := by ring
  have hlow := div_le_cdiv_sub (b * d) (b * l) (a + b) hn
  have hup := cdiv_add_le_add (b * d) (b * l) (a + b) hn
  have hc := cdiv_le_div_succ (b * l) (a + b) hn
  have hmono := cdiv_mono (b * d) (b * (d + l)) (a + b) hn
    (by rw [hmul]; omega)
  unfold mechY
  rw [hmul]
  omega

/-! ### fromSlice: counts, well-formedness, canonical keys -/

theorem fromSlice_fold_get :
    ∀ (u : List Nat) (acc : List (Nat × Int)) (k : Nat),
    mapGet (u.foldl (fun acc c => mapSet acc c (mapGet acc c + 1)) acc) k =
      mapGet acc k + (u.count k : Int) := by
  intro u
  induction u with
  | nil => intro acc k; simp
  | cons c rest ih =>
    intro acc k
    rw [List.foldl_cons, ih, List.count_cons]
    by_cases hk : c = k
    · subst hk
      rw [mapGet_mapSet_self]
      simp only [beq_self_eq_true, if_true]
      push_cast
      ring
    · rw [mapGet_mapSet_other acc c k _ (fun hc => hk hc.symm)]
      simp only [show (c == k) = false by simp [hk], Bool.false_eq_true,
        if_false, Nat.add_zero]

theorem CountVector.get_fromSlice (u : List Nat) (k : Nat) :
    (CountVector.fromSlice u).get k = (u.count k : Int) := by
  show mapGet (u.foldl (fun acc c => mapSet acc c (mapGet acc c + 1)) []) k
    = (u.count k : Int)
  rw [fromSlice_fold_get u [] k, mapGet_nil]
  omega

theorem keys_mapSet_nodup (l : List (Nat × Int)) (k : Nat) (v : Int)
    (h : (l.map Prod.fst).Nodup) : ((mapSet l k v).map Prod.fst).Nodup := by
  by_cases hp : l.any (fun e => e.1 == k) = true
  · rw [keyList_mapSet_present l k v hp]
    exact h
  · rw [keyList_mapSet_absent l k v hp]
    have hk : k ∉ l.map Prod.fst := fun hm => hp ((any_key_iff l k).mpr hm)
    simp only [List.nodup_append, List.nodup_cons, List.nodup_nil]
    refine ⟨h, by simp, ?_⟩
    intro q hq
    simp only [List.mem_singleton]
    intro hc
    exact hk (hc ▸ hq)

theorem fromSlice_fold_wf :
    ∀ (u : List Nat) (acc : List (Nat × Int)),
    (acc.map Prod.fst).Nodup →
    (((u.foldl (fun acc c => mapSet acc c (mapGet acc c + 1)) acc)).map
      Prod.fst).Nodup := by
  intro u
  induction u with
  | nil => exact fun acc h => h
  | cons c rest ih =>
    intro acc h
    exact ih _ (keys_mapSet_nodup acc c _ h)

theorem CountVector.fromSlice_WF (u : List Nat) :
    (CountVector.fromSlice u).WF :=
  fromSlice_fold_wf u [] (by simp)

theorem entries_mapSet_pos (l : List (Nat × Int)) (k : Nat) (v : Int)
    (hv : 0 < v) (h : ∀ e ∈ l, 0 < e.2) : ∀ e ∈ mapSet l k v, 0 < e.2 := by
  unfold mapSet
  by_cases hp : l.any (fun e => e.1 == k) = true
  · rw [if_pos hp]
    intro e he
    rcases List.mem_map.mp he with ⟨y, hy, hview⟩
    by_cases hk : y.1 = k
    · rw [← hview, if_pos (show (y.1 == k) = true by simp [hk])]
      exact hv
    · rw [← hview, if_neg (show ¬ (y.1 == k) = true by simp [hk])]
      exact h y hy
  · rw [if_neg hp]
    intro e he
    rcases List.mem_append.mp he with he | he
    · exact h e he
    · rw [List.mem_singleton.mp he]
      exact hv

theorem fromSlice_fold_pos :
    ∀ (u : List Nat) (acc : List (Nat × Int)),
    (∀ e ∈ acc, 0 < e.2) →
    ∀ e ∈ u.foldl (fun acc c => mapSet acc c (mapGet acc c + 1)) acc,
      0 < e.2 := by
  intro u
  induction u with
  | nil => exact fun acc h => h
  | cons c rest ih =>
    intro acc h
    apply ih
    apply entries_mapSet_pos
    · by_cases hz : mapGet acc c = 0
      · omega
      · have := h _ (mapGet_mem_of_ne acc c hz)
        simp only at this
        omega
    · exact h

theorem CountVector.fromSlice_normalized (u : List Nat) :
    (CountVector.fromSlice u).Normalized := by
  intro e he
  have := fromSlice_fold_pos u [] (by simp) e he
  omega

/-! ### Sorted-key canonicalization -/

theorem mem_insortNat (q k : Nat) (l : List Nat) :
    k ∈ insortNat q l ↔ k = q ∨ k ∈ l := by
  induction l with
  | nil => simp [insortNat]
  | cons a rest ih =>
    unfold insortNat
    by_cases h : q ≤ a
    · rw [if_pos h]
      simp
    · rw [if_neg h]
      simp only [List.mem_cons, ih]
      tauto

theorem insortNat_perm (q : Nat) (l : List Nat) :
    List.Perm (insortNat q l) (q :: l) := by
  induction l with
  | nil => exact List.Perm.refl _
  | cons a rest ih =>
    unfold insortNat
    by_cases h : q ≤ a
    · rw [if_pos h]
    · rw [if_neg h]
      exact (ih.cons a).trans (List.Perm.swap q a rest)

theorem insortNat_sorted (q : Nat) (l : List Nat)
    (h : l.Sorted (· ≤ ·)) : (insortNat q l).Sorted (· ≤ ·) := by
  induction l with
  | nil => simp [insortNat]
  | cons a rest ih =>
    rw [List.sorted_cons] at h
    unfold insortNat
    by_cases hq : q ≤ a
    · rw [if_pos hq, List.sorted_cons]
      constructor
      · intro x hx
        rcases List.mem_cons.mp hx with hx | hx
        · omega
        · have := h.1 x hx
          omega
      · rw [List.sorted_cons]
        exact h
    · rw [if_neg hq, List.sorted_cons]
      constructor
      · intro x hx
        rcases (mem_insortNat q x rest).mp hx with hx | hx
        · omega
        · exact h.1 x hx
      · exact ih h.2

theorem sortKeys_perm (l : List Nat) : List.Perm (sortKeys l) l := by
  induction l with
  | nil => exact List.Perm.refl _
  | cons a rest ih =>
    show List.Perm (insortNat a (sortKeys rest)) (a :: rest)
    exact (insortNat_perm a (sortKeys rest)).trans (ih.cons a)

theorem sortKeys_sorted (l : List Nat) : (sortKeys l).Sorted (· ≤ ·) := by
  induction l with
  | nil => simp [sortKeys]
  | cons a rest ih =>
    exact insortNat_sorted a (sortKeys rest) ih

theorem sortKeys_eq_of_mem_iff (l1 l2 : List Nat) (h1 : l1.Nodup)
    (h2 : l2.Nodup) (h : ∀ k, k ∈ l1 ↔ k ∈ l2) :
    sortKeys l1 = sortKeys l2 := by
  have hperm : List.Perm l1 l2 := (List.perm_ext_iff_of_nodup h1 h2).mpr h
  have : List.Perm (sortKeys l1) (sortKeys l2) :=
    ((sortKeys_perm l1).trans hperm).trans (sortKeys_perm l2).symm
  exact List.eq_of_perm_of_sorted this (sortKeys_sorted l1)
    (sortKeys_sorted l2)

theorem fromSlice_mem_keyList_iff (u : List Nat) (k : Nat) :
    k ∈ (CountVector.fromSlice u).keyList ↔ u.count k ≠ 0 := by
  rw [CountVector.mem_keyList_iff _ (CountVector.fromSlice_WF u)
    (CountVector.fromSlice_normalized u), CountVector.get_fromSlice]
  exact_mod_cast Iff.rfl

theorem canonKey_keyList (cv : CountVector) :
    cv.canonKey.map Prod.fst = sortKeys cv.keyList := by
  unfold CountVector.canonKey
  rw [List.map_map]
  have : (Prod.fst ∘ fun k => ((k, cv.get k) : Nat × Int)) = id := by
    funext k
    rfl
  rw [this, List.map_id]

theorem canonKey_eq_iff_counts (u v : List Nat) :
    (CountVector.fromSlice u).canonKey = (CountVector.fromSlice v).canonKey ↔
      ∀ k, u.count k = v.count k := by
  constructor
  · intro h k
    have hsort : sortKeys (CountVector.fromSlice u).keyList =
        sortKeys (CountVector.fromSlice v).keyList := by
      rw [← canonKey_keyList, ← canonKey_keyList, h]
    by_cases hk : k ∈ (CountVector.fromSlice u).keyList
    · have hks : k ∈ sortKeys (CountVector.fromSlice u).keyList :=
        ((sortKeys_perm _).mem_iff).mpr hk
      have hpair : (k, (CountVector.fromSlice u).get k) ∈
          (CountVector.fromSlice u).canonKey := by
        unfold CountVector.canonKey
        exact List.mem_map.mpr ⟨k, hks, rfl⟩
      rw [h] at hpair
      unfold CountVector.canonKey at hpair
      rcases List.mem_map.mp hpair with ⟨k', _, hview⟩
      have hk' : k' = k := congrArg Prod.fst hview
      have hval : (CountVector.fromSlice v).get k' =
          (CountVector.fromSlice u).get k := congrArg Prod.snd hview
      rw [hk'] at hval
      rw [CountVector.get_fromSlice, CountVector.get_fromSlice] at hval
      exact_mod_cast hval.symm
    · have hku : u.count k = 0 := by
        by_contra hc
        exact hk ((fromSlice_mem_keyList_iff u k).mpr hc)
      have hknotv : k ∉ (CountVector.fromSlice v).keyList := by
        intro hkv
        have : k ∈ sortKeys (CountVector.fromSlice v).keyList :=
          ((sortKeys_perm _).mem_iff).mpr hkv
        rw [← hsort] at this
        exact hk (((sortKeys_perm _).mem_iff).mp this)
      have hkv : v.count k = 0 := by
        by_contra hc
        exact hknotv ((fromSlice_mem_keyList_iff v k).mpr hc)
      rw [hku, hkv]
  · intro h
    have hmem : ∀ k, k ∈ (CountVector.fromSlice u).keyList ↔
        k ∈ (CountVector.fromSlice v).keyList := by
      intro k
      rw [fromSlice_mem_keyList_iff, fromSlice_mem_keyList_iff, h k]
    have hsort : sortKeys (CountVector.fromSlice u).keyList =
        sortKeys (CountVector.fromSlice v).keyList :=
      sortKeys_eq_of_mem_iff _ _ (CountVector.fromSlice_WF u)
        (CountVector.fromSlice_WF v) hmem
    unfold CountVector.canonKey
    rw [hsort]
    apply List.map_congr_left
    intro k _
    rw [CountVector.get_fromSlice, CountVector.get_fromSlice, h k]

theorem count_binary_split (w : List Nat) (h : ∀ x ∈ w, x = 0 ∨ x = 1) :
    w.count 0 + w.count 1 = w.length := by
  induction w with
  | nil => rfl
  | cons x rest ih =>
    have hx := h x (by simp)
    have hr := ih (fun y hy => h y (by simp [hy]))
    rw [List.count_cons, List.count_cons, List.length_cons]
    rcases hx with hx | hx <;> subst hx <;> simp <;> omega

theorem count_ge_two_zero (w : List Nat) (h : ∀ x ∈ w, x = 0 ∨ x = 1)
    (k : Nat) (hk : 2 ≤ k) : w.count k = 0 := by
  rw [List.count_eq_zero]
  intro hm
  rcases h k hm with hx | hx <;> omega

/-- The canonical serialization key of the unique binary content with `c`
ones among `l` letters. -/
def mosKey (l c : Nat) : List (Nat × Int) :=
  (CountVector.fromSlice
    (List.replicate (l - c) 0 ++ List.replicate c 1)).canonKey

theorem canonKey_binary (w : List Nat) (l : Nat)
    (hlen : w.length = l) (hbin : ∀ x ∈ w, x = 0 ∨ x = 1)
    (hc : w.count 1 ≤ l) :
    (CountVector.fromSlice w).canonKey = mosKey l (w.count 1) := by
  unfold mosKey
  apply (canonKey_eq_iff_counts w _).mpr
  intro k
  rw [List.count_append, List.count_replicate, List.count_replicate]
  match k with
  | 0 =>
    simp only [show ((0 : Nat) == 0) = true by decide,
      show ((1 : Nat) == 0) = false by decide, if_true, Bool.false_eq_true,
      if_false]
    have := count_binary_split w hbin
    omega
  | 1 =>
    simp only [show ((0 : Nat) == 1) = false by decide,
      show ((1 : Nat) == 1) = true by decide, if_true, Bool.false_eq_true,
      if_false]
    omega
  | (k + 2) =>
    rw [count_ge_two_zero w hbin (k + 2) (by omega)]
    simp only [show ((0 : Nat) == k + 2) = false by simp,
      show ((1 : Nat) == k + 2) = false by simp, Bool.false_eq_true,
      if_false]

theorem dyad_canonKey (a b d l : Nat) (ha : 0 < a) (hb : 0 < b)
    (hd : d < a + b) (hl : l ≤ a + b) :
    (dyadOnDegree (bresLoop a b (a + b) 0 0) (d : Int) l).canonKey =
      mosKey l
        ((wordOnDegree (bresLoop a b (a + b) 0 0) (d : Int) l).count 1) := by
  unfold dyadOnDegree
  apply canonKey_binary
  · exact window_length a b d l ha hb hd hl
  · exact window_mem_binary a b d l ha hb hd hl
  · have h := window_length a b d l ha hb hd hl
    have := List.count_le_length 1
      (wordOnDegree (bresLoop a b (a + b) 0 0) (d : Int) l)
    omega

theorem spectrumStep_fold_le_two (scale : List Nat) (l : Nat)
    (K1 K2 : List (Nat × Int)) :
    ∀ (ds : List Nat) (seen : List (List (Nat × Int)))
      (res : List CountVector),
    (∀ d ∈ ds, (dyadOnDegree scale (d : Int) l).canonKey = K1 ∨
      (dyadOnDegree scale (d : Int) l).canonKey = K2) →
    ((ds.foldl (spectrumStep scale l) (seen, res)).2).length ≤
      res.length + (if K1 ∈ seen then 0 else 1) +
        (if K2 ∈ seen then 0 else 1) := by
  intro ds
  induction ds with
  | nil =>
    intro seen res _
    by_cases h1 : K1 ∈ seen <;> by_cases h2 : K2 ∈ seen <;>
      simp [h1, h2] <;> omega
  | cons d rest ih =>
    intro seen res h
    have hd := h d (by simp)
    have hrest : ∀ x ∈ rest, (dyadOnDegree scale (x : Int) l).canonKey = K1 ∨
        (dyadOnDegree scale (x : Int) l).canonKey = K2 :=
      fun x hx => h x (by simp [hx])
    rw [List.foldl_cons]
    by_cases hmem : (dyadOnDegree scale (d : Int) l).canonKey ∈ seen
    · rw [show spectrumStep scale l (seen, res) d = (seen, res) by
        simp [spectrumStep, hmem]]
      exact ih seen res hrest
    · rw [show spectrumStep scale l (seen, res) d =
          (seen ++ [(dyadOnDegree scale (d : Int) l).canonKey],
            res ++ [dyadOnDegree scale (d : Int) l]) by
        simp [spectrumStep, hmem]]
      have hih := ih
        (seen ++ [(dyadOnDegree scale (d : Int) l).canonKey])
        (res ++ [dyadOnDegree scale (d : Int) l]) hrest
      rw [List.length_append, List.length_singleton] at hih
      rcases hd with hk | hk
      · rw [hk] at hih hmem ⊢
        rw [if_pos (show K1 ∈ seen ++ [K1] by simp)] at hih
        rw [if_neg hmem]
        by_cases h2 : K2 ∈ seen
        · rw [if_pos (show K2 ∈ seen ++ [K1] by simp [h2])] at hih
          rw [if_pos h2]
          omega
        · rw [if_neg h2]
          by_cases h2' : K2 ∈ seen ++ [K1]
          · rw [if_pos h2'] at hih
            omega
          · rw [if_neg h2'] at hih
            omega
      · rw [hk] at hih hmem ⊢
        rw [if_pos (show K2 ∈ seen ++ [K2] by simp)] at hih
        rw [if_neg hmem]
        by_cases h1 : K1 ∈ seen
        · rw [if_pos (show K1 ∈ seen ++ [K2] by simp [h1])] at hih
          rw [if_pos h1]
          omega
        · rw [if_neg h1]
          by_cases h1' : K1 ∈ seen ++ [K2]
          · rw [if_pos h1'] at hih
            omega
          · rw [if_neg h1'] at hih
            omega

theorem spectrumStep_fold_seen_ext (scale : List Nat) (l : Nat) :
    ∀ (ds : List Nat) (seen : List (List (Nat × Int)))
      (res : List CountVector),
    ∃ ext, (ds.foldl (spectrumStep scale l) (seen, res)).1 = seen ++ ext := by
  intro ds
  induction ds with
  | nil => intro seen res; exact ⟨[], by simp⟩
  | cons d rest ih =>
    intro seen res
    rw [List.foldl_cons]
    by_cases hmem : (dyadOnDegree scale (d : Int) l).canonKey ∈ seen
    · rw [show spectrumStep scale l (seen, res) d = (seen, res) by
        simp [spectrumStep, hmem]]
      exact ih seen res
    · rw [show spectrumStep scale l (seen, res) d =
          (seen ++ [(dyadOnDegree scale (d : Int) l).canonKey],
            res ++ [dyadOnDegree scale (d : Int) l]) by
        simp [spectrumStep, hmem]]
      rcases ih (seen ++ [(dyadOnDegree scale (d : Int) l).canonKey])
        (res ++ [dyadOnDegree scale (d : Int) l]) with ⟨ext, hext⟩
      exact ⟨[(dyadOnDegree scale (d : Int) l).canonKey] ++ ext, by
        rw [hext, List.append_assoc]⟩

theorem spectrumStep_fold_key_mem (scale : List Nat) (l : Nat) :
    ∀ (ds : List Nat) (seen : List (List (Nat × Int)))
      (res : List CountVector) (d : Nat), d ∈ ds →
    (dyadOnDegree scale (d : Int) l).canonKey ∈
      (ds.foldl (spectrumStep scale l) (seen, res)).1 := by
  intro ds
  induction ds with
  | nil => intro seen res d hd; cases hd
  | cons d0 rest ih =>
    intro seen res d hd
    rw [List.foldl_cons]
    by_cases hmem : (dyadOnDegree scale (d0 : Int) l).canonKey ∈ seen
    · rw [show spectrumStep scale l (seen, res) d0 = (seen, res) by
        simp [spectrumStep, hmem]]
      rcases List.mem_cons.mp hd with hd | hd
      · subst hd
        rcases spectrumStep_fold_seen_ext scale l rest seen res with ⟨ext, hext⟩
        rw [hext]
        exact List.mem_append.mpr (Or.inl hmem)
      · exact ih seen res d hd
    · rw [show spectrumStep scale l (seen, res) d0 =
          (seen ++ [(dyadOnDegree scale (d0 : Int) l).canonKey],
            res ++ [dyadOnDegree scale (d0 : Int) l]) by
        simp [spectrumStep, hmem]]
      rcases List.mem_cons.mp hd with hd | hd
      · subst hd
        rcases spectrumStep_fold_seen_ext scale l rest
          (seen ++ [(dyadOnDegree scale (d : Int) l).canonKey])
          (res ++ [dyadOnDegree scale (d : Int) l]) with ⟨ext, hext⟩
        rw [hext]
        simp
      · exact ih _ _ d hd

theorem spectrumStep_fold_len (scale : List Nat) (l : Nat) :
    ∀ (ds : List Nat) (seen : List (List (Nat × Int)))
      (res : List CountVector),
    ((ds.foldl (spectrumStep scale l) (seen, res)).1).length + res.length =
      ((ds.foldl (spectrumStep scale l) (seen, res)).2).length +
        seen.length := by
  intro ds
  induction ds with
  | nil => intro seen res; simp; omega
  | cons d rest ih =>
    intro seen res
    rw [List.foldl_cons]
    by_cases hmem : (dyadOnDegree scale (d : Int) l).canonKey ∈ seen
    · rw [show spectrumStep scale l (seen, res) d = (seen, res) by
        simp [spectrumStep, hmem]]
      exact ih seen res
    · rw [show spectrumStep scale l (seen, res) d =
          (seen ++ [(dyadOnDegree scale (d : Int) l).canonKey],
            res ++ [dyadOnDegree scale (d : Int) l]) by
        simp [spectrumStep, hmem]]
      have := ih (seen ++ [(dyadOnDegree scale (d : Int) l).canonKey])
        (res ++ [dyadOnDegree scale (d : Int) l])
      simp only [List.length_append, List.length_singleton] at this ⊢
      omega

theorem spectrumStep_fold_nodup (scale : List Nat) (l : Nat) :
    ∀ (ds : List Nat) (seen : List (List (Nat × Int)))
      (res : List CountVector), seen.Nodup →
    ((ds.foldl (spectrumStep scale l) (seen, res)).1).Nodup := by
  intro ds
  induction ds with
  | nil => intro seen res h; exact h
  | cons d rest ih =>
    intro seen res h
    rw [List.foldl_cons]
    by_cases hmem : (dyadOnDegree scale (d : Int) l).canonKey ∈ seen
    · rw [show spectrumStep scale l (seen, res) d = (seen, res) by
        simp [spectrumStep, hmem]]
      exact ih seen res h
    · rw [show spectrumStep scale l (seen, res) d =
          (seen ++ [(dyadOnDegree scale (d : Int) l).canonKey],
            res ++ [dyadOnDegree scale (d : Int) l]) by
        simp [spectrumStep, hmem]]
      apply ih
      simp only [List.nodup_append, List.nodup_cons, List.nodup_nil]
      refine ⟨h, by simp, ?_⟩
      intro x hx
      simp only [List.mem_singleton]
      intro hc
      exact hmem (hc ▸ hx)

theorem distinctSpectrum_le_two (scale : List Nat) (l : Nat)
    (K1 K2 : List (Nat × Int))
    (h : ∀ d ∈ List.range scale.length,
      (dyadOnDegree scale (d : Int) l).canonKey = K1 ∨
      (dyadOnDegree scale (d : Int) l).canonKey = K2) :
    (distinctSpectrum scale l).length ≤ 2 := by
  unfold distinctSpectrum
  have := spectrumStep_fold_le_two scale l K1 K2 (List.range scale.length)
    [] [] h
  simpa using this

theorem distinctSpectrum_ge_two (scale : List Nat) (l : Nat) (d1 d2 : Nat)
    (h1 : d1 ∈ List.range scale.length) (h2 : d2 ∈ List.range scale.length)
    (hne : (dyadOnDegree scale (d1 : Int) l).canonKey ≠
      (dyadOnDegree scale (d2 : Int) l).canonKey) :
    2 ≤ (distinctSpectrum scale l).length := by
  unfold distinctSpectrum
  have hlen := spectrumStep_fold_len scale l (List.range scale.length) [] []
  simp only [List.length_nil, Nat.add_zero] at hlen
  rw [← hlen]
  have hk1 := spectrumStep_fold_key_mem scale l (List.range scale.length)
    [] [] d1 h1
  have hk2 := spectrumStep_fold_key_mem scale l (List.range scale.length)
    [] [] d2 h2
  have hnd := spectrumStep_fold_nodup scale l (List.range scale.length)
    [] [] (by simp)
  have hsub : ({(dyadOnDegree scale (d1 : Int) l).canonKey,
      (dyadOnDegree scale (d2 : Int) l).canonKey} : Finset (List (Nat × Int)))
      ⊆ ((List.range scale.length).foldl (spectrumStep scale l)
        ([], [])).1.toFinset := by
    intro x hx
    rcases Finset.mem_insert.mp hx with hx | hx
    · rw [hx]
      exact List.mem_toFinset.mpr hk1
    · rw [Finset.mem_singleton.mp hx]
      exact List.mem_toFinset.mpr hk2
  have hcard := Finset.card_le_card hsub
  rw [Finset.card_insert_of_not_mem (by
    rw [Finset.mem_singleton]
    exact hne), Finset.card_singleton] at hcard
  rw [List.toFinset_card_of_nodup hnd] at hcard
  exact hcard

theorem foldl_max_le (f : Nat → Nat) (B : Nat) :
    ∀ (l : List Nat) (acc : Nat), acc ≤ B → (∀ x ∈ l, f x ≤ B) →
    l.foldl (fun m x => max m (f x)) acc ≤ B := by
  intro l
  induction l with
  | nil => intro acc hacc _; exact hacc
  | cons x rest ih =>
    intro acc hacc h
    rw [List.foldl_cons]
    exact ih _ (by
      have := h x (by simp)
      omega) (fun y hy => h y (by simp [hy]))

theorem foldl_max_ge_acc (f : Nat → Nat) :
    ∀ (l : List Nat) (acc : Nat),
    acc ≤ l.foldl (fun m x => max m (f x)) acc := by
  intro l
  induction l with
  | nil => intro acc; exact le_refl acc
  | cons x rest ih =>
    intro acc
    rw [List.foldl_cons]
    have := ih (max acc (f x))
    omega

theorem foldl_max_ge (f : Nat → Nat) :
    ∀ (l : List Nat) (acc x : Nat), x ∈ l →
    f x ≤ l.foldl (fun m y => max m (f y)) acc := by
  intro l
  induction l with
  | nil => intro acc x hx; cases hx
  | cons y rest ih =>
    intro acc x hx
    rw [List.foldl_cons]
    rcases List.mem_cons.mp hx with hx | hx
    · subst hx
      have := foldl_max_ge_acc f rest (max acc (f x))
      omega
    · exact ih _ x hx

theorem bres_mem_binary (a b : Nat) (ha : 0 < a) (hb : 0 < b) :
    ∀ x ∈ bresLoop a b (a + b) 0 0, x = 0 ∨ x = 1 := by
  rw [bresWord_eq a b ha hb]
  intro x hx
  rcases List.mem_map.mp hx with ⟨t, _, hview⟩
  have h1 := mechY_mono b (a + b) (show 0 < a + b by omega)
    (show t ≤ t + 1 by omega)
  have h2 := mechY_succ_le b (a + b) t (by omega) (by omega)
  unfold mechStep at hview
  omega

theorem bres_count_one (a b : Nat) (ha : 0 < a) (hb : 0 < b) :
    (bresLoop a b (a + b) 0 0).count 1 = b := by
  rw [bresWord_eq a b ha hb]
  have hcongr : (List.range' 0 (a + b)).map (fun t => mechStep b (a + b) t) =
      (List.range' 0 (a + b)).map
        (fun t => mechStep b (a + b) (t % (a + b))) := by
    apply List.map_congr_left
    intro t ht
    rw [List.mem_range'_1] at ht
    rw [Nat.mod_eq_of_lt (by omega)]
  rw [hcongr, count_ones_range' b (a + b) (by omega) (by omega) (a + b) 0]
  rw [Nat.zero_add, mechY_full b (a + b) (by omega),
    mechY_zero b (a + b) (by omega)]
  omega

theorem bres_count_zero (a b : Nat) (ha : 0 < a) (hb : 0 < b) :
    (bresLoop a b (a + b) 0 0).count 0 = a := by
  have hsplit := count_binary_split _ (bres_mem_binary a b ha hb)
  rw [bres_count_one a b ha hb, bresWord_length a b ha hb] at hsplit
  omega

theorem maximumVariety_bres (a b : Nat) (ha : 0 < a) (hb : 0 < b) :
    maximumVariety (bresLoop a b (a + b) 0 0) = 2 := by
  have hn : 0 < a + b := by omega
  have hlen := bresWord_length a b ha hb
  unfold maximumVariety
  rw [hlen, if_neg (by omega)]
  apply Nat.le_antisymm
  · apply foldl_max_le _ 2 _ 0 (by omega)
    intro l hl
    rw [List.mem_range'_1] at hl
    have hl2 : l ≤ a + b := by
      have := Nat.div_le_self (a + b) 2
      omega
    apply distinctSpectrum_le_two _ _ (mosKey l (b * l / (a + b)))
      (mosKey l (b * l / (a + b) + 1))
    intro d hd
    rw [hlen] at hd
    rw [List.mem_range] at hd
    rw [dyad_canonKey a b d l ha hb hd hl2]
    have hb1 := window_count_bounds a b d l ha hb hd hl2
    by_cases hcase : (wordOnDegree (bresLoop a b (a + b) 0 0) (d : Int)
        l).count 1 = b * l / (a + b)
    · left
      rw [hcase]
    · right
      have heq : (wordOnDegree (bresLoop a b (a + b) 0 0) (d : Int)
          l).count 1 = b * l / (a + b) + 1 := by omega
      rw [heq]
  · -- the length-1 spectrum already has two distinct dyads
    have hc0 : (0 : Nat) ∈ bresLoop a b (a + b) 0 0 := by
      have := bres_count_zero a b ha hb
      have hpos : 0 < (bresLoop a b (a + b) 0 0).count 0 := by omega
      exact List.count_pos_iff_mem.mp hpos
    have hc1 : (1 : Nat) ∈ bresLoop a b (a + b) 0 0 := by
      have := bres_count_one a b ha hb
      have hpos : 0 < (bresLoop a b (a + b) 0 0).count 1 := by omega
      exact List.count_pos_iff_mem.mp hpos
    rw [bresWord_eq a b ha hb] at hc0 hc1
    rcases List.mem_map.mp hc0 with ⟨t0, ht0, hv0⟩
    rcases List.mem_map.mp hc1 with ⟨t1, ht1, hv1⟩
    rw [List.mem_range'_1] at ht0 ht1
    have hwin : ∀ t, t < a + b →
        wordOnDegree (bresLoop a b (a + b) 0 0) (t : Int) 1 =
          [mechStep b (a + b) t] := by
      intro t ht
      rw [wordOnDegree_mech a b t 1 ha hb ht (by omega)]
      show (List.range' t 1).map _ = _
      rw [show List.range' t 1 = [t] from rfl, List.map_singleton,
        Nat.mod_eq_of_lt ht]
    have hkey : 1 ∈ List.range' 1 ((a + b) / 2) := by
      rw [List.mem_range'_1]
      constructor
      · omega
      · have : 1 ≤ (a + b) / 2 := by
          apply Nat.le_div_iff_mul_le (by omega) |>.mpr
          omega
        omega
    have hge : 2 ≤ (distinctSpectrum (bresLoop a b (a + b) 0 0) 1).length := by
      apply distinctSpectrum_ge_two _ 1 t0 t1
      · rw [hlen, List.mem_range]; omega
      · rw [hlen, List.mem_range]; omega
      · unfold dyadOnDegree
        rw [hwin t0 (by omega), hwin t1 (by omega), hv0, hv1]
        decide
    have := foldl_max_ge
      (fun l => (distinctSpectrum (bresLoop a b (a + b) 0 0) l).length)
      (List.range' 1 ((a + b) / 2)) 0 1 hkey
    simp only at this
    have hsp := hge
    omega

/-! ### Claim C6: darkestMosModeAndGenBresenham -/

/-- C6: for coprime positive `a`, `b`, `darkestMosModeAndGenBresenham(a, b)`
evaluates without throwing (yields `some`): its word has length `a + b` with
exactly `a` letters 0 and `b` letters 1, and is a moment-of-symmetry word —
its `maximumVariety` is exactly 2. -/
theorem darkestMosMode_spec (a b : Nat) (ha : 0 < a) (hb : 0 < b)
    (hco : Nat.gcd a b = 1) :
    ∃ w g, darkestMosModeAndGenBresenham a b = some (w, g) ∧
      w.length = a + b ∧ w.count 0 = a ∧ w.count 1 = b ∧
      maximumVariety w = 2 := by
  have hco' : Nat.gcd a (a + b) = 1 := by
    rw [Nat.add_comm a b, Nat.gcd_add_self_right, hco]
  rcases modinv_isSome a (a + b) hco' with ⟨c, hc⟩
  refine ⟨bresLoop a b (a + b) 0 0,
    CountVector.fromSlice ((bresLoop a b (a + b) 0 0).take c), ?_, ?_, ?_,
    ?_, ?_⟩
  · show darkestMosModeAndGenGo (a + b + 1) a b = _
    simp only [darkestMosModeAndGenGo, hco, if_pos, hc]
  · exact bresWord_length a b ha hb
  · exact bres_count_zero a b ha hb
  · exact bres_count_one a b ha hb
  · exact maximumVariety_bres a b ha hb

/-- Witness for `darkestMosMode_spec` at `(a, b) = (3, 2)`: the Bresenham
word of length 5 with three 0s and two 1s and maximum variety 2. -/
theorem darkestMosMode_spec_witness :
    (0 : Nat) < 3 ∧ (0 : Nat) < 2 ∧ Nat.gcd 3 2 = 1 ∧
    (∃ w g, darkestMosModeAndGenBresenham 3 2 = some (w, g) ∧
      w.length = 3 + 2 ∧ w.count 0 = 3 ∧ w.count 1 = 2 ∧
      maximumVariety w = 2) :=
  ⟨by decide, by decide, by decide,
    darkestMosMode_spec 3 2 (by decide) (by decide) (by decide)⟩

/-! ### Booth's algorithm (least rotation) -/

/-- Inner `while` chase of `booth` (src/ternary.js): follow the failure
function until a match or `i = -1`; fuel `2n + 2` bounds the strictly
decreasing failure chain of any reachable state. -/
def boothInner (scale : List Nat) (n : Nat) (f : List Int) (j : Nat) :
    Nat → Int → Nat → (Int × Nat)
  | 0, i, k => (i, k)
  | fuel + 1, i, k =>
    if i = -1 then (i, k)
    else
      let sj := scale.getD (j % n) 0
      let sc := scale.getD ((k + i.toNat + 1) % n) 0
      if sj = sc then (i, k)
      else
        let k2 := if sj < sc then j - i.toNat - 1 else k
        boothInner scale n f j fuel (f.getD i.toNat (-1)) k2

/-- One iteration of the outer `for (j = 1; j < 2n; j++)` loop of `booth`
(src/ternary.js), acting on the failure array and candidate index. -/
def boothStep (scale : List Nat) (n : Nat) (st : List Int × Nat) (j : Nat) :
    List Int × Nat :=
  let f := st.1
  let k := st.2
  let i0 := f.getD (j - k - 1) (-1)
  let ik := boothInner scale n f j (2 * n + 2) i0 k
  let i := ik.1
  let k2 := ik.2
  if i = -1 ∧ scale.getD (j % n) 0 ≠ scale.getD (k2 % n) 0 then
    let k3 := if scale.getD (j % n) 0 < scale.getD (k2 % n) 0 then j else k2
    (f.set (j - k3) (-1), k3)
  else
    (f.set (j - k2) (i + 1), k2)

/-- `booth(scale)` from src/ternary.js: index of the lexicographically least
rotation via the doubled-word failure function. -/
def booth (scale : List Nat) : Nat :=
  let n := scale.length
  ((List.range' 1 (2 * n - 1)).foldl (boothStep scale n)
    (List.replicate (2 * n) (-1), 0)).2

/-- `leastMode(scale)` from src/ternary.js. -/
def leastMode (scale : List Nat) : List Nat :=
  rotate scale ((booth scale : Nat) : Int)

/-! ### Word/scale operations -/

/-- `stepVariety(scale)` from src/ternary.js (`new Set(scale).size`). -/
def stepVariety (scale : List Nat) : Nat :=
  scale.dedup.length

/-- `replace(scale, from, to)` from src/ternary.js. -/
def replaceStep (scale : List Nat) (frm tgt : Nat) : List Nat :=
  scale.map (fun x => if x = frm then tgt else x)

/-- `deleteStep(scale, letter)` from src/ternary.js. -/
def deleteStep (scale : List Nat) (letter : Nat) : List Nat :=
  scale.filter (fun x => !(x == letter))

/-- `monotoneLm(scale)` from src/ternary.js. -/
def monotoneLm (scale : List Nat) : Bool :=
  maximumVariety (replaceStep scale 1 0) == 2

/-- `monotoneMs(scale)` from src/ternary.js. -/
def monotoneMs (scale : List Nat) : Bool :=
  maximumVariety (replaceStep scale 2 1) == 2

/-- `monotoneS0(scale)` from src/ternary.js. -/
def monotoneS0 (scale : List Nat) : Bool :=
  maximumVariety (deleteStep scale 2) == 2

/-- `subst(template, x, filler)` from src/ternary.js. -/
def subst (template : List Nat) (x : Nat) (filler : List Nat) : List Nat :=
  if filler.length = 0 then template.filter (fun letter => !(letter == x))
  else
    (template.foldl (fun st letter =>
      if letter = x then
        (st.1 + 1, st.2 ++ [filler.getD (st.1 % filler.length) 0])
      else (st.1, st.2 ++ [letter]))
      ((0, []) : Nat × List Nat)).2

/-- Stable insertion into a sorted list: models the stable JS
`Array.prototype.sort` used throughout src/ternary.js (any stable sort
agreeing with the comparator is the same function). -/
def insertSorted {α : Type} (le : α → α → Bool) (x : α) :
    List α → List α
  | [] => [x]
  | y :: ys => if le x y then x :: y :: ys else y :: insertSorted le x ys

/-- Stable sort by a boolean `≤`-comparator. -/
def sortBy {α : Type} (le : α → α → Bool) (l : List α) : List α :=
  l.foldr (insertSorted le) []

/-- `mosSubstitutionScalesOnePerm(n0, n1, n2)` from src/ternary.js; `none`
models the divergence of the underlying MOS generator on degenerate
arguments. -/
def mosSubstitutionScalesOnePerm (n0 n1 n2 : Nat) :
    Option (List (List Nat)) :=
  match darkestMosModeAndGenBresenham n0 (n1 + n2),
      darkestMosModeAndGenBresenham n1 n2 with
  | some (template, _), some (filler, gener) =>
    let fillerShifted := filler.map (· + 1)
    let generSize := gener.len.toNat
    some ((List.range (n1 + n2)).map (fun i =>
      subst template 1
        (rotate fillerShifted
          (((i * generSize) % fillerShifted.length : Nat) : Int))))
  | _, _ => none

/-- `mosSubstitutionScales(sig)` from src/ternary.js. -/
def mosSubstitutionScales (sig : List Nat) : Option (List (List Nat)) :=
  let n0 := sig.getD 0 0
  let n1 := sig.getD 1 0
  let n2 := sig.getD 2 0
  match mosSubstitutionScalesOnePerm n0 n1 n2,
      mosSubstitutionScalesOnePerm n1 n2 n0,
      mosSubstitutionScalesOnePerm n2 n0 n1 with
  | some s1, some s2, some s3 =>
    let scales2 := s2.map (fun scale => scale.map (fun x => (x + 1) % 3))
    let scales3 := s3.map (fun scale =>
      scale.map (fun x => if x = 0 then 2 else (x - 1) % 3))
    let allScales := s1 ++ scales2 ++ scales3
    let unique := (allScales.foldl (fun st scale =>
      let canonical := leastMode scale
      if canonical ∈ st then st else st ++ [canonical]) [])
    some (sortBy (fun a b => compareArrays a b ≤ 0) unique)
  | _, _, _ => none

/-- `isMosSubst(scale, t, f1, f2)` from src/ternary.js. -/
def isMosSubst (scale : List Nat) (t f1 f2 : Nat) : Bool :=
  stepVariety scale == 3 &&
    maximumVariety (deleteStep scale t) == 2 &&
    maximumVariety (replaceStep scale f1 f2) == 2

/-- `chirality(word)` from src/ternary.js. -/
def chirality (word : List Nat) : String :=
  let leastModeWord := leastMode word
  let leastModeWordRev := leastMode word.reverse
  let cmp := compareArrays leastModeWord leastModeWordRev
  if cmp < 0 then "Right" else if cmp > 0 then "Left" else "Achiral"

/-! ### Guide-frame search (full engine) -/

/-- `stackedKSteps(k, neck)` from src/ternary.js. -/
def stackedKSteps (k : Nat) (neck : List Nat) : List CountVector :=
  (List.range neck.length).map (fun i =>
    CountVector.fromSlice (wordOnDegree neck ((k * i : Nat) : Int) k))

/-- `kStepGuidedGsList(k, neck)` from src/ternary.js. -/
def kStepGuidedGsList (k : Nat) (neck : List Nat) :
    List (List CountVector) :=
  guidedGsChains (stackedKSteps k neck)

/-- `guidedGsList(neck)` from src/ternary.js. -/
def guidedGsList (neck : List Nat) : List (List CountVector) :=
  (List.range' 2 (neck.length - 3)).flatMap (fun k =>
    if Nat.gcd k neck.length = 1 then kStepGuidedGsList k neck else [])

/-- `offsetVec(vec1, vec2)` from src/ternary.js: first rotation amount
making the two `CountVector` sequences elementwise `equals`, if any. -/
def offsetVec (vec1 vec2 : List CountVector) : Option Nat :=
  if vec1.length ≠ vec2.length then none
  else (List.range vec1.length).find? (fun i =>
    (List.zip vec1 (rotate vec2 (i : Int))).all (fun p => p.1.equals p.2))

/-- `GuideFrame.trySimple(scale, k)` from src/ternary.js. -/
def GuideFrame.trySimple (scale : List Nat) (k : Nat) : List GuideFrame :=
  if scale.length = 0 ∨ Nat.gcd scale.length k ≠ 1 then []
  else (kStepGuidedGsList k scale).map
    (fun gs => GuideFrame.mk gs [CountVector.ZERO])

/-- `guidedGsListForSubscale(subscale)` from src/ternary.js. -/
def guidedGsListForSubscale (subscale : List CountVector) :
    List (List CountVector) :=
  if subscale.length = 2 then [[subscale.getD 0 CountVector.ZERO]]
  else
    let len := subscale.length
    (List.range' 2 (len / 2 - 1)).flatMap (fun k =>
      if Nat.gcd k len = 1 then
        guidedGsChains ((List.range len).map (fun i =>
          (List.range k).foldl (fun sum j =>
            sum.add (subscale.getD ((i * k + j) % len) CountVector.ZERO))
            CountVector.ZERO))
      else [])

/-- `GuideFrame.tryMultiple(scale, multiplicity, k)` from src/ternary.js. -/
def GuideFrame.tryMultiple (scale : List Nat) (multiplicity k : Nat) :
    List GuideFrame :=
  if multiplicity = 1 ∨ scale.length = 0 ∨
      scale.length % multiplicity ≠ 0 then []
  else
    let d := Nat.gcd k scale.length
    let coD := scale.length / d
    if coD % multiplicity ≠ 0 then
      if d = multiplicity then
        let subscales := (List.range d).map (fun degree =>
          (stackedKSteps d (rotate scale (degree : Int))).take
            (scale.length / d))
        let subscaleOnRoot := subscales.getD 0 []
        let offsetsOpt := (List.range subscales.length).foldl
          (fun acc i =>
            match acc with
            | none => none
            | some offs =>
              match offsetVec subscaleOnRoot (subscales.getD i []) with
              | none => none
              | some off =>
                some (offs ++ [CountVector.fromSlice
                  (wordOnDegree scale 0 (off * d + i))]))
          (some [])
        match offsetsOpt with
        | none => []
        | some offsets0 =>
          let offsets := sortBy (fun a b => a.len ≤ b.len) offsets0
          if offsets.length = 1 ∧
              (offsets.getD 0 CountVector.ZERO).equals CountVector.ZERO then
            (guidedGsListForSubscale subscaleOnRoot).map
              (fun gs => GuideFrame.mk gs [CountVector.ZERO])
          else
            (guidedGsListForSubscale subscaleOnRoot).map
              (fun gs => GuideFrame.mk gs offsets)
      else []
    else []

/-- `guideFrames(scale)` from src/ternary.js: simple frames, interleaved
frames over the divisor list, stable sort by complexity, dedup by the
serialization key of `(gs, polyoffset)`. -/
def guideFrames (scale : List Nat) : List GuideFrame :=
  let len := scale.length
  let simple := (List.range' 2 (len - 3)).flatMap (fun k =>
    if Nat.gcd k len = 1 then GuideFrame.trySimple scale k else [])
  let factors := (List.range' 2 (Nat.sqrt len - 1)).flatMap (fun m =>
    if len % m = 0 then
      if m ≠ len / m then [m, len / m] else [m]
    else [])
  let multiple := factors.flatMap (fun m =>
    (List.range' 2 (len - 3)).flatMap (fun k =>
      GuideFrame.tryMultiple scale m k))
  let results := simple ++ multiple
  let sorted := sortBy (fun a b => a.complexity ≤ b.complexity) results
  (sorted.foldl (fun st frame =>
    let key := (frame.gs.map CountVector.canonKey,
      frame.polyoffset.map CountVector.canonKey)
    if key ∈ st.1 then st else (st.1 ++ [key], st.2 ++ [frame]))
    (([], []) : List (List (List (Nat × Int)) × List (List (Nat × Int))) ×
      List GuideFrame)).2

/-! ### Necklace enumeration (Sawada's algorithm) -/

/-- Descending-order insertion, modelling the `availLetters` restore splice
in `sawadaMut` (src/ternary.js). -/
def insortDesc (j : Nat) : List Nat → List Nat
  | [] => [j]
  | x :: rest => if x > j then x :: insortDesc j rest else j :: x :: rest

/-- The state threaded through `sawadaMut`: remaining content, runs array,
available letters, word under construction, collection of necklaces. -/
structure SawadaState where
  remContent : List Nat
  runs : List Nat
  availLetters : List Nat
  a : List Nat
  coll : List (List Nat)
deriving Repr, DecidableEq

/-- `sawadaMut(...)` from src/ternary.js, with all in-place mutation made
explicit.  The `while` loop over candidate letters `j ≥ a[t-p]` (taken in
descending order from `availLetters`, which every recursive call restores
exactly) is a fold over the `takeWhile` prefix.  Fuel bounds the recursion
depth; since `t` increases by 1 per level, `scaleLen + 1` always suffices. -/
def sawadaMut (arity scaleLen : Nat) :
    Nat → SawadaState → Nat → Nat → Nat → SawadaState
  | 0, st, _, _, _ => st
  | fuel + 1, st, t, p, s =>
    if st.remContent.getD (arity - 1) 0 = scaleLen - t then
      if (st.remContent.getD (arity - 1) 0 = st.runs.getD (t - p) 0 ∧
            scaleLen % p = 0) ∨
          st.remContent.getD (arity - 1) 0 > st.runs.getD (t - p) 0 then
        { st with coll := st.coll ++ [st.a] }
      else st
    else if st.remContent.getD 0 0 ≠ scaleLen - t then
      let js := st.availLetters.takeWhile (fun j => j ≥ st.a.getD (t - p) 0)
      let looped := js.foldl (fun cur j =>
        let runs2 := cur.runs.set s (t - s)
        let wasLastOfKind := cur.remContent.getD j 0 = 1
        let avail2 := if wasLastOfKind then cur.availLetters.erase j
          else cur.availLetters
        let rem2 := cur.remContent.set j (cur.remContent.getD j 0 - 1)
        let a2 := cur.a.set t j
        let deep := sawadaMut arity scaleLen fuel
          { remContent := rem2, runs := runs2, availLetters := avail2,
            a := a2, coll := cur.coll }
          (t + 1)
          (if j = a2.getD (t - p) 0 then p else t + 1)
          (if j = arity - 1 then s else t + 1)
        { deep with
          availLetters := if wasLastOfKind then
              insortDesc j deep.availLetters
            else deep.availLetters,
          remContent := deep.remContent.set j
            (deep.remContent.getD j 0 + 1) }) st
      { looped with a := looped.a.set t (arity - 1) }
    else st

/-- `necklacesFixedContent(content)` from src/ternary.js. -/
def necklacesFixedContent (content : List Nat) : List (List Nat) :=
  if content.length = 0 then []
  else
    let letterMap := (List.range content.length).filter
      (fun i => content.getD i 0 > 0)
    let nonZeroContent := letterMap.map (fun i => content.getD i 0)
    if nonZeroContent.length = 0 then []
    else
      let arity := nonZeroContent.length
      let scaleLen := nonZeroContent.foldl (· + ·) 0
      let remContent := nonZeroContent.set 0 (nonZeroContent.getD 0 0 - 1)
      let word := 0 :: List.replicate (scaleLen - 1) (arity - 1)
      let availLetters := ((List.range arity).reverse).filter
        (fun i => !(i == 0 && remContent.getD 0 0 == 0))
      let runs := List.replicate scaleLen 0
      let final := sawadaMut arity scaleLen (scaleLen + 1)
        { remContent := remContent, runs := runs,
          availLetters := availLetters, a := word, coll := [] } 1 1 1
      final.coll.map (fun necklace =>
        necklace.map (fun letter => letterMap.getD letter 0))

/-! ### Conversions and profiles -/

/-- `numbersToString(word)` from src/ternary.js. -/
def numbersToString (word : List Nat) : String :=
  let letters := STEP_LETTERS.getD (min word.dedup.length 11) []
  word.foldl (fun st i =>
    if i < letters.length then st.push (letters.getD i ' ') else st) ""

/-- `wordToSig(input)` from src/ternary.js. -/
def wordToSig (input : List Nat) : List Nat :=
  input.foldl (fun res i =>
    if i < 3 then res.set i (res.getD i 0 + 1) else res) [0, 0, 0]

/-- `sigToEdTunings(stepSig)` from src/ternary.js (default engine bounds). -/
def sigToEdTunings (stepSig : List Nat) : List (List String) :=
  let edTunings := edTuningsForTernary
    (stepSig.getD 0 0, stepSig.getD 1 0, stepSig.getD 2 0)
    EDO_BOUND S_LOWER_BOUND S_UPPER_BOUND 1200
  edTunings.map (fun v =>
    let edo := v.1 * stepSig.getD 0 0 + v.2.1 * stepSig.getD 1 0 +
      v.2.2 * stepSig.getD 2 0
    [toString v.1 ++ "\\" ++ toString edo,
     toString v.2.1 ++ "\\" ++ toString edo,
     toString v.2.2 ++ "\\" ++ toString edo])

/-- The scale-profile record `wordToProfile` (src/ternary.js) returns; the
JS field `structure` is `structure'` here (`structure` is a Lean keyword). -/
structure ScaleProfile where
  word : String
  lattice_basis : Option (V3 × V3)
  chirality : String
  reversed : String
  structure' : Option GuideFrameResult
  lm : Bool
  ms : Bool
  s0 : Bool
  subst_l_ms : Bool
  subst_m_ls : Bool
  subst_s_lm : Bool
  mv : Nat
deriving Repr, DecidableEq

/-- `wordToProfile(query)` from src/ternary.js. -/
def wordToProfile (query : List Nat) : ScaleProfile :=
  let brightest := numbersToString (leastMode query)
  let lm := monotoneLm query
  let ms := monotoneMs query
  let s0 := monotoneS0 query
  let chi := chirality query
  let reversed := numbersToString (leastMode query.reverse)
  let mv := maximumVariety query
  let stepSig := wordToSig query
  let substLMs := isMosSubst query 0 1 2
  let substMLs := isMosSubst query 1 0 2
  let substSLm := isMosSubst query 2 0 1
  let frames := guideFrames query
  let basisResult := getUnimodularBasis frames
    ⟨(stepSig.getD 0 0 : Int), (stepSig.getD 1 0 : Int),
      (stepSig.getD 2 0 : Int)⟩
  match basisResult with
  | some (basis1, basis2, structure0) =>
    { word := brightest, lattice_basis := some (basis1, basis2),
      chirality := chi, reversed := reversed, structure' := some structure0,
      lm := lm, ms := ms, s0 := s0, subst_l_ms := substLMs,
      subst_m_ls := substMLs, subst_s_lm := substSLm, mv := mv }
  | none =>
    { word := brightest, lattice_basis := none, chirality := chi,
      reversed := reversed, structure' := none, lm := lm, ms := ms,
      s0 := s0, subst_l_ms := substLMs, subst_m_ls := substMLs,
      subst_s_lm := substSLm, mv := mv }

/-- The option record of `sigResult` (src/ternary.js) with its JS default
values. -/
structure SigOptions where
  lm : Bool := false
  ms : Bool := false
  s0 : Bool := false
  ggsLen : Nat := 0
  ggsLenConstraint : String := "at most"
  complexity : Nat := 0
  complexityConstraint : String := "at most"
  mv : Nat := 0
  mvConstraint : String := "at most"
  mosSubst : String := "off"
deriving Repr, DecidableEq

/-- The result record of `sigResult` (src/ternary.js). -/
structure SigResultR where
  profiles : List ScaleProfile
  ji_tunings : List (List String)
  ed_tunings : List (List String)
deriving Repr, DecidableEq

/-- The filter predicate inside `sigResult` (src/ternary.js). -/
def sigFilteringCond (opts : SigOptions) (scale : List Nat) : Bool :=
  (!opts.lm || monotoneLm scale) &&
  (!opts.ms || monotoneMs scale) &&
  (!opts.s0 || monotoneS0 scale) &&
  (if opts.ggsLen > 0 then
    match guideFrames scale with
    | [] => false
    | f :: _ =>
      if opts.ggsLenConstraint = "exactly" then f.gs.length == opts.ggsLen
      else f.gs.length ≤ opts.ggsLen
  else true) &&
  (if opts.mv > 0 then
    (if opts.mvConstraint = "exactly" then maximumVariety scale == opts.mv
     else maximumVariety scale ≤ opts.mv)
  else true) &&
  (if opts.complexity > 0 then
    match guideFrames scale with
    | [] => false
    | f :: _ =>
      if opts.complexityConstraint = "exactly" then
        f.complexity == opts.complexity
      else f.complexity ≤ opts.complexity
  else true)

/-- `sigResult(query, options)` from src/ternary.js; `none` models the
divergence of the MOS-substitution generator on degenerate signatures. -/
def sigResult (query : List Nat) (opts : SigOptions) : Option SigResultR :=
  let stepSig := query
  match (if opts.mosSubst = "on" then mosSubstitutionScales stepSig
    else some (necklacesFixedContent stepSig)) with
  | none => none
  | some scales =>
    let filtered := scales.filter (sigFilteringCond opts)
    let profiles := filtered.map wordToProfile
    let sorted := sortBy (fun p1 p2 =>
      (match p1.structure' with | some st => st.complexity | none => 255) ≤
      (match p2.structure' with | some st => st.complexity | none => 255))
      profiles
    some { profiles := sorted, ji_tunings := [],
           ed_tunings := sigToEdTunings stepSig }

/-- The result record of `wordResult` (src/ternary.js). -/
structure WordResultR where
  profile : ScaleProfile
  ji_tunings : List (List String)
  ed_tunings : List (List String)
deriving Repr, DecidableEq

/-- `wordResult(query)` from src/ternary.js: no validation — the word is
converted (dropping unrecognized symbols), profiled, and tunings listed. -/
def wordResult (query : List Char) : WordResultR :=
  let wordAsNumbers := stringToNumbers query
  let stepSig := wordToSig wordAsNumbers
  { profile := wordToProfile wordAsNumbers, ji_tunings := [],
    ed_tunings := sigToEdTunings stepSig }

/-! ### Claim C9: orchestrator input validation -/

theorem sigToEdTunings_zero : sigToEdTunings [0, 0, 0] = [] := by
  unfold sigToEdTunings
  have h : edTuningsForTernary (0, 0, 0) EDO_BOUND S_LOWER_BOUND
      S_UPPER_BOUND 1200 = [] := by
    apply List.eq_nil_iff_forall_not_mem.mpr
    intro x hmem
    rcases x with ⟨l, m, s⟩
    have h2 := (mem_edTunings_iff (0, 0, 0) EDO_BOUND S_LOWER_BOUND
      S_UPPER_BOUND 1200 l m s).mp hmem
    have hz : stepsAsCents s (l * 0 + m * 0 + s * 0) 1200 = 0 := by
      simp [stepsAsCents]
    rw [hz] at h2
    have := h2.2.2.2.2.2.2.2.1
    rw [show S_LOWER_BOUND = (20 : ℚ) from rfl] at this
    norm_num at this
  rw [show ([0, 0, 0] : List Nat).getD 0 0 = 0 from rfl,
    show ([0, 0, 0] : List Nat).getD 1 0 = 0 from rfl,
    show ([0, 0, 0] : List Nat).getD 2 0 = 0 from rfl, h]
  rfl

theorem necklacesFixedContent_zero (sig : List Nat)
    (hsum : sig.sum = 0) : necklacesFixedContent sig = [] := by
  unfold necklacesFixedContent
  by_cases hlen : sig.length = 0
  · rw [if_pos hlen]
  · rw [if_neg hlen]
    have hfilter : (List.range sig.length).filter
        (fun i => sig.getD i 0 > 0) = [] := by
      apply List.eq_nil_iff_forall_not_mem.mpr
      intro i hi
      have hmem := List.mem_filter.mp hi
      rw [List.mem_range] at hmem
      have helem : sig.getD i 0 = 0 := by
        rw [List.getD_eq_getElem sig 0 hmem.1]
        exact List.sum_eq_zero_iff.mp hsum _ (List.getElem_mem hmem.1)
      have := hmem.2
      rw [helem] at this
      simp at this
    rw [hfilter]
    simp

/-- C9 counterexample: `sigResult` does not reject the all-zero step
signature (0 total steps); with the default options it returns a computed
result — an empty profile list and empty tuning lists — not a rejection.
There is no rejection channel in the code at all: validation lives only in
the excluded UI layer (index.js). -/
theorem sigResult_no_rejection_counterexample :
    sigResult [0, 0, 0] {} =
      some { profiles := [], ji_tunings := [], ed_tunings := [] } := by
  unfold sigResult
  dsimp only
  rw [if_neg (show ¬(SigOptions.mosSubst {} = "on") by decide)]
  rw [necklacesFixedContent_zero [0, 0, 0] (by decide)]
  simp only [List.filter_nil, List.map_nil]
  rw [sigToEdTunings_zero]
  rfl

/-- C9 (amended): the orchestrator entry points perform no input
validation.  With MOS-substitution off, `sigResult` on a step signature
with 0 total steps returns a computed result whose profile list is empty
(with the computed ED-tuning list), rather than reporting a rejection; and
`wordResult` always returns a computed profile for the numeric word left
after `stringToNumbers` silently drops malformed symbols.  Rejection of
empty or rank->3 input exists only in the excluded UI layer. -/
theorem sigResult_wordResult_no_validation (sig : List Nat)
    (opts : SigOptions) (hmos : opts.mosSubst ≠ "on")
    (hsum : sig.sum = 0) :
    sigResult sig opts =
      some { profiles := [], ji_tunings := [],
             ed_tunings := sigToEdTunings sig } ∧
    ∀ q : List Char, wordResult q =
      { profile := wordToProfile (stringToNumbers q), ji_tunings := [],
        ed_tunings := sigToEdTunings (wordToSig (stringToNumbers q)) } := by
  constructor
  · unfold sigResult
    dsimp only
    rw [if_neg hmos]
    rw [necklacesFixedContent_zero sig hsum]
    simp only [List.filter_nil, List.map_nil]
    rfl
  · intro q
    rfl

/-- Witness for `sigResult_wordResult_no_validation` at the all-zero
signature with default options. -/
theorem sigResult_wordResult_no_validation_witness :
    (SigOptions.mosSubst {} ≠ "on") ∧ (([0, 0, 0] : List Nat).sum = 0) ∧
    (sigResult [0, 0, 0] {} =
      some { profiles := [], ji_tunings := [],
             ed_tunings := sigToEdTunings [0, 0, 0] } ∧
    ∀ q : List Char, wordResult q =
      { profile := wordToProfile (stringToNumbers q), ji_tunings := [],
        ed_tunings := sigToEdTunings (wordToSig (stringToNumbers q)) }) :=
  ⟨by decide, by decide,
    sigResult_wordResult_no_validation [0, 0, 0] {} (by decide) (by decide)⟩

/-! ### Booth correctness: periodic indexing and comparison order -/

/-- Character of the infinite periodic extension of `w` at position `x`
(`scale[x % n]` in the JS source). -/
def sAt (w : List Nat) (x : Nat) : Nat :=
  w.getD (x % w.length) 0

theorem sAt_add_length (w : List Nat) (x : Nat) :
    sAt w (x + w.length) = sAt w x := by
  unfold sAt
  rw [Nat.add_mod_right]

theorem rotate_nat_eq_map (w : List Nat) (hw : 0 < w.length) (p : Nat) :
    rotate w (p : Int) = (List.range w.length).map (fun t => sAt w (p + t)) := by
  rw [rotate_natCast]
  have hm : p % w.length < w.length := Nat.mod_lt _ hw
  apply List.ext_getElem
  · simp only [List.length_append, List.length_drop, List.length_take,
      List.length_map, List.length_range]
    omega
  · intro i h1 h2
    have hi : i < w.length := by
      simp only [List.length_map, List.length_range] at h2
      exact h2
    rw [List.getElem_map, List.getElem_range]
    unfold sAt
    have hbase : (p + i) % w.length = (p % w.length + i) % w.length := by
      conv_lhs => rw [Nat.add_mod, Nat.mod_eq_of_lt hi]
    by_cases hc : i < w.length - p % w.length
    · rw [List.getElem_append_left (by simp only [List.length_drop]; omega)]
      rw [List.getElem_drop]
      have hmod : (p + i) % w.length = p % w.length + i := by
        rw [hbase, Nat.mod_eq_of_lt (by omega)]
      rw [List.getD_eq_getElem _ _ (by rw [hmod]; omega)]
      congr 1
      omega
    · rw [List.getElem_append_right (by simp only [List.length_drop]; omega)]
      rw [List.getElem_take]
      have hmod : (p + i) % w.length = p % w.length + i - w.length := by
        rw [hbase, Nat.mod_eq_sub_mod (by omega), Nat.mod_eq_of_lt (by omega)]
      rw [List.getD_eq_getElem _ _ (by rw [hmod]; omega)]
      congr 1
      simp only [List.length_drop]
      omega

theorem rotate_len {α : Type} (w : List α) (r : Int) :
    (rotate w r).length = w.length := by
  unfold rotate
  by_cases h0 : w.length = 0
  · rw [if_pos h0]
  · rw [if_neg h0]
    by_cases hn : (jsMod r ↑w.length).toNat = 0
    · rw [if_pos hn]
    · rw [if_neg hn]
      simp only [List.length_append, List.length_drop, List.length_take]
      have : (jsMod r ↑w.length).toNat < w.length := by
        unfold jsMod
        have hpos : (0 : Int) < (w.length : Int) := by
          exact_mod_cast Nat.pos_of_ne_zero h0
        have := Int.emod_lt_of_pos (r % ↑w.length + ↑w.length) hpos
        omega
      omega

theorem getD_range_map (g : Nat → Nat) (n i : Nat) (h : i < n) :
    ((List.range n).map g).getD i 0 = g i := by
  rw [List.getD_eq_getElem _ _ (by simpa using h), List.getElem_map,
    List.getElem_range]

theorem sAt_rotate (w : List Nat) (hw : 0 < w.length) (p x : Nat) :
    sAt (rotate w (p : Int)) x = sAt w (p + x) := by
  rw [rotate_nat_eq_map w hw p]
  show ((List.range w.length).map (fun t => sAt w (p + t))).getD
      (x % ((List.range w.length).map (fun t => sAt w (p + t))).length) 0
      = sAt w (p + x)
  rw [List.length_map, List.length_range]
  rw [getD_range_map _ _ _ (Nat.mod_lt _ hw)]
  unfold sAt
  congr 1
  conv_rhs => rw [Nat.add_mod p x]
  conv_lhs => rw [Nat.add_mod p (x % w.length)]
  rw [Nat.mod_mod_of_dvd x dvd_rfl]

theorem jsMod_nonneg_lt (r n : Int) (hn : 0 < n) :
    0 ≤ jsMod r n ∧ jsMod r n < n := by
  unfold jsMod
  constructor
  · exact Int.emod_nonneg _ (by omega)
  · exact Int.emod_lt_of_pos _ hn

theorem rotate_int_reduce (w : List Nat) (hw : 0 < w.length) (r : Int) :
    rotate w r = rotate w (((jsMod r ↑w.length).toNat : Nat) : Int) := by
  have hn : (0 : Int) < ↑w.length := by exact_mod_cast hw
  obtain ⟨hge, hlt⟩ := jsMod_nonneg_lt r ↑w.length hn
  have hcast : (((jsMod r ↑w.length).toNat : Nat) : Int) = jsMod r ↑w.length :=
    Int.toNat_of_nonneg hge
  have hval : jsMod r ↑w.length % ↑w.length = jsMod r ↑w.length :=
    Int.emod_eq_of_lt hge hlt
  have harg : jsMod (((jsMod r ↑w.length).toNat : Nat) : Int) ↑w.length
      = jsMod r ↑w.length := by
    rw [hcast]
    show (jsMod r ↑w.length % ↑w.length + ↑w.length) % ↑w.length
        = jsMod r ↑w.length
    rw [hval]
    rw [show jsMod r ↑w.length + ↑w.length
        = jsMod r ↑w.length + 1 * ↑w.length by ring]
    rw [Int.add_mul_emod_self, hval]
  unfold rotate
  rw [harg]

theorem compareArrays_le_zero_of (a b : List Nat) (hlen : a.length = b.length)
    (h : (∀ i, i < a.length → a.getD i 0 = b.getD i 0) ∨
      ∃ d, d < a.length ∧ (∀ t, t < d → a.getD t 0 = b.getD t 0) ∧
        a.getD d 0 < b.getD d 0) :
    compareArrays a b ≤ 0 := by
  induction a generalizing b with
  | nil =>
    cases b with
    | nil => unfold compareArrays; omega
    | cons y ys => simp at hlen
  | cons x xs ih =>
    cases b with
    | nil => simp at hlen
    | cons y ys =>
      unfold compareArrays
      by_cases hxy : x < y
      · rw [if_pos hxy]; omega
      · rw [if_neg hxy]
        by_cases hyx : y < x
        · exfalso
          rcases h with h | ⟨d, hd, hmatch, hlt⟩
          · have := h 0 (by simp)
            simp at this
            omega
          · cases d with
            | zero => simp at hlt; omega
            | succ d' =>
              have := hmatch 0 (by omega)
              simp at this
              omega
        · rw [if_neg hyx]
          apply ih ys (by simpa using hlen)
          rcases h with h | ⟨d, hd, hmatch, hlt⟩
          · left
            intro i hi
            have := h (i + 1) (by simpa using Nat.succ_lt_succ hi)
            simpa using this
          · right
            cases d with
            | zero => simp at hlt; omega
            | succ d' =>
              refine ⟨d', by simpa using hd, ?_, by simpa using hlt⟩
              intro t ht
              have := hmatch (t + 1) (by omega)
              simpa using this

theorem compareArrays_antisymm (a b : List Nat) (hlen : a.length = b.length)
    (h1 : compareArrays a b ≤ 0) (h2 : compareArrays b a ≤ 0) : a = b := by
  induction a generalizing b with
  | nil =>
    cases b with
    | nil => rfl
    | cons y ys => simp at hlen
  | cons x xs ih =>
    cases b with
    | nil => simp at hlen
    | cons y ys =>
      unfold compareArrays at h1 h2
      by_cases hxy : x < y
      · rw [if_neg (by omega), if_pos hxy] at h2; omega
      · by_cases hyx : y < x
        · rw [if_neg (by omega), if_pos hyx] at h1; omega
        · rw [if_neg hxy, if_neg hyx] at h1
          rw [if_neg hyx, if_neg hxy] at h2
          have : x = y := by omega
          rw [this, ih ys (by simpa using hlen) h1 h2]

/-! ### Border theory for the Booth failure function -/

/-- `b` is a proper border length of the length-`L` factor of the periodic
word starting at position `k`. -/
def IsBorderAt (w : List Nat) (k L b : Nat) : Prop :=
  b < L ∧ ∀ t, t < b → sAt w (k + t) = sAt w (k + (L - b) + t)

instance (w : List Nat) (k L b : Nat) : Decidable (IsBorderAt w k L b) :=
  inferInstanceAs (Decidable (b < L ∧ ∀ t, t < b →
    sAt w (k + t) = sAt w (k + (L - b) + t)))

/-- Length of the longest proper border of the length-`L` factor at `k`. -/
def maxBorderAt (w : List Nat) (k L : Nat) : Nat :=
  Nat.findGreatest (fun b => IsBorderAt w k L b) (L - 1)

theorem border_zero (w : List Nat) (k L : Nat) (hL : 0 < L) :
    IsBorderAt w k L 0 :=
  ⟨hL, fun t ht => absurd ht (by omega)⟩

theorem border_trans (w : List Nat) (k L b β : Nat)
    (hb : IsBorderAt w k L b) (hβ : IsBorderAt w k b β) :
    IsBorderAt w k L β := by
  obtain ⟨hbL, hbm⟩ := hb
  obtain ⟨hβb, hβm⟩ := hβ
  refine ⟨by omega, fun t ht => ?_⟩
  have h1 : sAt w (k + t) = sAt w (k + (b - β) + t) := hβm t ht
  have h2 : sAt w (k + ((b - β) + t)) = sAt w (k + (L - b) + ((b - β) + t)) :=
    hbm ((b - β) + t) (by omega)
  have e1 : k + (b - β) + t = k + ((b - β) + t) := by omega
  have e2 : k + (L - b) + ((b - β) + t) = k + (L - β) + t := by omega
  rw [h1, e1, h2, e2]

theorem border_of_lt (w : List Nat) (k L b β : Nat)
    (hb : IsBorderAt w k L b) (hβ : IsBorderAt w k L β) (hlt : β < b) :
    IsBorderAt w k b β := by
  obtain ⟨hbL, hbm⟩ := hb
  obtain ⟨hβL, hβm⟩ := hβ
  refine ⟨hlt, fun t ht => ?_⟩
  have h1 : sAt w (k + ((b - β) + t)) = sAt w (k + (L - b) + ((b - β) + t)) :=
    hbm ((b - β) + t) (by omega)
  have h2 : sAt w (k + t) = sAt w (k + (L - β) + t) := hβm t (by omega)
  have e1 : k + (b - β) + t = k + ((b - β) + t) := by omega
  have e2 : k + (L - b) + ((b - β) + t) = k + (L - β) + t := by omega
  rw [e1, h1, e2, ← h2]

theorem maxBorder_is_border (w : List Nat) (k L : Nat) (hL : 0 < L) :
    IsBorderAt w k L (maxBorderAt w k L) :=
  Nat.findGreatest_spec (m := 0) (by omega) (border_zero w k L hL)

theorem le_maxBorder (w : List Nat) (k L b : Nat)
    (hb : IsBorderAt w k L b) : b ≤ maxBorderAt w k L :=
  Nat.le_findGreatest (by have := hb.1; omega) hb

theorem maxBorder_lt (w : List Nat) (k L : Nat) (hL : 0 < L) :
    maxBorderAt w k L < L := by
  have := Nat.findGreatest_le (P := fun b => IsBorderAt w k L b) (L - 1)
  unfold maxBorderAt
  omega

theorem maxBorder_eq_of (w : List Nat) (k L b : Nat)
    (hb : IsBorderAt w k L b)
    (hmax : ∀ b', IsBorderAt w k L b' → b' ≤ b) :
    maxBorderAt w k L = b := by
  have hL : 0 < L := by have := hb.1; omega
  exact le_antisymm (hmax _ (maxBorder_is_border w k L hL))
    (le_maxBorder w k L b hb)

theorem border_congr (w : List Nat) (k k' L b : Nat)
    (h : ∀ t, t < L → sAt w (k + t) = sAt w (k' + t)) :
    IsBorderAt w k L b ↔ IsBorderAt w k' L b := by
  constructor <;> intro hb <;> obtain ⟨hbl, hbm⟩ := hb <;>
    refine ⟨hbl, fun t ht => ?_⟩
  · have e1 : k + (L - b) + t = k + ((L - b) + t) := by omega
    have e1' : k' + (L - b) + t = k' + ((L - b) + t) := by omega
    rw [e1', ← h ((L - b) + t) (by omega), ← h t (by omega), ← e1]
    exact hbm t ht
  · have e1 : k + (L - b) + t = k + ((L - b) + t) := by omega
    have e1' : k' + (L - b) + t = k' + ((L - b) + t) := by omega
    rw [e1, h ((L - b) + t) (by omega), h t (by omega), ← e1']
    exact hbm t ht

theorem maxBorder_congr (w : List Nat) (k k' L : Nat) (hL : 0 < L)
    (h : ∀ t, t < L → sAt w (k + t) = sAt w (k' + t)) :
    maxBorderAt w k L = maxBorderAt w k' L := by
  apply le_antisymm
  · exact le_maxBorder w k' L _
      ((border_congr w k k' L _ h).mp (maxBorder_is_border w k L hL))
  · exact le_maxBorder w k L _
      ((border_congr w k k' L _ h).mpr (maxBorder_is_border w k' L hL))

theorem border_succ_iff (w : List Nat) (k L m : Nat) (hL : 0 < L) :
    IsBorderAt w k (L + 1) m ↔
      (m = 0 ∨ (1 ≤ m ∧ IsBorderAt w k L (m - 1) ∧
        sAt w (k + (m - 1)) = sAt w (k + L))) := by
  constructor
  · rintro ⟨hm, hmatch⟩
    cases Nat.eq_zero_or_pos m with
    | inl h0 => exact Or.inl h0
    | inr hpos =>
      refine Or.inr ⟨hpos, ⟨by omega, fun t ht => ?_⟩, ?_⟩
      · have := hmatch t (by omega)
        have e : k + (L + 1 - m) + t = k + (L - (m - 1)) + t := by omega
        rw [← e]
        exact this
      · have := hmatch (m - 1) (by omega)
        have e : k + (L + 1 - m) + (m - 1) = k + L := by omega
        rw [← e]
        exact this
  · rintro (h0 | ⟨h1, ⟨hlt, hmatch⟩, hchar⟩)
    · rw [h0]
      exact border_zero w k (L + 1) (by omega)
    · refine ⟨by omega, fun t ht => ?_⟩
      by_cases hc : t < m - 1
      · have := hmatch t hc
        have e : k + (L - (m - 1)) + t = k + (L + 1 - m) + t := by omega
        rw [← e]
        exact this
      · have ht' : t = m - 1 := by omega
        rw [ht']
        have e : k + (L + 1 - m) + (m - 1) = k + L := by omega
        rw [e]
        exact hchar

/-! ### Booth loop invariant -/

/-- Position `p` has been strictly beaten by the candidate rotation at `k`
within the examined horizon `j`. -/
def boothDead (w : List Nat) (k p j : Nat) : Prop :=
  ∃ d, p + d < j ∧ (∀ t, t < d → sAt w (k + t) = sAt w (p + t)) ∧
    sAt w (k + d) < sAt w (p + d)

/-- Position `p` matches the candidate rotation at `k` on the whole
examined horizon `j`. -/
def boothLive (w : List Nat) (k p j : Nat) : Prop :=
  k ≤ p ∧ ∀ t, p + t < j → sAt w (p + t) = sAt w (k + t)

/-- Invariant of the outer loop of `booth` at the top of iteration `j`:
the failure array holds the border lengths of the candidate's examined
prefix, and every examined start position is dead or live. -/
def BoothInv (w : List Nat) (j : Nat) (st : List Int × Nat) : Prop :=
  st.1.length = 2 * w.length ∧ st.2 < w.length ∧ st.2 < j ∧
  (∀ q, q < j - st.2 →
    st.1.getD q (-1) = (maxBorderAt w st.2 (q + 1) : Int) - 1) ∧
  (∀ p, p < j → boothDead w st.2 p j ∨ boothLive w st.2 p j)

theorem border_shift (w : List Nat) (k j L b : Nat) (hj : j = k + L)
    (hb : IsBorderAt w k L b) :
    ∀ t, t < b → sAt w ((j - b) + t) = sAt w (k + t) := by
  intro t ht
  have e : (j - b) + t = k + (L - b) + t := by
    have := hb.1
    omega
  rw [e, ← hb.2 t ht]

theorem border_char_mono (w : List Nat) (k j b b' : Nat) (hkj : k < j)
    (hDL : ∀ p, p < j → boothDead w k p j ∨ boothLive w k p j)
    (hb : IsBorderAt w k (j - k) b) (hb' : IsBorderAt w k (j - k) b')
    (hle : b' ≤ b) :
    sAt w (k + b') ≤ sAt w (k + b) := by
  rcases Nat.eq_or_lt_of_le hle with heq | hlt
  · rw [heq]
  have halign := (border_of_lt w k (j - k) b b' hb hb' hlt).2
  have hqj : k + (b - b') < j := by
    have := hb.1
    omega
  rcases hDL (k + (b - b')) hqj with ⟨d, hd, hm, hs⟩ | ⟨_, hl⟩
  · by_cases hdb : d < b'
    · exfalso
      have h1 := halign d hdb
      omega
    · by_cases hdeq : d = b'
      · have e : k + (b - b') + d = k + b := by omega
        rw [e] at hs
        exact le_of_lt (by rw [← hdeq]; exact hs)
      · have := hm b' (by omega)
        have e : k + (b - b') + b' = k + b := by omega
        rw [e] at this
        exact le_of_eq this
  · have hwin : (k + (b - b')) + b' < j := by
      have := hb.1
      omega
    have := hl b' hwin
    have e : k + (b - b') + b' = k + b := by omega
    rw [e] at this
    exact le_of_eq this.symm

theorem booth_newcand_lt (w : List Nat) (j k bu : Nat) (hn : 0 < w.length)
    (hbuj : bu ≤ j)
    (hDL : ∀ p, p < j → boothDead w k p j ∨ boothLive w k p j)
    (hmatch : ∀ t, t < bu → sAt w (k + t) = sAt w ((j - bu) + t))
    (hlt : sAt w j < sAt w (k + bu)) :
    j - bu < w.length := by
  by_contra hc
  push_neg at hc
  set n := w.length with hndef
  have hper : ∀ t, sAt w ((j - bu) + t) = sAt w ((j - bu - n) + t) := by
    intro t
    have e : (j - bu) + t = ((j - bu - n) + t) + n := by omega
    rw [e, sAt_add_length]
  have hp'' : j - bu - n < j := by omega
  rcases hDL (j - bu - n) hp'' with ⟨d, hd, hm, hs⟩ | ⟨_, hl⟩
  · by_cases hdb : d < bu
    · have h1 := hmatch d hdb
      rw [hper d] at h1
      omega
    · by_cases hdeq : d = bu
      · have e : (j - bu - n) + d = ((j - bu) + bu) - n := by omega
        have e2 : (j - bu) + bu = j := by omega
        have h1 : sAt w ((j - bu - n) + bu) = sAt w j := by
          rw [← hper bu, e2]
        rw [hdeq] at hs
        omega
      · have h1 := hm bu (by omega)
        have h2 : sAt w ((j - bu - n) + bu) = sAt w j := by
          rw [← hper bu, show (j - bu) + bu = j by omega]
        omega
  · have h1 := hl bu (by omega)
    have h2 : sAt w ((j - bu - n) + bu) = sAt w j := by
      rw [← hper bu, show (j - bu) + bu = j by omega]
    omega

/-! ### The failure-chain walk -/

/-- Tracks the candidate index during the failure chain of iteration `j`:
either no update has happened, or the candidate is `j - bu` for the
smallest updating border `bu` above the current chain position `B`. -/
def ChainK (w : List Nat) (j k₀ B k : Nat) : Prop :=
  (k = k₀ ∧ ∀ b, IsBorderAt w k₀ (j - k₀) b → B < b →
    ¬ sAt w j < sAt w (k₀ + b)) ∨
  (∃ bu, IsBorderAt w k₀ (j - k₀) bu ∧ B < bu ∧ sAt w j < sAt w (k₀ + bu) ∧
    k = j - bu ∧
    ∀ b, IsBorderAt w k₀ (j - k₀) b → B < b → b < bu →
      ¬ sAt w j < sAt w (k₀ + b))

theorem boothInner_post (w : List Nat) (f : List Int) (j k₀ : Nat)
    (hkj : k₀ < j)
    (Hf : ∀ q, q < j - k₀ →
      f.getD q (-1) = (maxBorderAt w k₀ (q + 1) : Int) - 1) :
    ∀ fuel B k_cur, B + 1 ≤ fuel →
      (B = 0 ∨ (1 ≤ B ∧ IsBorderAt w k₀ (j - k₀) B)) →
      (∀ b, IsBorderAt w k₀ (j - k₀) b → B < b → sAt w (k₀ + b) ≠ sAt w j) →
      ChainK w j k₀ B k_cur →
      ∃ (B_f k_f : Nat),
        boothInner w w.length f j fuel ((B : Int) - 1) k_cur
          = ((B_f : Int) - 1, k_f) ∧
        B_f ≤ B ∧
        (B_f = 0 ∨ (1 ≤ B_f ∧ IsBorderAt w k₀ (j - k₀) B_f ∧
          sAt w (k₀ + B_f) = sAt w j)) ∧
        (∀ b, IsBorderAt w k₀ (j - k₀) b → B_f < b →
          sAt w (k₀ + b) ≠ sAt w j) ∧
        ChainK w j k₀ B_f k_f := by
  intro fuel
  induction fuel with
  | zero => intro B k_cur hfuel hB hmis hK; omega
  | succ fl ih =>
    intro B k_cur hfuel hB hmis hK
    by_cases hB0 : B = 0
    · subst hB0
      refine ⟨0, k_cur, ?_, le_refl 0, Or.inl rfl, hmis, hK⟩
      simp only [boothInner]
      rw [if_pos (by norm_num)]
    · have hB1 : 1 ≤ B := by omega
      have hBb : IsBorderAt w k₀ (j - k₀) B := (hB.resolve_left hB0).2
      have hBL : B < j - k₀ := hBb.1
      have hi_ne : ((B : Int) - 1) ≠ -1 := by omega
      have hitoNat : ((B : Int) - 1).toNat = B - 1 := by omega
      have hshared : sAt w (k_cur + (B - 1) + 1) = sAt w (k₀ + B) := by
        rcases hK with ⟨hk, _⟩ | ⟨bu, hbu, hBbu, hltu, hkeq, hmin⟩
        · rw [hk, show k₀ + (B - 1) + 1 = k₀ + B by omega]
        · rw [hkeq, show (j - bu) + (B - 1) + 1 = (j - bu) + B by omega]
          exact border_shift w k₀ j (j - k₀) bu (by omega) hbu B hBbu
      simp only [boothInner]
      rw [if_neg hi_ne, hitoNat]
      rw [show w.getD (j % w.length) 0 = sAt w j from rfl]
      rw [show w.getD ((k_cur + (B - 1) + 1) % w.length) 0
        = sAt w (k₀ + B) from hshared]
      by_cases hcmp : sAt w j = sAt w (k₀ + B)
      · rw [if_pos hcmp]
        exact ⟨B, k_cur, rfl, le_refl B,
          Or.inr ⟨hB1, hBb, hcmp.symm⟩, hmis, hK⟩
      · rw [if_neg hcmp]
        have hf : f.getD (B - 1) (-1) = (maxBorderAt w k₀ B : Int) - 1 := by
          have := Hf (B - 1) (by omega)
          rw [show B - 1 + 1 = B by omega] at this
          exact this
        have hB'lt : maxBorderAt w k₀ B < B := maxBorder_lt w k₀ B (by omega)
        have hbetween : ∀ b, IsBorderAt w k₀ (j - k₀) b →
            maxBorderAt w k₀ B < b → b < B → False := by
          intro b hborder h1 h2
          have hpre := border_of_lt w k₀ (j - k₀) B b hBb hborder h2
          have := le_maxBorder w k₀ B b hpre
          omega
        have hmis' : ∀ b, IsBorderAt w k₀ (j - k₀) b →
            maxBorderAt w k₀ B < b → sAt w (k₀ + b) ≠ sAt w j := by
          intro b hborder hgt
          by_cases hbB : b = B
          · rw [hbB]; exact fun h => hcmp h.symm
          · by_cases hbB2 : B < b
            · exact hmis b hborder hbB2
            · exact absurd (hbetween b hborder hgt (by omega)) id
        have hB'b : maxBorderAt w k₀ B = 0 ∨ (1 ≤ maxBorderAt w k₀ B ∧
            IsBorderAt w k₀ (j - k₀) (maxBorderAt w k₀ B)) := by
          rcases Nat.eq_zero_or_pos (maxBorderAt w k₀ B) with h0 | hpos
          · exact Or.inl h0
          · exact Or.inr ⟨hpos, border_trans w k₀ (j - k₀) B _ hBb
              (maxBorder_is_border w k₀ B (by omega))⟩
        have hfuel' : maxBorderAt w k₀ B + 1 ≤ fl := by omega
        rw [hf]
        by_cases hlt2 : sAt w j < sAt w (k₀ + B)
        · rw [if_pos hlt2, show j - (B - 1) - 1 = j - B by omega]
          have hK' : ChainK w j k₀ (maxBorderAt w k₀ B) (j - B) := by
            refine Or.inr ⟨B, hBb, hB'lt, hlt2, rfl, ?_⟩
            intro b hborder h1 h2
            exact absurd (hbetween b hborder h1 h2) id
          obtain ⟨B_f, k_f, heq, hle, h1, h2, h3⟩ :=
            ih (maxBorderAt w k₀ B) (j - B) hfuel' hB'b hmis' hK'
          exact ⟨B_f, k_f, heq, by omega, h1, h2, h3⟩
        · rw [if_neg hlt2]
          have hK' : ChainK w j k₀ (maxBorderAt w k₀ B) k_cur := by
            rcases hK with ⟨hk, hnup⟩ | ⟨bu, hbu, hBbu, hltu, hkeq, hmin⟩
            · refine Or.inl ⟨hk, ?_⟩
              intro b hborder hgt
              by_cases hbB : b = B
              · rw [hbB]; exact hlt2
              · by_cases hbB2 : B < b
                · exact hnup b hborder hbB2
                · exact absurd (hbetween b hborder hgt (by omega)) id
            · refine Or.inr ⟨bu, hbu, by omega, hltu, hkeq, ?_⟩
              intro b hborder hgt hltbu
              by_cases hbB : b = B
              · rw [hbB]; exact hlt2
              · by_cases hbB2 : B < b
                · exact hmin b hborder hbB2 hltbu
                · exact absurd (hbetween b hborder hgt (by omega)) id
          obtain ⟨B_f, k_f, heq, hle, h1, h2, h3⟩ :=
            ih (maxBorderAt w k₀ B) k_cur hfuel' hB'b hmis' hK'
          exact ⟨B_f, k_f, heq, by omega, h1, h2, h3⟩

/-! ### Dead/live preservation across one outer iteration -/

theorem booth_dl_reset (w : List Nat) (j k₀ : Nat) (hkj : k₀ < j)
    (hold : ∀ p, p < j → boothDead w k₀ p j ∨ boothLive w k₀ p j)
    (hlt : sAt w j < sAt w k₀) :
    ∀ p, p < j + 1 → boothDead w j p (j + 1) ∨ boothLive w j p (j + 1) := by
  intro p hp
  by_cases hpj : p = j
  · subst hpj
    exact Or.inr ⟨le_refl p, fun t ht => rfl⟩
  · have hpj' : p < j := by omega
    have hple : sAt w k₀ ≤ sAt w p := by
      rcases hold p hpj' with ⟨d, hd, hm, hs⟩ | ⟨_, hl⟩
      · rcases Nat.eq_zero_or_pos d with h0 | hpos
        · subst h0
          rw [Nat.add_zero, Nat.add_zero] at hs
          exact le_of_lt hs
        · have := hm 0 hpos
          rw [Nat.add_zero, Nat.add_zero] at this
          exact le_of_eq this
      · have := hl 0 (by omega)
        rw [Nat.add_zero, Nat.add_zero] at this
        exact le_of_eq this.symm
    refine Or.inl ⟨0, by omega, fun t ht => absurd ht (by omega), ?_⟩
    rw [Nat.add_zero, Nat.add_zero]
    omega

theorem booth_dl_preserve (w : List Nat) (j k₀ k₁ B_f : Nat)
    (hkj : k₀ < j)
    (hold : ∀ p, p < j → boothDead w k₀ p j ∨ boothLive w k₀ p j)
    (hBf : B_f = 0 ∨ (1 ≤ B_f ∧ IsBorderAt w k₀ (j - k₀) B_f ∧
      sAt w (k₀ + B_f) = sAt w j))
    (hmatch0 : B_f = 0 → sAt w k₀ ≤ sAt w j)
    (hmis : ∀ b, IsBorderAt w k₀ (j - k₀) b → B_f < b →
      sAt w (k₀ + b) ≠ sAt w j)
    (hK : ChainK w j k₀ B_f k₁) :
    ∀ p, p < j + 1 → boothDead w k₁ p (j + 1) ∨ boothLive w k₁ p (j + 1) := by
  have hL1 : 1 ≤ j - k₀ := by omega
  have hbase : sAt w k₀ ≤ sAt w j := by
    rcases hBf with h0 | ⟨h1, hb, hc⟩
    · exact hmatch0 h0
    · have := border_char_mono w k₀ j B_f 0 hkj hold hb
        (border_zero w k₀ (j - k₀) hL1) (by omega)
      rw [Nat.add_zero] at this
      omega
  intro p hp
  by_cases hpj : p = j
  · subst hpj
    have hk1c : sAt w k₁ = sAt w k₀ ∧ k₁ ≤ p := by
      rcases hK with ⟨hk, _⟩ | ⟨bu, hbu, hgt, hltu, hkeq, _⟩
      · exact ⟨by rw [hk], by omega⟩
      · have hbu1 : 1 ≤ bu := by omega
        have h0 := border_shift w k₀ p (p - k₀) bu (by omega) hbu 0 hbu1
        rw [Nat.add_zero, Nat.add_zero] at h0
        exact ⟨by rw [hkeq]; exact h0, by omega⟩
    rcases Nat.eq_or_lt_of_le hbase with heq | hlt
    · refine Or.inr ⟨hk1c.2, fun t ht => ?_⟩
      have ht0 : t = 0 := by omega
      subst ht0
      rw [Nat.add_zero, Nat.add_zero, hk1c.1]
      exact heq.symm
    · refine Or.inl ⟨0, by omega, fun t ht => absurd ht (by omega), ?_⟩
      rw [Nat.add_zero, Nat.add_zero, hk1c.1]
      exact hlt
  · have hpj' : p < j := by omega
    rcases hold p hpj' with ⟨d, hd, hm, hs⟩ | ⟨hk0p, hl⟩
    · rcases hK with ⟨hk, _⟩ | ⟨bu, hbu, hgt, hltu, hkeq, _⟩
      · rw [hk]
        exact Or.inl ⟨d, by omega, hm, hs⟩
      · have hshared := border_shift w k₀ j (j - k₀) bu (by omega) hbu
        by_cases hdbu : d < bu
        · refine Or.inl ⟨d, by omega, fun t ht => ?_, ?_⟩
          · rw [hkeq, hshared t (by omega)]
            exact hm t ht
          · rw [hkeq, hshared d hdbu]
            exact hs
        · have hjbu : (j - bu) + bu = j := by
            have := hbu.1
            omega
          refine Or.inl ⟨bu, by omega, fun t ht => ?_, ?_⟩
          · rw [hkeq, hshared t (by omega)]
            exact hm t (by omega)
          · rw [hkeq, hjbu]
            have hcomp : sAt w (k₀ + bu) ≤ sAt w (p + bu) := by
              rcases Nat.lt_or_ge bu d with h | h
              · exact le_of_eq (hm bu h)
              · have hde : bu = d := by omega
                rw [hde]
                exact le_of_lt hs
            omega
    · have hbp1 : 1 ≤ j - p := by omega
      have hbpL : j - p ≤ j - k₀ := by omega
      have hlive_at : ∀ t, t < j - p → sAt w (p + t) = sAt w (k₀ + t) :=
        fun t ht => hl t (by omega)
      have hlast : p + (j - p) = j := by omega
      have hbp_border : p ≠ k₀ → IsBorderAt w k₀ (j - k₀) (j - p) := by
        intro hne
        refine ⟨by omega, fun t ht => ?_⟩
        have e : k₀ + (j - k₀ - (j - p)) + t = p + t := by omega
        rw [e]
        exact (hlive_at t ht).symm
      rcases hK with ⟨hk, hnup⟩ | ⟨bu, hbu, hgt, hltu, hkeq, hmin⟩
      · rw [hk]
        by_cases hpk0 : p = k₀
        · rw [hpk0]
          exact Or.inr ⟨le_refl k₀, fun t ht => rfl⟩
        · have hbpb := hbp_border hpk0
          rcases Nat.lt_trichotomy (j - p) B_f with hlt1 | heq1 | hgt1
          · obtain ⟨h1, hb, hc⟩ := hBf.resolve_left (by omega)
            have hsm := border_char_mono w k₀ j B_f (j - p) hkj hold hb hbpb
              (le_of_lt hlt1)
            rcases Nat.eq_or_lt_of_le hsm with heq2 | hlt2
            · refine Or.inr ⟨hk0p, fun t ht => ?_⟩
              by_cases htb : t < j - p
              · exact hlive_at t htb
              · have ht' : t = j - p := by omega
                rw [ht', hlast]
                omega
            · refine Or.inl ⟨j - p, by omega,
                fun t ht => (hlive_at t ht).symm, ?_⟩
              rw [hlast]
              omega
          · obtain ⟨h1, hb, hc⟩ := hBf.resolve_left (by omega)
            refine Or.inr ⟨hk0p, fun t ht => ?_⟩
            by_cases htb : t < j - p
            · exact hlive_at t htb
            · have ht' : t = j - p := by omega
              rw [ht', hlast, heq1]
              exact hc.symm
          · have hne := hmis (j - p) hbpb hgt1
            have hnl := hnup (j - p) hbpb hgt1
            refine Or.inl ⟨j - p, by omega,
              fun t ht => (hlive_at t ht).symm, ?_⟩
            rw [hlast]
            omega
      · have hshared := border_shift w k₀ j (j - k₀) bu (by omega) hbu
        have hbuL := hbu.1
        have hbu1 : 1 ≤ bu := by omega
        rcases Nat.lt_trichotomy (j - p) bu with hlt1 | heq1 | hgt1
        · have hpk0 : p ≠ k₀ := by omega
          have hbpb := hbp_border hpk0
          rcases Nat.lt_trichotomy (j - p) B_f with hlt2 | heq2 | hgt2
          · obtain ⟨h1, hb, hc⟩ := hBf.resolve_left (by omega)
            have hsm := border_char_mono w k₀ j B_f (j - p) hkj hold hb hbpb
              (le_of_lt hlt2)
            rcases Nat.eq_or_lt_of_le hsm with heq3 | hlt3
            · refine Or.inr ⟨by omega, fun t ht => ?_⟩
              rw [hkeq]
              by_cases htb : t < j - p
              · rw [hshared t (by omega)]
                exact hlive_at t htb
              · have ht' : t = j - p := by omega
                rw [ht', hlast, hshared (j - p) (by omega)]
                omega
            · refine Or.inl ⟨j - p, by omega, fun t ht => ?_, ?_⟩
              · rw [hkeq, hshared t (by omega)]
                exact (hlive_at t ht).symm
              · rw [hkeq, hshared (j - p) (by omega), hlast]
                omega
          · obtain ⟨h1, hb, hc⟩ := hBf.resolve_left (by omega)
            refine Or.inr ⟨by omega, fun t ht => ?_⟩
            rw [hkeq]
            by_cases htb : t < j - p
            · rw [hshared t (by omega)]
              exact hlive_at t htb
            · have ht' : t = j - p := by omega
              rw [ht', hlast, hshared (j - p) (by omega), heq2]
              exact hc.symm
          · have hne := hmis (j - p) hbpb hgt2
            have hnl := hmin (j - p) hbpb hgt2 hlt1
            refine Or.inl ⟨j - p, by omega, fun t ht => ?_, ?_⟩
            · rw [hkeq, hshared t (by omega)]
              exact (hlive_at t ht).symm
            · rw [hkeq, hshared (j - p) (by omega), hlast]
              omega
        · refine Or.inr ⟨by omega, fun t ht => ?_⟩
          rw [hkeq, show j - bu = p by omega]
        · refine Or.inl ⟨bu, by omega, fun t ht => ?_, ?_⟩
          · rw [hkeq, hshared t ht]
            exact (hlive_at t (by omega)).symm
          · rw [hkeq, show (j - bu) + bu = j by omega]
            have := hlive_at bu (by omega)
            omega

theorem getD_set_self_int (l : List Int) (i : Nat) (v d : Int)
    (h : i < l.length) : (l.set i v).getD i d = v := by
  rw [List.getD_eq_getElem _ _ (by simpa using h)]
  simp [List.getElem_set]

theorem getD_set_ne_int (l : List Int) (i q : Nat) (v d : Int) (h : i ≠ q) :
    (l.set i v).getD q d = l.getD q d := by
  by_cases hq : q < l.length
  · rw [List.getD_eq_getElem _ _ (by simpa using hq),
      List.getD_eq_getElem _ _ hq]
    simp [List.getElem_set, h]
  · have h1 : l.length ≤ q := by omega
    rw [List.getD_eq_default _ _ (by simpa using h1),
      List.getD_eq_default _ _ h1]

theorem booth_new_border_max (w : List Nat) (j k k_f B_f : Nat)
    (hkfj : k_f < j)
    (hsh : ∀ t, t < j - k_f → sAt w (k_f + t) = sAt w (k + t))
    (hbr : ∀ β, β < j - k_f →
      (IsBorderAt w k (j - k_f) β ↔ IsBorderAt w k (j - k) β))
    (hBfb : B_f < j - k_f)
    (hBfborder : B_f = 0 ∨ IsBorderAt w k (j - k) B_f)
    (hchar : sAt w (k + B_f) = sAt w j)
    (hmis : ∀ b, IsBorderAt w k (j - k) b → B_f < b →
      sAt w (k + b) ≠ sAt w j) :
    maxBorderAt w k_f ((j - k_f) + 1) = B_f + 1 := by
  have hL1 : 1 ≤ j - k_f := by omega
  have hkfL : k_f + (j - k_f) = j := by omega
  apply maxBorder_eq_of
  · rw [border_succ_iff w k_f (j - k_f) (B_f + 1) hL1]
    refine Or.inr ⟨by omega, ?_, ?_⟩
    · rw [show B_f + 1 - 1 = B_f by omega]
      apply (border_congr w k_f k (j - k_f) B_f hsh).mpr
      rcases hBfborder with h0 | hb
      · rw [h0]
        exact border_zero w k (j - k_f) hL1
      · exact (hbr B_f hBfb).mpr hb
    · rw [show B_f + 1 - 1 = B_f by omega, hsh B_f hBfb, hchar, hkfL]
  · intro m hm
    rw [border_succ_iff w k_f (j - k_f) m hL1] at hm
    rcases hm with h0 | ⟨hm1, hmb, hmc⟩
    · omega
    · by_contra hcon
      have hβgt : B_f < m - 1 := by omega
      have hβlt : m - 1 < j - k_f := hmb.1
      have hβk : IsBorderAt w k (j - k) (m - 1) :=
        (hbr (m - 1) hβlt).mp ((border_congr w k_f k (j - k_f) (m - 1) hsh).mp hmb)
      apply hmis (m - 1) hβk hβgt
      rw [← hsh (m - 1) hβlt, hmc, hkfL]

theorem booth_new_border_none (w : List Nat) (j k k_f : Nat)
    (hkfj : k_f < j)
    (hsh : ∀ t, t < j - k_f → sAt w (k_f + t) = sAt w (k + t))
    (hbr : ∀ β, β < j - k_f →
      (IsBorderAt w k (j - k_f) β ↔ IsBorderAt w k (j - k) β))
    (hchar0 : sAt w k ≠ sAt w j)
    (hmis : ∀ b, IsBorderAt w k (j - k) b → 0 < b →
      sAt w (k + b) ≠ sAt w j) :
    maxBorderAt w k_f ((j - k_f) + 1) = 0 := by
  have hL1 : 1 ≤ j - k_f := by omega
  have hkfL : k_f + (j - k_f) = j := by omega
  apply maxBorder_eq_of
  · exact border_zero w k_f ((j - k_f) + 1) (by omega)
  · intro m hm
    rw [border_succ_iff w k_f (j - k_f) m hL1] at hm
    rcases hm with h0 | ⟨hm1, hmb, hmc⟩
    · omega
    · exfalso
      have hβlt : m - 1 < j - k_f := hmb.1
      rcases Nat.eq_zero_or_pos (m - 1) with hz | hpos
      · apply hchar0
        have := hsh 0 (by omega)
        rw [Nat.add_zero, Nat.add_zero] at this
        rw [← this]
        rw [hz] at hmc
        rw [Nat.add_zero] at hmc
        rw [hmc, hkfL]
      · have hβk : IsBorderAt w k (j - k) (m - 1) :=
          (hbr (m - 1) hβlt).mp
            ((border_congr w k_f k (j - k_f) (m - 1) hsh).mp hmb)
        apply hmis (m - 1) hβk hpos
        rw [← hsh (m - 1) hβlt, hmc, hkfL]

theorem boothStep_inv (w : List Nat) (j : Nat) (f : List Int) (k : Nat)
    (hn : 0 < w.length) (hj2 : j < 2 * w.length)
    (hInv : BoothInv w j (f, k)) :
    BoothInv w (j + 1) (boothStep w w.length (f, k) j) := by
  have hInv2 : f.length = 2 * w.length ∧ k < w.length ∧ k < j ∧
      (∀ q, q < j - k →
        f.getD q (-1) = (maxBorderAt w k (q + 1) : Int) - 1) ∧
      (∀ p, p < j → boothDead w k p j ∨ boothLive w k p j) := hInv
  obtain ⟨hflen, hkn, hkj, Hf, hDL⟩ := hInv2
  have hL1 : 1 ≤ j - k := by omega
  have hi0 : f.getD (j - k - 1) (-1)
      = ((maxBorderAt w k (j - k) : Int)) - 1 := by
    have := Hf (j - k - 1) (by omega)
    rw [show j - k - 1 + 1 = j - k by omega] at this
    exact this
  have hmaxlt := maxBorder_lt w k (j - k) hL1
  have hmis0 : ∀ b, IsBorderAt w k (j - k) b →
      maxBorderAt w k (j - k) < b → sAt w (k + b) ≠ sAt w j :=
    fun b hb hgt => absurd (le_maxBorder w k (j - k) b hb) (by omega)
  have hK0 : ChainK w j k (maxBorderAt w k (j - k)) k :=
    Or.inl ⟨rfl, fun b hb hgt =>
      absurd (le_maxBorder w k (j - k) b hb) (by omega)⟩
  have hB1b : maxBorderAt w k (j - k) = 0 ∨
      (1 ≤ maxBorderAt w k (j - k) ∧
        IsBorderAt w k (j - k) (maxBorderAt w k (j - k))) := by
    rcases Nat.eq_zero_or_pos (maxBorderAt w k (j - k)) with h0 | hpos
    · exact Or.inl h0
    · exact Or.inr ⟨hpos, maxBorder_is_border w k (j - k) hL1⟩
  obtain ⟨B_f, k_f, hchain, hBfle, hBfmatch, hBfmis, hKf⟩ :=
    boothInner_post w f j k hkj Hf (2 * w.length + 2)
      (maxBorderAt w k (j - k)) k (by omega) hB1b hmis0 hK0
  have hkf_facts : k ≤ k_f ∧ k_f < j ∧ k_f < w.length ∧
      (∀ t, t < j - k_f → sAt w (k_f + t) = sAt w (k + t)) ∧
      (∀ β, β < j - k_f →
        (IsBorderAt w k (j - k_f) β ↔ IsBorderAt w k (j - k) β)) := by
    rcases hKf with ⟨hk, _⟩ | ⟨bu, hbu, hgt, hltu, hkeq, _⟩
    · rw [hk]
      exact ⟨le_refl k, hkj, hkn, fun t ht => rfl, fun β hβ => Iff.rfl⟩
    · have hbuL := hbu.1
      have hbu1 : 1 ≤ bu := by omega
      rw [hkeq, show j - (j - bu) = bu by omega]
      refine ⟨by omega, by omega, ?_, ?_,
        fun β hβ => ⟨fun h => border_trans w k (j - k) bu β hbu h,
          fun h => border_of_lt w k (j - k) bu β hbu h hβ⟩⟩
      · exact booth_newcand_lt w j k bu hn (by omega) hDL
          (fun t ht => (border_shift w k j (j - k) bu (by omega) hbu t ht).symm)
          hltu
      · exact border_shift w k j (j - k) bu (by omega) hbu
  obtain ⟨hkkf, hkfj, hkfn, hsh, hbr⟩ := hkf_facts
  have hkfc : sAt w k_f = sAt w k := by
    have := hsh 0 (by omega)
    rw [Nat.add_zero, Nat.add_zero] at this
    exact this
  have hsetlen : j - k_f < f.length := by omega
  by_cases hBf0 : B_f = 0
  · subst hBf0
    have hi_neg1 : (((0 : Nat) : Int) - 1) = -1 := by norm_num
    rcases Nat.lt_trichotomy (sAt w j) (sAt w k) with hc1 | hc2 | hc3
    · have hstep : boothStep w w.length (f, k) j = (f.set 0 (-1), j) := by
        unfold boothStep
        dsimp only
        rw [hi0, hchain]
        dsimp only
        rw [show w.getD (j % w.length) 0 = sAt w j from rfl,
          show w.getD (k_f % w.length) 0 = sAt w k_f from rfl]
        rw [if_pos ⟨hi_neg1,
          show sAt w j ≠ sAt w k_f by rw [hkfc]; exact ne_of_lt hc1⟩]
        rw [if_pos (show sAt w j < sAt w k_f by rw [hkfc]; exact hc1)]
        rw [Nat.sub_self]
      rw [hstep]
      have hjn : j < w.length := by
        have := booth_newcand_lt w j k 0 hn (by omega) hDL
          (fun t ht => absurd ht (by omega))
          (by rw [Nat.add_zero]; exact hc1)
        omega
      unfold BoothInv
      dsimp only
      refine ⟨by simp [hflen], hjn, by omega, ?_, ?_⟩
      · intro q hq
        have hq0 : q = 0 := by omega
        subst hq0
        rw [getD_set_self_int f 0 (-1) (-1) (by omega)]
        rw [show maxBorderAt w j (0 + 1) = 0 from rfl]
        norm_num
      · exact booth_dl_reset w j k hkj hDL hc1
    · have hstep : boothStep w w.length (f, k) j
          = (f.set (j - k_f) 0, k_f) := by
        unfold boothStep
        dsimp only
        rw [hi0, hchain]
        dsimp only
        rw [show w.getD (j % w.length) 0 = sAt w j from rfl,
          show w.getD (k_f % w.length) 0 = sAt w k_f from rfl]
        rw [if_neg (show ¬((((0 : Nat) : Int) - 1) = -1 ∧
            sAt w j ≠ sAt w k_f) from
          fun hcond => hcond.2 (by rw [hkfc]; exact hc2))]
        rw [show (((0 : Nat) : Int) - 1) + 1 = (0 : Int) by norm_num]
      rw [hstep]
      unfold BoothInv
      dsimp only
      have hmax : maxBorderAt w k_f ((j - k_f) + 1) = 0 + 1 :=
        booth_new_border_max w j k k_f 0 hkfj hsh hbr (by omega) (Or.inl rfl)
          (by rw [Nat.add_zero]; exact hc2.symm) hBfmis
      refine ⟨by simp [hflen], hkfn, by omega, ?_, ?_⟩
      · intro q hq
        by_cases hqe : q = j - k_f
        · rw [hqe, getD_set_self_int f (j - k_f) 0 (-1) hsetlen, hmax]
          norm_num
        · rw [getD_set_ne_int f (j - k_f) q 0 (-1) (fun he => hqe he.symm),
            Hf q (by omega),
            maxBorder_congr w k_f k (q + 1) (by omega)
              (fun t ht => hsh t (by omega))]
      · exact booth_dl_preserve w j k k_f 0 hkj hDL (Or.inl rfl)
          (fun _ => le_of_eq hc2.symm) hBfmis hKf
    · have hstep : boothStep w w.length (f, k) j
          = (f.set (j - k_f) (-1), k_f) := by
        unfold boothStep
        dsimp only
        rw [hi0, hchain]
        dsimp only
        rw [show w.getD (j % w.length) 0 = sAt w j from rfl,
          show w.getD (k_f % w.length) 0 = sAt w k_f from rfl]
        rw [if_pos ⟨hi_neg1,
          show sAt w j ≠ sAt w k_f by rw [hkfc]; exact ne_of_gt hc3⟩]
        rw [if_neg (show ¬(sAt w j < sAt w k_f) by rw [hkfc]; omega)]
      rw [hstep]
      unfold BoothInv
      dsimp only
      have hmax : maxBorderAt w k_f ((j - k_f) + 1) = 0 :=
        booth_new_border_none w j k k_f hkfj hsh hbr (ne_of_lt hc3) hBfmis
      refine ⟨by simp [hflen], hkfn, by omega, ?_, ?_⟩
      · intro q hq
        by_cases hqe : q = j - k_f
        · rw [hqe, getD_set_self_int f (j - k_f) (-1) (-1) hsetlen, hmax]
          norm_num
        · rw [getD_set_ne_int f (j - k_f) q (-1) (-1) (fun he => hqe he.symm),
            Hf q (by omega),
            maxBorder_congr w k_f k (q + 1) (by omega)
              (fun t ht => hsh t (by omega))]
      · exact booth_dl_preserve w j k k_f 0 hkj hDL (Or.inl rfl)
          (fun _ => le_of_lt hc3) hBfmis hKf
  · obtain ⟨hBf1, hBfborder, hBfchar⟩ := hBfmatch.resolve_left hBf0
    have hBfltL' : B_f < j - k_f := by
      rcases hKf with ⟨hk, _⟩ | ⟨bu, hbu, hgt, _, hkeq, _⟩
      · rw [hk]; exact hBfborder.1
      · rw [hkeq]
        have := hbu.1
        omega
    have hstep : boothStep w w.length (f, k) j
        = (f.set (j - k_f) (B_f : Int), k_f) := by
      unfold boothStep
      dsimp only
      rw [hi0, hchain]
      dsimp only
      rw [show w.getD (j % w.length) 0 = sAt w j from rfl,
        show w.getD (k_f % w.length) 0 = sAt w k_f from rfl]
      rw [if_neg (show ¬((((B_f : Nat) : Int) - 1) = -1 ∧
          sAt w j ≠ sAt w k_f) from
        fun hcond => by have := hcond.1; omega)]
      rw [show ((B_f : Int) - 1) + 1 = (B_f : Int) by ring]
    rw [hstep]
    unfold BoothInv
    dsimp only
    have hmax : maxBorderAt w k_f ((j - k_f) + 1) = B_f + 1 :=
      booth_new_border_max w j k k_f B_f hkfj hsh hbr hBfltL'
        (Or.inr hBfborder) hBfchar hBfmis
    refine ⟨by simp [hflen], hkfn, by omega, ?_, ?_⟩
    · intro q hq
      by_cases hqe : q = j - k_f
      · rw [hqe, getD_set_self_int f (j - k_f) (B_f : Int) (-1) hsetlen, hmax]
        push_cast
        ring
      · rw [getD_set_ne_int f (j - k_f) q (B_f : Int) (-1)
            (fun he => hqe he.symm),
          Hf q (by omega),
          maxBorder_congr w k_f k (q + 1) (by omega)
            (fun t ht => hsh t (by omega))]
    · exact booth_dl_preserve w j k k_f B_f hkj hDL
        (Or.inr ⟨hBf1, hBfborder, hBfchar⟩)
        (fun h0 => absurd h0 (by omega)) hBfmis hKf

theorem booth_inv_final (w : List Nat) (hn : 0 < w.length) :
    BoothInv w (2 * w.length)
      ((List.range' 1 (2 * w.length - 1)).foldl (boothStep w w.length)
        (List.replicate (2 * w.length) (-1), 0)) := by
  have key : ∀ m, m ≤ 2 * w.length - 1 →
      BoothInv w (m + 1) ((List.range' 1 m).foldl (boothStep w w.length)
        (List.replicate (2 * w.length) (-1), 0)) := by
    intro m
    induction m with
    | zero =>
      intro hm0
      show BoothInv w 1 (List.replicate (2 * w.length) (-1), 0)
      have hgoal : (List.replicate (2 * w.length) (-1 : Int)).length
            = 2 * w.length ∧ (0 : Nat) < w.length ∧ (0 : Nat) < 1 ∧
          (∀ q, q < 1 - 0 → (List.replicate (2 * w.length) (-1 : Int)).getD
            q (-1) = (maxBorderAt w 0 (q + 1) : Int) - 1) ∧
          (∀ p, p < 1 → boothDead w 0 p 1 ∨ boothLive w 0 p 1) := by
        refine ⟨by simp, hn, by omega, ?_, ?_⟩
        · intro q hq
          have hq0 : q = 0 := by omega
          subst hq0
          rw [List.getD_eq_getElem _ _ (by simp; omega)]
          simp only [List.getElem_replicate]
          rw [show maxBorderAt w 0 (0 + 1) = 0 from rfl]
          norm_num
        · intro p hp
          have hp0 : p = 0 := by omega
          subst hp0
          exact Or.inr ⟨le_refl 0, fun t ht => rfl⟩
      exact hgoal
    | succ m ih =>
      intro hm
      have hsplit := range'_split 1 (m + 1) m (by omega)
      rw [show m + 1 - m = 1 by omega] at hsplit
      rw [hsplit, List.foldl_append]
      rw [show List.range' (1 + m) 1 = [1 + m] from rfl]
      simp only [List.foldl_cons, List.foldl_nil]
      have hih := ih (by omega)
      have hstep := boothStep_inv w (m + 1)
        ((List.range' 1 m).foldl (boothStep w w.length)
          (List.replicate (2 * w.length) (-1), 0)).1
        ((List.range' 1 m).foldl (boothStep w w.length)
          (List.replicate (2 * w.length) (-1), 0)).2
        hn (by omega) hih
      rw [show 1 + m = m + 1 by omega]
      exact hstep
  have hfin := key (2 * w.length - 1) (le_refl _)
  rw [show 2 * w.length - 1 + 1 = 2 * w.length by omega] at hfin
  exact hfin

theorem booth_le_all (w : List Nat) (hn : 0 < w.length) :
    booth w < w.length ∧ ∀ p, p < w.length →
      compareArrays (rotate w ((booth w : Nat) : Int))
        (rotate w ((p : Nat) : Int)) ≤ 0 := by
  have hfin := booth_inv_final w hn
  have hfin2 : ((List.range' 1 (2 * w.length - 1)).foldl
        (boothStep w w.length)
        (List.replicate (2 * w.length) (-1), 0)).1.length = 2 * w.length ∧
      booth w < w.length ∧ booth w < 2 * w.length ∧
      (∀ q, q < 2 * w.length - booth w →
        ((List.range' 1 (2 * w.length - 1)).foldl (boothStep w w.length)
          (List.replicate (2 * w.length) (-1), 0)).1.getD q (-1)
          = (maxBorderAt w (booth w) (q + 1) : Int) - 1) ∧
      (∀ p, p < 2 * w.length → boothDead w (booth w) p (2 * w.length) ∨
        boothLive w (booth w) p (2 * w.length)) := hfin
  obtain ⟨_, hbn, _, _, hDL⟩ := hfin2
  refine ⟨hbn, fun p hp => ?_⟩
  rw [rotate_nat_eq_map w hn (booth w), rotate_nat_eq_map w hn p]
  apply compareArrays_le_zero_of
  · simp
  · rcases hDL p (by omega) with ⟨d, hd, hm, hs⟩ | ⟨_, hl⟩
    · by_cases hdn : d < w.length
      · right
        refine ⟨d, by simpa using hdn, fun t ht => ?_, ?_⟩
        · have htn : t < w.length := by
            simp only [List.length_map, List.length_range] at ht ⊢
            omega
          rw [getD_range_map _ _ _ (by omega), getD_range_map _ _ _ (by omega)]
          exact hm t (by simpa using ht)
        · rw [getD_range_map _ _ _ hdn, getD_range_map _ _ _ hdn]
          exact hs
      · left
        intro i hi
        have hin : i < w.length := by simpa using hi
        rw [getD_range_map _ _ _ hin, getD_range_map _ _ _ hin]
        exact hm i (by omega)
    · left
      intro i hi
      have hin : i < w.length := by simpa using hi
      rw [getD_range_map _ _ _ hin, getD_range_map _ _ _ hin]
      exact (hl i (by omega)).symm

theorem rotate_rotate_nat (w : List Nat) (hn : 0 < w.length) (p q : Nat) :
    rotate (rotate w (p : Int)) (q : Int) = rotate w (((p + q : Nat)) : Int) := by
  rw [rotate_nat_eq_map (rotate w (p : Int)) (by rw [rotate_len]; exact hn) q,
    rotate_nat_eq_map w hn (p + q), rotate_len]
  apply List.map_congr_left
  intro t ht
  rw [sAt_rotate w hn p (q + t)]
  congr 1
  omega

theorem rotate_nat_mod (w : List Nat) (hn : 0 < w.length) (p : Nat) :
    rotate w (p : Int) = rotate w ((p % w.length : Nat) : Int) := by
  rw [rotate_nat_eq_map w hn p, rotate_nat_eq_map w hn (p % w.length)]
  apply List.map_congr_left
  intro t ht
  unfold sAt
  congr 1
  conv_lhs => rw [Nat.add_mod]
  conv_rhs => rw [Nat.add_mod]
  rw [Nat.mod_mod_of_dvd p dvd_rfl]

/-- C5: for every non-empty word, `leastMode` (via Booth's algorithm) is
lexicographically ≤ every rotation of the word (`compareArrays ≤ 0`), it is
invariant under rotating the input by any amount, and it is idempotent. -/
theorem leastMode_spec (w : List Nat) (hw : w ≠ []) :
    (∀ r : Int, compareArrays (leastMode w) (rotate w r) ≤ 0) ∧
    (∀ r : Int, leastMode (rotate w r) = leastMode w) ∧
    leastMode (leastMode w) = leastMode w := by
  have hn : 0 < w.length := List.length_pos.mpr hw
  have hni : (0 : Int) < ↑w.length := by exact_mod_cast hn
  have hmin := booth_le_all w hn
  have hpart1 : ∀ r : Int, compareArrays (leastMode w) (rotate w r) ≤ 0 := by
    intro r
    rw [rotate_int_reduce w hn r]
    have hp : (jsMod r ↑w.length).toNat < w.length := by
      obtain ⟨h1, h2⟩ := jsMod_nonneg_lt r ↑w.length hni
      omega
    exact hmin.2 _ hp
  have hpart2 : ∀ r : Int, leastMode (rotate w r) = leastMode w := by
    intro r
    have hp : (jsMod r ↑w.length).toNat < w.length := by
      obtain ⟨h1, h2⟩ := jsMod_nonneg_lt r ↑w.length hni
      omega
    rw [rotate_int_reduce w hn r]
    generalize hpg : (jsMod r ↑w.length).toNat = p at hp ⊢
    have hul : (rotate w (p : Int)).length = w.length := rotate_len w _
    have hun : 0 < (rotate w (p : Int)).length := by omega
    have hminu := booth_le_all (rotate w (p : Int)) hun
    apply compareArrays_antisymm
    · rw [show (leastMode (rotate w (p : Int))).length
          = (rotate w (p : Int)).length from rotate_len _ _, rotate_len,
        show (leastMode w).length = w.length from rotate_len _ _]
    · have hrot : rotate (rotate w (p : Int))
          ((((booth w + w.length - p) % w.length : Nat)) : Int)
          = leastMode w := by
        rw [rotate_rotate_nat w hn p _,
          rotate_nat_mod w hn (p + (booth w + w.length - p) % w.length)]
        have hidx : (p + (booth w + w.length - p) % w.length) % w.length
            = booth w := by
          conv_lhs => rw [Nat.add_mod, Nat.mod_mod_of_dvd _ dvd_rfl,
            ← Nat.add_mod]
          rw [show p + (booth w + w.length - p) = booth w + w.length by omega]
          rw [Nat.add_mod_right, Nat.mod_eq_of_lt hmin.1]
        rw [hidx]
        rfl
      have hcall := hminu.2 ((booth w + w.length - p) % w.length)
        (by rw [rotate_len]; exact Nat.mod_lt _ hn)
      rw [hrot] at hcall
      exact hcall
    · have hLM : leastMode (rotate w (p : Int)) = rotate w
          ((((p + booth (rotate w (p : Int))) % w.length : Nat)) : Int) := by
        show rotate (rotate w (p : Int))
            ((booth (rotate w (p : Int)) : Nat) : Int) = _
        rw [rotate_rotate_nat w hn p _, rotate_nat_mod w hn _]
      rw [hLM]
      exact hmin.2 _ (Nat.mod_lt _ hn)
  exact ⟨hpart1, hpart2, hpart2 ((booth w : Nat) : Int)⟩

/-- Witness for `leastMode_spec` at the concrete word `[2, 0, 1]`. -/
theorem leastMode_spec_witness :
    (([2, 0, 1] : List Nat) ≠ []) ∧
    ((∀ r : Int, compareArrays (leastMode [2, 0, 1])
        (rotate [2, 0, 1] r) ≤ 0) ∧
      (∀ r : Int, leastMode (rotate [2, 0, 1] r) = leastMode [2, 0, 1]) ∧
      leastMode (leastMode [2, 0, 1]) = leastMode [2, 0, 1]) :=
  ⟨by decide, leastMode_spec [2, 0, 1] (by decide)⟩

/-! ### Necklace combinatorics for the Sawada enumerator -/

/-- The suffix of `α` starting at `i` is `≥` the prefix of `α` on their
overlap: either they agree everywhere, or the first difference favours the
suffix. -/
def sufGe (α : List Nat) (i : Nat) : Prop :=
  (∀ x, x < α.length - i → α.getD (i + x) 0 = α.getD x 0) ∨
  (∃ d, d < α.length - i ∧ (∀ x, x < d → α.getD (i + x) 0 = α.getD x 0) ∧
    α.getD d 0 < α.getD (i + d) 0)

instance (α : List Nat) (i : Nat) : Decidable (sufGe α i) :=
  inferInstanceAs (Decidable ((∀ x, x < α.length - i →
      α.getD (i + x) 0 = α.getD x 0) ∨
    (∃ d, d < α.length - i ∧ (∀ x, x < d →
      α.getD (i + x) 0 = α.getD x 0) ∧ α.getD d 0 < α.getD (i + d) 0)))

/-- `α` is a prenecklace: every proper suffix is `≥` the prefix. -/
def isPre (α : List Nat) : Prop :=
  ∀ i, i < α.length → 1 ≤ i → sufGe α i

instance (α : List Nat) : Decidable (isPre α) :=
  inferInstanceAs (Decidable (∀ i, i < α.length → 1 ≤ i → sufGe α i))

/-- `p` is a weak period of `α`. -/
def weakPeriodW (α : List Nat) (p : Nat) : Prop :=
  ∀ i, i < α.length → p ≤ i → α.getD i 0 = α.getD (i - p) 0

instance (α : List Nat) (p : Nat) : Decidable (weakPeriodW α p) :=
  inferInstanceAs (Decidable (∀ i, i < α.length → p ≤ i →
    α.getD i 0 = α.getD (i - p) 0))

/-- Linear search for the least weak period starting at `p`. -/
def perWGo (α : List Nat) : Nat → Nat → Nat
  | p, 0 => p
  | p, fuel + 1 => if weakPeriodW α p then p else perWGo α (p + 1) fuel

/-- The least weak period of `α`. -/
def perW (α : List Nat) : Nat :=
  perWGo α 1 α.length

/-- Length of the run of the letter `M` in `α` starting at `x`. -/
def runlenWGo (α : List Nat) (M : Nat) : Nat → Nat → Nat
  | _, 0 => 0
  | x, fuel + 1 =>
    if x < α.length ∧ α.getD x 0 = M then runlenWGo α M (x + 1) fuel + 1
    else 0

/-- Run length of letter `M` at position `x` of `α`. -/
def runlenW (α : List Nat) (M x : Nat) : Nat :=
  runlenWGo α M x α.length

/-- A word is a necklace when it is `≤` (by `compareArrays`) each of its
rotations. -/
def IsNeck (w : List Nat) : Prop :=
  ∀ i, i < w.length → compareArrays w (rotate w (i : Int)) ≤ 0

theorem perWGo_ge (α : List Nat) :
    ∀ fuel p, p ≤ perWGo α p fuel := by
  intro fuel
  induction fuel with
  | zero => intro p; exact le_refl p
  | succ fl ih =>
    intro p
    unfold perWGo
    by_cases h : weakPeriodW α p
    · rw [if_pos h]
    · rw [if_neg h]
      exact le_trans (by omega) (ih (p + 1))

theorem perWGo_holds (α : List Nat) :
    ∀ fuel p, weakPeriodW α (p + fuel) →
      weakPeriodW α (perWGo α p fuel) := by
  intro fuel
  induction fuel with
  | zero => intro p h; exact h
  | succ fl ih =>
    intro p h
    unfold perWGo
    by_cases hp : weakPeriodW α p
    · rw [if_pos hp]; exact hp
    · rw [if_neg hp]
      exact ih (p + 1) (by rw [show p + 1 + fl = p + (fl + 1) by omega]; exact h)

theorem perWGo_min (α : List Nat) :
    ∀ fuel p q, p ≤ q → q < perWGo α p fuel → ¬ weakPeriodW α q := by
  intro fuel
  induction fuel with
  | zero =>
    intro p q h1 h2
    unfold perWGo at h2
    omega
  | succ fl ih =>
    intro p q h1 h2
    unfold perWGo at h2
    by_cases hp : weakPeriodW α p
    · rw [if_pos hp] at h2; omega
    · rw [if_neg hp] at h2
      by_cases hq : q = p
      · rw [hq]; exact hp
      · exact ih (p + 1) q (by omega) h2

theorem weakPeriodW_len (α : List Nat) : weakPeriodW α α.length :=
  fun i hi hle => by omega

theorem perW_le (α : List Nat) (h : 1 ≤ α.length) : perW α ≤ α.length := by
  by_contra hc
  push_neg at hc
  exact (perWGo_min α α.length 1 α.length h hc) (weakPeriodW_len α)

theorem perW_ge_one (α : List Nat) : 1 ≤ perW α := perWGo_ge α α.length 1

theorem perW_holds (α : List Nat) (h : 1 ≤ α.length) :
    weakPeriodW α (perW α) := by
  apply perWGo_holds
  intro i hi hle
  omega

theorem perW_min (α : List Nat) (q : Nat) (h1 : 1 ≤ q)
    (h2 : weakPeriodW α q) : perW α ≤ q := by
  by_contra hc
  push_neg at hc
  exact (perWGo_min α α.length 1 q h1 hc) h2

theorem runlenWGo_spec (α : List Nat) (M : Nat) :
    ∀ fuel x, α.length ≤ x + fuel →
      ((∀ y, x ≤ y → y < x + runlenWGo α M x fuel →
          y < α.length ∧ α.getD y 0 = M) ∧
        (x + runlenWGo α M x fuel = α.length ∨
          ¬ (x + runlenWGo α M x fuel < α.length ∧
            α.getD (x + runlenWGo α M x fuel) 0 = M))) := by
  intro fuel
  induction fuel with
  | zero =>
    intro x hx
    unfold runlenWGo
    constructor
    · intro y h1 h2; omega
    · right
      intro hcon
      exact absurd hcon.1 (by omega)
  | succ fl ih =>
    intro x hx
    unfold runlenWGo
    by_cases h : x < α.length ∧ α.getD x 0 = M
    · rw [if_pos h]
      obtain ⟨ih1, ih2⟩ := ih (x + 1) (by omega)
      constructor
      · intro y h1 h2
        by_cases hy : y = x
        · rw [hy]; exact h
        · exact ih1 y (by omega) (by omega)
      · rcases ih2 with h2 | h2
        · left; omega
        · right
          rw [show x + (runlenWGo α M (x + 1) fl + 1)
            = x + 1 + runlenWGo α M (x + 1) fl by omega]
          exact h2
    · rw [if_neg h]
      constructor
      · intro y h1 h2; omega
      · right
        rw [Nat.add_zero]
        exact h

theorem getD_append_lt (α : List Nat) (c : Nat) (i : Nat) (h : i < α.length) :
    (α ++ [c]).getD i 0 = α.getD i 0 := by
  rw [List.getD_eq_getElem _ _ (by simp; omega), List.getD_eq_getElem _ _ h]
  exact List.getElem_append_left h

theorem getD_append_last (α : List Nat) (c : Nat) :
    (α ++ [c]).getD α.length 0 = c := by
  rw [List.getD_eq_getElem _ _ (by simp)]
  rw [List.getElem_append_right (by omega)]
  simp

theorem sufGe_first_char (α : List Nat) (i : Nat) (h : sufGe α i)
    (hi : i < α.length) : α.getD 0 0 ≤ α.getD i 0 := by
  rcases h with hl | ⟨d, hd, hm, hs⟩
  · have := hl 0 (by omega)
    rw [Nat.add_zero] at this
    omega
  · rcases Nat.eq_zero_or_pos d with h0 | hpos
    · rw [h0] at hs
      rw [Nat.add_zero] at hs
      omega
    · have := hm 0 hpos
      rw [Nat.add_zero] at this
      omega

theorem weakPeriod_mod (α : List Nat) (p : Nat) (hp : 1 ≤ p)
    (h : weakPeriodW α p) :
    ∀ i, i < α.length → α.getD i 0 = α.getD (i % p) 0 := by
  intro i
  induction i using Nat.strong_induction_on with
  | _ i ih =>
    intro hi
    by_cases hip : i < p
    · rw [Nat.mod_eq_of_lt hip]
    · rw [h i hi (by omega)]
      rw [ih (i - p) (by omega) (by omega)]
      conv_rhs => rw [Nat.mod_eq_sub_mod (by omega)]

theorem live_iff_weakPeriod (α : List Nat) (i : Nat) :
    (∀ x, x < α.length - i → α.getD (i + x) 0 = α.getD x 0) ↔
      weakPeriodW α i := by
  constructor
  · intro h y hy hle
    have := h (y - i) (by omega)
    rw [show i + (y - i) = y by omega] at this
    exact this
  · intro h x hx
    have := h (i + x) (by omega) (by omega)
    rw [show i + x - i = x by omega] at this
    exact this

theorem perW_live (α : List Nat) (h : 1 ≤ α.length) :
    ∀ x, x < α.length - perW α →
      α.getD (perW α + x) 0 = α.getD x 0 :=
  (live_iff_weakPeriod α (perW α)).mpr (perW_holds α h)

theorem fkm_border (α : List Nat) (hpre : isPre α) (hlen : 1 ≤ α.length)
    (i : Nat) (hi1 : 1 ≤ i) (hi2 : i < α.length)
    (hlive : ∀ x, x < α.length - i → α.getD (i + x) 0 = α.getD x 0) :
    α.getD (α.length - i) 0 ≤ α.getD (α.length - perW α) 0 := by
  have hp1 : 1 ≤ perW α := perW_ge_one α
  have hpi : perW α ≤ i :=
    perW_min α i hi1 ((live_iff_weakPeriod α i).mp hlive)
  rcases Nat.eq_or_lt_of_le hpi with heq | hlt
  · rw [heq]
  · have hwp := perW_holds α hlen
    have hsub : ∀ x, x < α.length - i →
        α.getD ((i - perW α) + x) 0 = α.getD x 0 := by
      intro x hx
      have h1 := hwp (i + x) (by omega) (by omega)
      rw [show i + x - perW α = (i - perW α) + x by omega] at h1
      rw [← h1]
      exact hlive x hx
    rcases hpre (i - perW α) (by omega) (by omega) with hl | ⟨d, hd, hm, hs⟩
    · have := hl (α.length - i) (by omega)
      rw [show (i - perW α) + (α.length - i) = α.length - perW α by omega]
        at this
      omega
    · by_cases hdlt : d < α.length - i
      · exfalso
        have := hsub d hdlt
        omega
      · by_cases hdeq : d = α.length - i
        · rw [hdeq] at hs
          rw [show (i - perW α) + (α.length - i) = α.length - perW α by omega]
            at hs
          omega
        · have := hm (α.length - i) (by omega)
          rw [show (i - perW α) + (α.length - i) = α.length - perW α by omega]
            at this
          omega

theorem fkm_ext_necessary (α : List Nat) (c : Nat) (hlen : 1 ≤ α.length)
    (hpre2 : isPre (α ++ [c])) :
    α.getD (α.length - perW α) 0 ≤ c := by
  have hp1 : 1 ≤ perW α := perW_ge_one α
  have hple : perW α ≤ α.length := perW_le α hlen
  have hlive := perW_live α hlen
  have hβ : (α ++ [c]).length = α.length + 1 := by simp
  rcases hpre2 (perW α) (by rw [hβ]; omega) hp1 with hl | ⟨d, hd, hm, hs⟩
  · have := hl (α.length - perW α) (by rw [hβ]; omega)
    rw [show perW α + (α.length - perW α) = α.length by omega,
      getD_append_last,
      getD_append_lt α c (α.length - perW α) (by omega)] at this
    omega
  · rw [hβ] at hd
    by_cases hdlt : d < α.length - perW α
    · exfalso
      rw [getD_append_lt α c (perW α + d) (by omega),
        getD_append_lt α c d (by omega)] at hs
      have := hlive d hdlt
      omega
    · have hdeq : d = α.length - perW α := by omega
      rw [hdeq] at hs
      rw [show perW α + (α.length - perW α) = α.length by omega,
        getD_append_last,
        getD_append_lt α c (α.length - perW α) (by omega)] at hs
      omega

theorem fkm_ext_pre (α : List Nat) (c : Nat) (hlen : 1 ≤ α.length)
    (hpre : isPre α) (hc : α.getD (α.length - perW α) 0 ≤ c) :
    isPre (α ++ [c]) := by
  have hp1 : 1 ≤ perW α := perW_ge_one α
  have hple : perW α ≤ α.length := perW_le α hlen
  have hfirst : α.getD 0 0 ≤ α.getD (α.length - perW α) 0 := by
    by_cases hp : perW α = α.length
    · rw [hp, Nat.sub_self]
    · exact sufGe_first_char α (α.length - perW α)
        (hpre (α.length - perW α) (by omega) (by omega)) (by omega)
  intro i hi hi1
  rw [show (α ++ [c]).length = α.length + 1 by simp] at hi
  by_cases hit : i = α.length
  · rcases Nat.eq_or_lt_of_le (le_trans hfirst hc) with heq | hlt
    · left
      intro x hx
      rw [show (α ++ [c]).length = α.length + 1 by simp] at hx
      have hx0 : x = 0 := by omega
      rw [hx0, Nat.add_zero, hit, getD_append_last,
        getD_append_lt α c 0 (by omega)]
      omega
    · right
      refine ⟨0, ?_, fun x hx => absurd hx (by omega), ?_⟩
      · rw [show (α ++ [c]).length = α.length + 1 by simp]
        omega
      · rw [Nat.add_zero, hit, getD_append_last,
          getD_append_lt α c 0 (by omega)]
        omega
  · have hit' : i < α.length := by omega
    rcases hpre i hit' hi1 with hl | ⟨d, hd, hm, hs⟩
    · have hnext : α.getD (α.length - i) 0 ≤ c :=
        le_trans (fkm_border α hpre hlen i hi1 hit' hl) hc
      rcases Nat.eq_or_lt_of_le hnext with heq | hlt
      · left
        intro x hx
        rw [show (α ++ [c]).length = α.length + 1 by simp] at hx
        by_cases hxe : x = α.length - i
        · rw [hxe, show i + (α.length - i) = α.length by omega,
            getD_append_last, getD_append_lt α c (α.length - i) (by omega)]
          omega
        · rw [getD_append_lt α c (i + x) (by omega),
            getD_append_lt α c x (by omega)]
          exact hl x (by omega)
      · right
        refine ⟨α.length - i, ?_, ?_, ?_⟩
        · rw [show (α ++ [c]).length = α.length + 1 by simp]
          omega
        · intro x hx
          rw [getD_append_lt α c (i + x) (by omega),
            getD_append_lt α c x (by omega)]
          exact hl x (by omega)
        · rw [show i + (α.length - i) = α.length by omega,
            getD_append_last, getD_append_lt α c (α.length - i) (by omega)]
          omega
    · right
      refine ⟨d, ?_, ?_, ?_⟩
      · rw [show (α ++ [c]).length = α.length + 1 by simp]
        omega
      · intro x hx
        rw [getD_append_lt α c (i + x) (by omega),
          getD_append_lt α c x (by omega)]
        exact hm x hx
      · rw [getD_append_lt α c (i + d) (by omega),
          getD_append_lt α c d (by omega)]
        exact hs

theorem fkm_ext_per_eq (α : List Nat) (c : Nat) (hlen : 1 ≤ α.length)
    (hc : c = α.getD (α.length - perW α) 0) :
    perW (α ++ [c]) = perW α := by
  have hp1 : 1 ≤ perW α := perW_ge_one α
  have hple : perW α ≤ α.length := perW_le α hlen
  have hwp : weakPeriodW (α ++ [c]) (perW α) := by
    intro i hi hile
    rw [show (α ++ [c]).length = α.length + 1 by simp] at hi
    by_cases hit : i = α.length
    · rw [hit, getD_append_last,
        getD_append_lt α c (α.length - perW α) (by omega)]
      exact hc
    · rw [getD_append_lt α c i (by omega),
        getD_append_lt α c (i - perW α) (by omega)]
      exact perW_holds α hlen i (by omega) hile
  apply le_antisymm
  · exact perW_min (α ++ [c]) (perW α) hp1 hwp
  · apply perW_min α (perW (α ++ [c])) (perW_ge_one _)
    intro i hi hile
    have := perW_holds (α ++ [c]) (by simp) i
      (by rw [show (α ++ [c]).length = α.length + 1 by simp]; omega) hile
    rw [getD_append_lt α c i (by omega),
      getD_append_lt α c (i - perW (α ++ [c])) (by omega)] at this
    exact this

theorem fkm_ext_per_gt (α : List Nat) (c : Nat) (hlen : 1 ≤ α.length)
    (hpre : isPre α) (hc : α.getD (α.length - perW α) 0 < c) :
    perW (α ++ [c]) = α.length + 1 := by
  have hp1 : 1 ≤ perW α := perW_ge_one α
  have hple : perW α ≤ α.length := perW_le α hlen
  have hβlen : (α ++ [c]).length = α.length + 1 := by simp
  have hq1 := perW_ge_one (α ++ [c])
  have hqle := perW_le (α ++ [c]) (by omega)
  rw [hβlen] at hqle
  by_contra hne
  have hqt : perW (α ++ [c]) ≤ α.length := by omega
  have hwpq := perW_holds (α ++ [c]) (by omega)
  have hwpα : weakPeriodW α (perW (α ++ [c])) := by
    intro i hi hile
    have := hwpq i (by omega) hile
    rw [getD_append_lt α c i (by omega),
      getD_append_lt α c (i - perW (α ++ [c])) (by omega)] at this
    exact this
  have hplq : perW α ≤ perW (α ++ [c]) := perW_min α _ hq1 hwpα
  have hchar := hwpq α.length (by omega) hqt
  rw [getD_append_last,
    getD_append_lt α c (α.length - perW (α ++ [c])) (by omega)] at hchar
  by_cases hqt2 : perW (α ++ [c]) = α.length
  · rw [hqt2, Nat.sub_self] at hchar
    have hfirst : α.getD 0 0 ≤ α.getD (α.length - perW α) 0 := by
      by_cases hp : perW α = α.length
      · rw [hp, Nat.sub_self]
      · exact sufGe_first_char α (α.length - perW α)
          (hpre (α.length - perW α) (by omega) (by omega)) (by omega)
    omega
  · have hbord := fkm_border α hpre hlen (perW (α ++ [c])) hq1 (by omega)
      ((live_iff_weakPeriod α _).mpr hwpα)
    omega

theorem compareArrays_le_zero_elim (a b : List Nat) (hlen : a.length = b.length)
    (h : compareArrays a b ≤ 0) :
    (∀ i, i < a.length → a.getD i 0 = b.getD i 0) ∨
    ∃ d, d < a.length ∧ (∀ t, t < d → a.getD t 0 = b.getD t 0) ∧
      a.getD d 0 < b.getD d 0 := by
  induction a generalizing b with
  | nil =>
    left
    intro i hi
    simp at hi
  | cons x xs ih =>
    cases b with
    | nil => simp at hlen
    | cons y ys =>
      unfold compareArrays at h
      by_cases hxy : x < y
      · right
        exact ⟨0, by simp, fun t ht => absurd ht (by omega), by simpa using hxy⟩
      · by_cases hyx : y < x
        · rw [if_neg hxy, if_pos hyx] at h
          omega
        · rw [if_neg hxy, if_neg hyx] at h
          have hxey : x = y := by omega
          rcases ih ys (by simpa using hlen) h with hl | ⟨d, hd, hm, hs⟩
          · left
            intro i hi
            cases i with
            | zero => simpa using hxey
            | succ i' => simpa using hl i' (by simpa using hi)
          · right
            refine ⟨d + 1, by simpa using hd, fun t ht => ?_, by simpa using hs⟩
            cases t with
            | zero => simpa using hxey
            | succ t' => simpa using hm t' (by omega)

theorem compareArrays_pos_of (a b : List Nat) (hlen : a.length = b.length)
    (h : ∃ d, d < a.length ∧ (∀ t, t < d → a.getD t 0 = b.getD t 0) ∧
      b.getD d 0 < a.getD d 0) :
    0 < compareArrays a b := by
  induction a generalizing b with
  | nil =>
    obtain ⟨d, hd, _, _⟩ := h
    simp at hd
  | cons x xs ih =>
    cases b with
    | nil => simp at hlen
    | cons y ys =>
      obtain ⟨d, hd, hm, hs⟩ := h
      unfold compareArrays
      by_cases hxy : x < y
      · exfalso
        cases d with
        | zero => simp at hs; omega
        | succ d' =>
          have := hm 0 (by omega)
          simp at this
          omega
      · rw [if_neg hxy]
        by_cases hyx : y < x
        · rw [if_pos hyx]; omega
        · rw [if_neg hyx]
          apply ih ys (by simpa using hlen)
          cases d with
          | zero => simp at hs; omega
          | succ d' =>
            refine ⟨d', by simpa using hd, fun t ht => ?_, by simpa using hs⟩
            simpa using hm (t + 1) (by omega)

theorem getD_rotate (w : List Nat) (hn : 0 < w.length) (i x : Nat)
    (hx : x < w.length) :
    (rotate w (i : Int)).getD x 0 = w.getD ((i + x) % w.length) 0 := by
  rw [rotate_nat_eq_map w hn i, getD_range_map _ _ _ hx]
  rfl

theorem isNeck_isPre (w : List Nat) (hn : 0 < w.length) (h : IsNeck w) :
    isPre w := by
  intro i hi hi1
  have hcmp := h i hi
  rcases compareArrays_le_zero_elim w _ (by rw [rotate_len]) hcmp with
    hl | ⟨d, hd, hm, hs⟩
  · left
    intro x hx
    have := hl x (by omega)
    rw [getD_rotate w hn i x (by omega),
      Nat.mod_eq_of_lt (by omega : i + x < w.length)] at this
    exact this.symm
  · by_cases hdc : d < w.length - i
    · right
      refine ⟨d, hdc, fun x hx => ?_, ?_⟩
      · have := hm x (by omega)
        rw [getD_rotate w hn i x (by omega),
          Nat.mod_eq_of_lt (by omega : i + x < w.length)] at this
        exact this.symm
      · rw [getD_rotate w hn i d (by omega),
          Nat.mod_eq_of_lt (by omega : i + d < w.length)] at hs
        exact hs
    · left
      intro x hx
      have := hm x (by omega)
      rw [getD_rotate w hn i x (by omega),
        Nat.mod_eq_of_lt (by omega : i + x < w.length)] at this
      exact this.symm

theorem gcd_mod_mul (p n : Nat) (hp : 0 < p) (hn : 0 < n) :
    ∃ k, (k * p) % n = Nat.gcd p n % n := by
  have hb := Nat.gcd_eq_gcd_ab p n
  refine ⟨(Nat.gcdA p n % (n : ℤ)).toNat, ?_⟩
  have hnn : (0 : ℤ) < (n : ℤ) := by exact_mod_cast hn
  have hk : ((Nat.gcdA p n % (n : ℤ)).toNat : ℤ) = Nat.gcdA p n % (n : ℤ) :=
    Int.toNat_of_nonneg (Int.emod_nonneg _ (by omega))
  have hz : (((Nat.gcdA p n % (n : ℤ)).toNat * p : ℕ) : ℤ) % (n : ℤ)
      = ((Nat.gcd p n : ℕ) : ℤ) % (n : ℤ) := by
    push_cast
    rw [hk]
    rw [Int.mul_emod, Int.emod_emod_of_dvd _ dvd_rfl, ← Int.mul_emod]
    rw [show Nat.gcdA p n * (p : ℤ) = (p : ℤ) * Nat.gcdA p n by ring]
    rw [show ((Nat.gcd p n : ℕ) : ℤ) = (p : ℤ) * Nat.gcdA p n
        + (n : ℤ) * Nat.gcdB p n from hb]
    rw [Int.add_mul_emod_self_left]
  have := hz
  rw [Int.ofNat_mod_ofNat, Int.ofNat_mod_ofNat] at this
  exact_mod_cast this

theorem cyc_shift_orbit (w : List Nat) (hn : 0 < w.length) (p : Nat)
    (hcyc : ∀ x, x < w.length →
      w.getD x 0 = w.getD ((p + x) % w.length) 0) :
    ∀ k x, x < w.length →
      w.getD x 0 = w.getD ((x + k * p) % w.length) 0 := by
  intro k
  induction k with
  | zero =>
    intro x hx
    rw [Nat.mul_comm, Nat.mul_zero, Nat.add_zero, Nat.mod_eq_of_lt hx]
  | succ k' ih =>
    intro x hx
    rw [ih x hx, hcyc ((x + k' * p) % w.length) (Nat.mod_lt _ hn)]
    congr 1
    conv_lhs => rw [Nat.add_mod, Nat.mod_mod_of_dvd _ dvd_rfl, ← Nat.add_mod]
    congr 1
    ring

theorem isNeck_per_dvd (w : List Nat) (hn : 0 < w.length) (h : IsNeck w) :
    perW w ∣ w.length := by
  have hpre := isNeck_isPre w hn h
  have hp1 := perW_ge_one w
  have hple := perW_le w hn
  rcases Nat.eq_or_lt_of_le hple with heq | hlt
  · exact heq ▸ dvd_refl _
  · have hcmp := h (perW w) hlt
    rcases compareArrays_le_zero_elim w _ (by rw [rotate_len]) hcmp with
      hl | ⟨d, hd, hm, hs⟩
    · -- cyclic invariance under shift by perW w
      have hcyc : ∀ x, x < w.length →
          w.getD x 0 = w.getD ((perW w + x) % w.length) 0 := by
        intro x hx
        have := hl x hx
        rw [getD_rotate w hn (perW w) x hx] at this
        exact this
      obtain ⟨k, hk⟩ := gcd_mod_mul (perW w) w.length (by omega) hn
      have hg1 : 1 ≤ Nat.gcd (perW w) w.length :=
        Nat.gcd_pos_of_pos_left _ (by omega)
      have hgle : Nat.gcd (perW w) w.length ≤ perW w :=
        Nat.gcd_le_left _ (by omega)
      have hwp : weakPeriodW w (Nat.gcd (perW w) w.length) := by
        intro y hy hgy
        obtain ⟨k', hk'⟩ := gcd_mod_mul (perW w) w.length (by omega) hn
        have horb := cyc_shift_orbit w hn (perW w) hcyc k'
          (y - Nat.gcd (perW w) w.length) (by omega)
        have hgn : Nat.gcd (perW w) w.length % w.length
            = Nat.gcd (perW w) w.length := Nat.mod_eq_of_lt (by omega)
        have hidx : (y - Nat.gcd (perW w) w.length + k' * perW w) % w.length
            = y := by
          conv_lhs => rw [Nat.add_mod, hk', hgn]
          rw [show (y - Nat.gcd (perW w) w.length) % w.length
              + Nat.gcd (perW w) w.length
              = (y - Nat.gcd (perW w) w.length) % w.length
              + Nat.gcd (perW w) w.length % w.length from by rw [hgn]]
          rw [← Nat.add_mod,
            show y - Nat.gcd (perW w) w.length + Nat.gcd (perW w) w.length
              = y by omega,
            Nat.mod_eq_of_lt hy]
        rw [horb, hidx]
      have := perW_min w _ hg1 hwp
      have hgeq : Nat.gcd (perW w) w.length = perW w := by omega
      rw [← hgeq]
      exact Nat.gcd_dvd_right _ _
    · by_cases hdc : d < w.length - perW w
      · exfalso
        rw [getD_rotate w hn (perW w) d (by omega),
          Nat.mod_eq_of_lt (by omega : perW w + d < w.length)] at hs
        have := perW_live w hn d hdc
        omega
      · exfalso
        -- contradiction with isPre at suffix n - perW w
        have hi1 : 1 ≤ w.length - perW w := by omega
        rcases hpre (w.length - perW w) (by omega) hi1 with hl2 | ⟨e, he, hm2, hs2⟩
        · have := hl2 (d - (w.length - perW w)) (by omega)
          rw [show w.length - perW w + (d - (w.length - perW w)) = d by omega]
            at this
          rw [getD_rotate w hn (perW w) d (by omega)] at hs
          rw [Nat.mod_eq_sub_mod (by omega),
            show perW w + d - w.length = d - (w.length - perW w) by omega,
            Nat.mod_eq_of_lt (by omega)] at hs
          omega
        · by_cases hed : e < d - (w.length - perW w)
          · have := hm (w.length - perW w + e) (by omega)
            rw [getD_rotate w hn (perW w) (w.length - perW w + e) (by omega)]
              at this
            rw [show perW w + (w.length - perW w + e) = w.length + e by omega,
              Nat.add_mod_left, Nat.mod_eq_of_lt (by omega)] at this
            omega
          · have hstrict := hs
            rw [getD_rotate w hn (perW w) d (by omega),
              Nat.mod_eq_sub_mod (by omega),
              show perW w + d - w.length = d - (w.length - perW w) by omega,
              Nat.mod_eq_of_lt (by omega)] at hstrict
            by_cases hede : e = d - (w.length - perW w)
            · rw [hede,
                show w.length - perW w + (d - (w.length - perW w)) = d
                  by omega] at hs2
              omega
            · have := hm2 (d - (w.length - perW w)) (by omega)
              rw [show w.length - perW w + (d - (w.length - perW w)) = d
                by omega] at this
              omega

theorem isNeck_of_pre_dvd (w : List Nat) (hn : 0 < w.length)
    (h1 : isPre w) (h2 : perW w ∣ w.length) : IsNeck w := by
  have hp1 := perW_ge_one w
  have hple := perW_le w hn
  have hmodchar := weakPeriod_mod w (perW w) hp1 (perW_holds w hn)
  intro i hi
  have hrot : rotate w (i : Int) = rotate w ((i % perW w : Nat) : Int) := by
    rw [rotate_nat_eq_map w hn i, rotate_nat_eq_map w hn (i % perW w)]
    apply List.map_congr_left
    intro t ht
    unfold sAt
    rw [hmodchar ((i + t) % w.length) (Nat.mod_lt _ hn),
      hmodchar ((i % perW w + t) % w.length) (Nat.mod_lt _ hn)]
    congr 1
    rw [Nat.mod_mod_of_dvd _ h2, Nat.mod_mod_of_dvd _ h2]
    conv_lhs => rw [Nat.add_mod]
    conv_rhs => rw [Nat.add_mod, Nat.mod_mod_of_dvd _ dvd_rfl]
  rw [hrot]
  have hip : i % perW w < perW w := Nat.mod_lt _ (by omega)
  rcases Nat.eq_zero_or_pos (i % perW w) with h0 | hpos
  · rw [h0]
    apply compareArrays_le_zero_of _ _ (by rw [rotate_len])
    left
    intro x hx
    rw [getD_rotate w hn 0 x hx, Nat.zero_add, Nat.mod_eq_of_lt hx]
  · rcases h1 (i % perW w) (by omega) hpos with hl | ⟨d, hd, hm, hs⟩
    · exfalso
      have := perW_min w (i % perW w) hpos
        ((live_iff_weakPeriod w _).mp hl)
      omega
    · apply compareArrays_le_zero_of _ _ (by rw [rotate_len])
      right
      refine ⟨d, by omega, fun x hx => ?_, ?_⟩
      · rw [getD_rotate w hn _ x (by omega),
          Nat.mod_eq_of_lt (by omega : i % perW w + x < w.length)]
        exact (hm x hx).symm
      · rw [getD_rotate w hn _ d (by omega),
          Nat.mod_eq_of_lt (by omega : i % perW w + d < w.length)]
        exact hs

theorem getD_append_left' (α γ : List Nat) (i : Nat) (h : i < α.length) :
    (α ++ γ).getD i 0 = α.getD i 0 := by
  rw [List.getD_eq_getElem _ _ (by simp; omega), List.getD_eq_getElem _ _ h]
  exact List.getElem_append_left h

theorem getD_append_right' (α γ : List Nat) (i : Nat) (h : α.length ≤ i)
    (h2 : i < α.length + γ.length) :
    (α ++ γ).getD i 0 = γ.getD (i - α.length) 0 := by
  rw [List.getD_eq_getElem _ _ (by simp; omega),
    List.getD_eq_getElem _ _ (by omega)]
  rw [List.getElem_append_right (by omega)]

theorem getD_replicate' (M r x : Nat) (h : x < r) :
    (List.replicate r M).getD x 0 = M := by
  rw [List.getD_eq_getElem _ _ (by simp; omega)]
  simp

theorem runlenW_spec (α : List Nat) (M x : Nat) :
    (∀ y, x ≤ y → y < x + runlenW α M x →
      y < α.length ∧ α.getD y 0 = M) ∧
    (x + runlenW α M x = α.length ∨
      ¬ (x + runlenW α M x < α.length ∧
        α.getD (x + runlenW α M x) 0 = M)) :=
  runlenWGo_spec α M α.length x (by omega)

theorem runlen_lt_per (α : List Nat) (M : Nat) (hlen : 1 ≤ α.length)
    (hlast : α.getD (α.length - 1) 0 ≠ M) :
    runlenW α M (α.length - perW α) < perW α := by
  have hp1 := perW_ge_one α
  have hple := perW_le α hlen
  obtain ⟨hall, hstop⟩ := runlenW_spec α M (α.length - perW α)
  rcases Nat.eq_zero_or_pos (runlenW α M (α.length - perW α)) with h0 | hpos
  · omega
  · have hlast' := hall (α.length - perW α +
      runlenW α M (α.length - perW α) - 1) (by omega) (by omega)
    have hle : α.length - perW α + runlenW α M (α.length - perW α)
        ≤ α.length := by
      have := hlast'.1
      omega
    by_cases heq : α.length - perW α + runlenW α M (α.length - perW α)
        = α.length
    · exfalso
      apply hlast
      have := hall (α.length - 1) (by omega) (by omega)
      exact this.2
    · omega

theorem emit_keep (α : List Nat) (M : Nat) (hlen : 1 ≤ α.length)
    (hpre : isPre α) (hlast : α.getD (α.length - 1) 0 ≠ M) :
    ∀ r, r ≤ runlenW α M (α.length - perW α) →
      isPre (α ++ List.replicate r M) ∧
      perW (α ++ List.replicate r M) = perW α := by
  have hp1 := perW_ge_one α
  have hple := perW_le α hlen
  have hRL := runlen_lt_per α M hlen hlast
  obtain ⟨hall, _⟩ := runlenW_spec α M (α.length - perW α)
  intro r
  induction r with
  | zero =>
    intro _
    rw [show α ++ List.replicate 0 M = α by simp]
    exact ⟨hpre, rfl⟩
  | succ r' ih =>
    intro hr
    obtain ⟨ihp, ihper⟩ := ih (by omega)
    have hβlen : (α ++ List.replicate r' M).length = α.length + r' := by simp
    have hchar : (α ++ List.replicate r' M).getD
        ((α ++ List.replicate r' M).length - perW (α ++ List.replicate r' M))
        0 = M := by
      rw [ihper, hβlen]
      rw [show α.length + r' - perW α = α.length - perW α + r' by omega]
      rw [getD_append_left' α _ _ (by omega)]
      exact (hall (α.length - perW α + r') (by omega) (by omega)).2
    have hstep : α ++ List.replicate (r' + 1) M
        = (α ++ List.replicate r' M) ++ [M] := by
      rw [List.replicate_succ', ← List.append_assoc]
    rw [hstep]
    constructor
    · exact fkm_ext_pre _ M (by rw [hβlen]; omega) ihp (le_of_eq hchar)
    · rw [fkm_ext_per_eq _ M (by rw [hβlen]; omega) hchar.symm, ihper]

theorem emit_grow (α : List Nat) (M : Nat) (hlen : 1 ≤ α.length)
    (hpre : isPre α) (hlast : α.getD (α.length - 1) 0 ≠ M)
    (h0 : α.getD 0 0 = 0) (hM1 : 1 ≤ M)
    (hM : ∀ i, i < α.length → α.getD i 0 ≤ M) :
    ∀ r, runlenW α M (α.length - perW α) < r →
      isPre (α ++ List.replicate r M) ∧
      perW (α ++ List.replicate r M) = α.length + r := by
  have hp1 := perW_ge_one α
  have hple := perW_le α hlen
  have hRL := runlen_lt_per α M hlen hlast
  obtain ⟨hall, hstop⟩ := runlenW_spec α M (α.length - perW α)
  intro r
  induction r with
  | zero => intro h; omega
  | succ r' ih =>
    intro hr
    have hstep : α ++ List.replicate (r' + 1) M
        = (α ++ List.replicate r' M) ++ [M] := by
      rw [List.replicate_succ', ← List.append_assoc]
    have hβlen : (α ++ List.replicate r' M).length = α.length + r' := by simp
    by_cases hbase : r' = runlenW α M (α.length - perW α)
    · obtain ⟨ihp, ihper⟩ := emit_keep α M hlen hpre hlast r' (by omega)
      have hchar : (α ++ List.replicate r' M).getD
          ((α ++ List.replicate r' M).length
            - perW (α ++ List.replicate r' M)) 0 < M := by
        rw [ihper, hβlen]
        rw [show α.length + r' - perW α = α.length - perW α + r' by omega]
        rw [getD_append_left' α _ _ (by omega)]
        have hne : α.getD (α.length - perW α + r') 0 ≠ M := by
          rcases hstop with hs1 | hs2
          · intro _
            omega
          · intro hcon
            rw [hbase] at hcon
            exact hs2 ⟨by omega, hcon⟩
        have := hM (α.length - perW α + r') (by omega)
        omega
      rw [hstep]
      constructor
      · exact fkm_ext_pre _ M (by rw [hβlen]; omega) ihp (le_of_lt hchar)
      · rw [fkm_ext_per_gt _ M (by rw [hβlen]; omega) ihp hchar, hβlen]
        omega
    · obtain ⟨ihp, ihper⟩ := ih (by omega)
      have hchar : (α ++ List.replicate r' M).getD
          ((α ++ List.replicate r' M).length
            - perW (α ++ List.replicate r' M)) 0 < M := by
        rw [ihper, hβlen, Nat.sub_self]
        rw [getD_append_left' α _ _ (by omega), h0]
        omega
      rw [hstep]
      constructor
      · exact fkm_ext_pre _ M (by rw [hβlen]; omega) ihp (le_of_lt hchar)
      · rw [fkm_ext_per_gt _ M (by rw [hβlen]; omega) ihp hchar, hβlen]
        omega

theorem sawada_emit_char (α : List Nat) (M r : Nat) (hlen : 1 ≤ α.length)
    (hpre : isPre α) (h0 : α.getD 0 0 = 0) (hM1 : 1 ≤ M)
    (hM : ∀ i, i < α.length → α.getD i 0 ≤ M)
    (hlast : α.getD (α.length - 1) 0 ≠ M) :
    IsNeck (α ++ List.replicate r M) ↔
      ((r = runlenW α M (α.length - perW α) ∧
          (α.length + r) % perW α = 0) ∨
        runlenW α M (α.length - perW α) < r) := by
  have hp1 := perW_ge_one α
  have hple := perW_le α hlen
  have hRL := runlen_lt_per α M hlen hlast
  obtain ⟨hall, hstop⟩ := runlenW_spec α M (α.length - perW α)
  have hwlen : (α ++ List.replicate r M).length = α.length + r := by simp
  constructor
  · intro hneck
    have hdvd := isNeck_per_dvd _ (by rw [hwlen]; omega) hneck
    rw [hwlen] at hdvd
    by_cases hrc : runlenW α M (α.length - perW α) < r
    · exact Or.inr hrc
    · left
      obtain ⟨_, ihper⟩ := emit_keep α M hlen hpre hlast r (by omega)
      rw [ihper] at hdvd
      constructor
      · by_contra hne
        have hrlt : r < runlenW α M (α.length - perW α) := by omega
        have hMpos : (α ++ List.replicate r M).getD
            (α.length + r - perW α) 0 = M := by
          by_cases hin : α.length + r - perW α < α.length
          · rw [getD_append_left' α _ _ hin]
            rw [show α.length + r - perW α = α.length - perW α + r by omega]
            exact (hall (α.length - perW α + r) (by omega) (by omega)).2
          · rw [getD_append_right' α _ _ (by omega) (by simp; omega)]
            exact getD_replicate' M r _ (by omega)
        have hmod := weakPeriod_mod _ (perW (α ++ List.replicate r M))
          (perW_ge_one _) (perW_holds _ (by rw [hwlen]; omega))
          (α.length + r - perW α) (by rw [hwlen]; omega)
        rw [ihper] at hmod
        rw [hmod] at hMpos
        have hz : (α.length + r - perW α) % perW α = 0 := by
          obtain ⟨k, hk⟩ := hdvd
          cases k with
          | zero => rw [Nat.mul_zero] at hk; omega
          | succ k' =>
            rw [Nat.mul_succ] at hk
            rw [show α.length + r - perW α = perW α * k' by omega]
            exact Nat.mul_mod_right _ _
        rw [hz, getD_append_left' α _ _ (by omega), h0] at hMpos
        omega
      · obtain ⟨k, hk⟩ := hdvd
        rw [hk]
        exact Nat.mul_mod_right _ _
  · intro hcond
    rcases hcond with ⟨hr, hmod⟩ | hgt
    · obtain ⟨hp, hper⟩ := emit_keep α M hlen hpre hlast r (by omega)
      apply isNeck_of_pre_dvd _ (by rw [hwlen]; omega) hp
      rw [hper, hwlen]
      exact Nat.dvd_of_mod_eq_zero hmod
    · obtain ⟨hp, hper⟩ := emit_grow α M hlen hpre hlast h0 hM1 hM r hgt
      apply isNeck_of_pre_dvd _ (by rw [hwlen]; omega) hp
      rw [hper, hwlen]

theorem isPre_prefix (α β : List Nat) (h : isPre (α ++ β)) : isPre α := by
  intro i hi hi1
  have hlen : (α ++ β).length = α.length + β.length := by simp
  rcases h i (by simp; omega) hi1 with hl | ⟨d, hd, hm, hs⟩
  · left
    intro x hx
    have := hl x (by omega)
    rw [getD_append_left' α β _ (by omega),
      getD_append_left' α β _ (by omega)] at this
    exact this
  · by_cases hdc : d < α.length - i
    · right
      refine ⟨d, hdc, fun x hx => ?_, ?_⟩
      · have := hm x hx
        rw [getD_append_left' α β _ (by omega),
          getD_append_left' α β _ (by omega)] at this
        exact this
      · rw [getD_append_left' α β _ (by omega),
          getD_append_left' α β _ (by omega)] at hs
        exact hs
    · left
      intro x hx
      have := hm x (by omega)
      rw [getD_append_left' α β _ (by omega),
        getD_append_left' α β _ (by omega)] at this
      exact this

theorem prefix_getD_eq (p w : List Nat) (h : p <+: w) (i : Nat)
    (hi : i < p.length) : w.getD i 0 = p.getD i 0 := by
  obtain ⟨rest, hrest⟩ := h
  rw [← hrest, getD_append_left' p rest i hi]

theorem neck_first_le (w : List Nat) (hn : 0 < w.length) (h : IsNeck w)
    (i : Nat) (hi : i < w.length) : w.getD 0 0 ≤ w.getD i 0 := by
  have hcmp := h i hi
  rcases compareArrays_le_zero_elim w _ (by rw [rotate_len]) hcmp with
    hl | ⟨d, hd, hm, hs⟩
  · have := hl 0 (by omega)
    rw [getD_rotate w hn i 0 (by omega), Nat.add_zero,
      Nat.mod_eq_of_lt hi] at this
    omega
  · rcases Nat.eq_zero_or_pos d with h0 | hpos
    · rw [h0] at hs
      rw [getD_rotate w hn i 0 (by omega), Nat.add_zero,
        Nat.mod_eq_of_lt hi] at hs
      omega
    · have := hm 0 hpos
      rw [getD_rotate w hn i 0 (by omega), Nat.add_zero,
        Nat.mod_eq_of_lt hi] at this
      omega

theorem neck_no_trailing_zero (w : List Nat) (hn : 0 < w.length)
    (h : IsNeck w) (hz : w.getD (w.length - 1) 0 = 0)
    (hnz : ∃ i, i < w.length ∧ w.getD i 0 ≠ 0) : False := by
  have h0 : w.getD 0 0 = 0 := by
    have := neck_first_le w hn h (w.length - 1) (by omega)
    omega
  obtain ⟨hall, hstop⟩ := runlenW_spec w 0 0
  have hz1 : 1 ≤ runlenW w 0 0 := by
    by_contra hc
    push_neg at hc
    rcases hstop with hs | hs
    · obtain ⟨i, hi, hine⟩ := hnz
      exact hine (hall i (by omega) (by omega)).2
    · apply hs
      have he : (0 : Nat) + runlenW w 0 0 = 0 := by omega
      rw [he]
      exact ⟨by omega, h0⟩
  have hzlt : runlenW w 0 0 < w.length := by
    rcases hstop with hs | hs
    · obtain ⟨i, hi, hine⟩ := hnz
      exfalso
      exact hine (hall i (by omega) (by omega)).2
    · by_contra hc
      push_neg at hc
      obtain ⟨i, hi, hine⟩ := hnz
      exact hine (hall i (by omega) (by omega)).2
  have hwz : w.getD (runlenW w 0 0) 0 ≠ 0 := by
    rcases hstop with hs | hs
    · omega
    · intro hcon
      apply hs
      rw [Nat.zero_add]
      exact ⟨by omega, hcon⟩
  have hznm1 : runlenW w 0 0 ≤ w.length - 1 := by
    by_contra hc
    push_neg at hc
    have : runlenW w 0 0 = w.length - 1 + 1 := by omega
    omega
  have hzn2 : runlenW w 0 0 < w.length - 1 := by
    rcases Nat.eq_or_lt_of_le hznm1 with heq | hlt
    · exfalso
      apply hwz
      rw [heq]
      exact hz
    · exact hlt
  have hcmp := h (w.length - 1) (by omega)
  have hpos : 0 < compareArrays w (rotate w ((w.length - 1 : Nat) : Int)) := by
    apply compareArrays_pos_of _ _ (by rw [rotate_len])
    refine ⟨runlenW w 0 0, by omega, fun t ht => ?_, ?_⟩
    · rw [getD_rotate w hn _ t (by omega)]
      rcases Nat.eq_zero_or_pos t with ht0 | htpos
      · rw [ht0, Nat.add_zero, Nat.mod_eq_of_lt (by omega)]
        rw [hz, (hall 0 (by omega) (by omega)).2]
      · rw [show (w.length - 1 + t) % w.length = t - 1 from by
          rw [Nat.mod_eq_sub_mod (by omega)]
          rw [show w.length - 1 + t - w.length = t - 1 by omega]
          exact Nat.mod_eq_of_lt (by omega)]
        rw [(hall (t - 1) (by omega) (by omega)).2,
          (hall t (by omega) (by omega)).2]
    · rw [getD_rotate w hn _ _ (by omega)]
      rw [show (w.length - 1 + runlenW w 0 0) % w.length
          = runlenW w 0 0 - 1 from by
        rw [Nat.mod_eq_sub_mod (by omega)]
        rw [show w.length - 1 + runlenW w 0 0 - w.length
          = runlenW w 0 0 - 1 by omega]
        exact Nat.mod_eq_of_lt (by omega)]
      rw [(hall (runlenW w 0 0 - 1) (by omega) (by omega)).2]
      omega
  omega

theorem ext_cross_lt (α : List Nat) (j1 j2 : Nat) (w1 w2 : List Nat)
    (hj : j2 < j1) (h1 : (α ++ [j1]) <+: w1) (h2 : (α ++ [j2]) <+: w2)
    (hlen : w1.length = w2.length) :
    0 < compareArrays w1 w2 := by
  have hl1 : α.length + 1 ≤ w1.length := by
    have := h1.length_le
    simpa using this
  apply compareArrays_pos_of _ _ hlen
  refine ⟨α.length, by omega, fun t ht => ?_, ?_⟩
  · rw [prefix_getD_eq _ _ h1 t (by simp; omega),
      prefix_getD_eq _ _ h2 t (by simp; omega),
      getD_append_left' α _ _ (by omega), getD_append_left' α _ _ (by omega)]
  · rw [prefix_getD_eq _ _ h1 α.length (by simp),
      prefix_getD_eq _ _ h2 α.length (by simp),
      getD_append_last, getD_append_last]
    exact hj

theorem getD_take' (l : List Nat) (t i : Nat) (h1 : i < t)
    (h2 : t ≤ l.length) : (l.take t).getD i 0 = l.getD i 0 := by
  rw [List.getD_eq_getElem _ _ (by simp; omega),
    List.getD_eq_getElem _ _ (by omega)]
  exact List.getElem_take l

theorem take_set_succ' (l : List Nat) (t : Nat) (j : Nat) (h : t < l.length) :
    (l.set t j).take (t + 1) = l.take t ++ [j] := by
  rw [List.set_eq_take_cons_drop j h, List.take_append_eq_append_take]
  simp [List.take_of_length_le, Nat.min_eq_left (Nat.le_of_lt h)]

theorem take_set_same' (l : List Nat) (t : Nat) (j : Nat) :
    (l.set t j).take t = l.take t := by
  by_cases h : t < l.length
  · rw [List.set_eq_take_cons_drop j h, List.take_append_eq_append_take]
    simp [Nat.min_eq_left (Nat.le_of_lt h), List.take_take]
  · rw [List.set_eq_of_length_le (by omega)]

theorem set_getD_self' (l : List Nat) (i v : Nat) (h : l.getD i 0 = v) :
    l.set i v = l := by
  by_cases hc : i < l.length
  · apply List.ext_getElem
    · simp
    · intro k h1 h2
      by_cases hk : i = k
      · subst hk
        rw [List.getElem_set_self]
        rw [List.getD_eq_getElem _ _ hc] at h
        exact h.symm
      · exact List.getElem_set_ne hk _
  · exact List.set_eq_of_length_le (by omega)

theorem sum_set_nat (l : List Nat) (i v : Nat) (h : i < l.length) :
    (l.set i v).sum + l.getD i 0 = l.sum + v := by
  induction l generalizing i with
  | nil => simp at h
  | cons x xs ih =>
    cases i with
    | zero => simp [List.sum_cons]; omega
    | succ i' =>
      simp only [List.set_cons_succ, List.sum_cons, List.getD_cons_succ]
      have := ih i' (by simpa using h)
      omega

theorem getD_le_sum (l : List Nat) (i : Nat) : l.getD i 0 ≤ l.sum := by
  induction l generalizing i with
  | nil => simp
  | cons x xs ih =>
    cases i with
    | zero => simp [List.sum_cons]
    | succ i' =>
      simp only [List.getD_cons_succ, List.sum_cons]
      have := ih i'
      omega

theorem pair_le_sum (l : List Nat) (i j : Nat) (hij : i ≠ j)
    (hi : i < l.length) (hj : j < l.length) :
    l.getD i 0 + l.getD j 0 ≤ l.sum := by
  induction l generalizing i j with
  | nil => simp at hi
  | cons x xs ih =>
    cases i with
    | zero =>
      cases j with
      | zero => omega
      | succ j' =>
        simp only [List.getD_cons_zero, List.getD_cons_succ, List.sum_cons]
        have := getD_le_sum xs j'
        omega
    | succ i' =>
      cases j with
      | zero =>
        simp only [List.getD_cons_zero, List.getD_cons_succ, List.sum_cons]
        have := getD_le_sum xs i'
        omega
      | succ j' =>
        simp only [List.getD_cons_succ, List.sum_cons]
        have := ih i' j' (by omega) (by simpa using hi) (by simpa using hj)
        omega

theorem mem_to_getD (w : List Nat) (x : Nat) (h : x ∈ w) :
    ∃ i, i < w.length ∧ w.getD i 0 = x := by
  obtain ⟨i, hi, hgx⟩ := List.getElem_of_mem h
  exact ⟨i, hi, by rw [List.getD_eq_getElem _ _ hi]; exact hgx⟩

theorem prefix_ext_getD (α w : List Nat) (h : α <+: w)
    (hlen : α.length < w.length) :
    (α ++ [w.getD α.length 0]) <+: w := by
  obtain ⟨rest, hrest⟩ := h
  cases rest with
  | nil => rw [← hrest] at hlen; simp at hlen
  | cons c cs =>
    refine ⟨cs, ?_⟩
    rw [← hrest]
    rw [getD_append_right' α (c :: cs) α.length (le_refl _)
      (by simp)]
    simp

theorem drop_eq_replicate_of (l : List Nat) (t M : Nat) (h : t ≤ l.length)
    (hall : ∀ i, t ≤ i → i < l.length → l.getD i 0 = M) :
    l.drop t = List.replicate (l.length - t) M := by
  have hlen : (l.drop t).length = l.length - t := by simp
  rw [← hlen]
  apply List.eq_replicate_of_mem
  intro x hx
  obtain ⟨i, hi, hgx⟩ := List.getElem_of_mem hx
  rw [List.getElem_drop] at hgx
  rw [List.length_drop] at hi
  rw [← hgx]
  rw [← List.getD_eq_getElem _ 0 (by omega)]
  exact hall (t + i) (by omega) (by omega)

theorem getD_set_self_nat (l : List Nat) (i v : Nat) (h : i < l.length) :
    (l.set i v).getD i 0 = v := by
  rw [List.getD_eq_getElem _ _ (by simpa using h)]
  exact List.getElem_set_self _

theorem getD_set_ne_nat (l : List Nat) (i k v : Nat) (h : i ≠ k) :
    (l.set i v).getD k 0 = l.getD k 0 := by
  by_cases hk : k < l.length
  · rw [List.getD_eq_getElem _ _ (by simpa using hk),
      List.getD_eq_getElem _ _ hk]
    exact List.getElem_set_ne h _
  · rw [List.getD_eq_default _ _ (by simpa using hk),
      List.getD_eq_default _ _ (by omega)]

/-- The letters still available for the word `α` under content target `cnt`:
exactly what the maintained `availLetters` list holds at each node. -/
def availCanon (cnt α : List Nat) : List Nat :=
  ((List.range cnt.length).reverse).filter
    (fun c => decide (α.count c < cnt.getD c 0))

theorem mem_availCanon (cnt α : List Nat) (c : Nat) :
    c ∈ availCanon cnt α ↔ c < cnt.length ∧ α.count c < cnt.getD c 0 := by
  simp [availCanon]

theorem availCanon_sorted (cnt α : List Nat) :
    (availCanon cnt α).Pairwise (fun x y => y < x) := by
  apply List.Pairwise.filter
  rw [List.pairwise_reverse]
  exact List.pairwise_lt_range _

theorem availCanon_nodup (cnt α : List Nat) : (availCanon cnt α).Nodup :=
  List.Nodup.filter _ (List.nodup_reverse.mpr (List.nodup_range _))

theorem mem_takeWhile_ge (l : List Nat) (thr : Nat)
    (hs : l.Pairwise (fun x y => y < x)) (x : Nat) :
    x ∈ l.takeWhile (fun j => j ≥ thr) ↔ x ∈ l ∧ thr ≤ x := by
  induction l with
  | nil => simp
  | cons h t ih =>
    rw [List.takeWhile_cons]
    rcases List.pairwise_cons.mp hs with ⟨hh, ht⟩
    by_cases hc : thr ≤ h
    · rw [if_pos (by simpa using hc)]
      simp only [List.mem_cons]
      rw [ih ht]
      constructor
      · rintro (rfl | ⟨hm, hx⟩)
        · exact ⟨Or.inl rfl, hc⟩
        · exact ⟨Or.inr hm, hx⟩
      · rintro ⟨rfl | hm, hx⟩
        · exact Or.inl rfl
        · exact Or.inr ⟨hm, hx⟩
    · rw [if_neg (by simpa using hc)]
      simp only [List.not_mem_nil, false_iff]
      rintro ⟨hmem, hx⟩
      rcases List.mem_cons.mp hmem with h1 | hm
      · exact hc (h1 ▸ hx)
      · have := hh x hm
        omega

theorem insortDesc_head_lt (j : Nat) (l : List Nat)
    (hl : ∀ x ∈ l, x < j) : insortDesc j l = j :: l := by
  cases l with
  | nil => rfl
  | cons x rest =>
    unfold insortDesc
    rw [if_neg]
    have := hl x (List.mem_cons_self _ _)
    omega

theorem insortDesc_restore (D : List Nat)
    (hD : D.Pairwise (fun x y => y < x)) (P Q : Nat → Bool) (j : Nat)
    (hj : j ∈ D) (hPj : P j = false) (hQj : Q j = true)
    (hPQ : ∀ c, c ≠ j → P c = Q c) :
    insortDesc j (D.filter P) = D.filter Q := by
  induction D with
  | nil => simp at hj
  | cons d rest ih =>
    rcases List.pairwise_cons.mp hD with ⟨hd, hrest⟩
    by_cases hdj : d = j
    · subst hdj
      rw [List.filter_cons_of_neg (by simp [hPj]),
        List.filter_cons_of_pos hQj]
      rw [insortDesc_head_lt]
      · congr 1
        apply List.filter_congr
        intro c hc
        exact hPQ c (by have := hd c hc; omega)
      · intro x hx
        exact hd x (List.mem_of_mem_filter hx)
    · have hjr : j ∈ rest := by
        rcases List.mem_cons.mp hj with h | h
        · exact absurd h.symm hdj
        · exact h
      have hdgt : j < d := hd j hjr
      by_cases hQd : Q d = true
      · rw [List.filter_cons_of_pos ((hPQ d hdj).trans hQd),
          List.filter_cons_of_pos hQd]
        show insortDesc j (d :: List.filter P rest) = _
        unfold insortDesc
        rw [if_pos hdgt]
        rw [ih hrest hjr]
      · rw [Bool.not_eq_true] at hQd
        rw [List.filter_cons_of_neg (by simp [(hPQ d hdj).trans hQd]),
          List.filter_cons_of_neg (by simp [hQd])]
        exact ih hrest hjr

theorem ext_getD (a l : List Nat) (h : a.length = l.length)
    (h2 : ∀ i, i < l.length → a.getD i 0 = l.getD i 0) : a = l := by
  apply List.ext_getElem h
  intro i h1 hh2
  have := h2 i hh2
  rwa [List.getD_eq_getElem _ _ h1, List.getD_eq_getElem _ _ hh2] at this

theorem getD_mem (w : List Nat) (t : Nat) (h : t < w.length) :
    w.getD t 0 ∈ w := by
  rw [List.getD_eq_getElem _ _ h]
  exact List.getElem_mem h

theorem count_append_singleton (α : List Nat) (j c : Nat) :
    (α ++ [j]).count c = α.count c + if j = c then 1 else 0 := by
  simp [List.count_append, List.count_singleton']

theorem count_le_of_prefix (p w : List Nat) (c : Nat) (h : p <+: w) :
    p.count c ≤ w.count c :=
  List.Sublist.count_le h.sublist c

theorem availCanon_append_last (cnt α : List Nat) (j : Nat)
    (hlast : α.count j + 1 = cnt.getD j 0) :
    availCanon cnt (α ++ [j]) = (availCanon cnt α).erase j := by
  rw [List.Nodup.erase_eq_filter (availCanon_nodup cnt α) j]
  unfold availCanon
  rw [List.filter_filter]
  apply List.filter_congr
  intro c _
  by_cases hcj : c = j
  · subst hcj
    have hc : (α ++ [c]).count c = α.count c + 1 := by
      rw [count_append_singleton, if_pos rfl]
    rw [hc, decide_eq_false (by omega), bne_self_eq_false, Bool.false_and]
  · have hc : (α ++ [j]).count c = α.count c := by
      rw [count_append_singleton, if_neg (fun he => hcj he.symm), Nat.add_zero]
    rw [hc]
    have hb : (c != j) = true := by simp [hcj]
    rw [hb, Bool.true_and]

theorem availCanon_append_keep (cnt α : List Nat) (j : Nat)
    (hkeep : α.count j + 1 < cnt.getD j 0) :
    availCanon cnt (α ++ [j]) = availCanon cnt α := by
  unfold availCanon
  apply List.filter_congr
  intro c _
  by_cases hcj : c = j
  · subst hcj
    have hc : (α ++ [c]).count c = α.count c + 1 := by
      rw [count_append_singleton, if_pos rfl]
    rw [hc]
    exact decide_eq_decide.mpr (by omega)
  · have hc : (α ++ [j]).count c = α.count c := by
      rw [count_append_singleton, if_neg (fun he => hcj he.symm), Nat.add_zero]
    rw [hc]

theorem forced_completion (cnt α w : List Nat) (X : Nat)
    (hcountw : ∀ ℓ, w.count ℓ = cnt.getD ℓ 0)
    (hpre : α <+: w)
    (hother : ∀ c, c < cnt.length → c ≠ X → α.count c = cnt.getD c 0) :
    w = α ++ List.replicate (w.length - α.length) X := by
  obtain ⟨δ, hδ⟩ := hpre
  have hδlen : δ.length = w.length - α.length := by
    rw [← hδ]; simp
  have hδrep : δ = List.replicate δ.length X := by
    apply List.eq_replicate_of_mem
    intro x hx
    by_contra hne
    have hxw : x ∈ w := by rw [← hδ]; exact List.mem_append_right α hx
    have hcpos : 0 < w.count x := List.count_pos_iff.mpr hxw
    have hxlt : x < cnt.length := by
      by_contra hge
      rw [hcountw x, List.getD_eq_default _ _ (by omega)] at hcpos
      omega
    have hcα : α.count x = cnt.getD x 0 := hother x hxlt hne
    have hcδ : 0 < δ.count x := List.count_pos_iff.mpr hx
    have : w.count x = α.count x + δ.count x := by
      rw [← hδ, List.count_append]
    rw [hcountw x, hcα] at this
    omega
  have hlen2 : (α ++ δ).length - α.length = δ.length := by simp
  rw [← hδ, hlen2, ← hδrep]

theorem runlen_exact (α : List Nat) (M x e : Nat) (hxe : x ≤ e)
    (hel : e ≤ α.length)
    (hrun : ∀ y, x ≤ y → y < e → α.getD y 0 = M)
    (hstop : e = α.length ∨ α.getD e 0 ≠ M) :
    runlenW α M x = e - x := by
  obtain ⟨hall, hst⟩ := runlenW_spec α M x
  by_cases hlt : x + runlenW α M x < e
  · exfalso
    have hm := hrun (x + runlenW α M x) (by omega) hlt
    rcases hst with h1 | h1
    · omega
    · exact h1 ⟨by omega, hm⟩
  · by_cases hgt : e < x + runlenW α M x
    · exfalso
      have := hall e (by omega) (by omega)
      rcases hstop with h1 | h1
      · omega
      · exact h1 this.2
    · omega

theorem runlen_append_stop (α δ : List Nat) (M x y0 : Nat) (hxy : x ≤ y0)
    (hy0 : y0 < α.length) (hne : α.getD y0 0 ≠ M) :
    runlenW (α ++ δ) M x = runlenW α M x := by
  obtain ⟨hall, hst⟩ := runlenW_spec α M x
  have hbound : x + runlenW α M x ≤ y0 := by
    by_contra hc
    exact hne (hall y0 hxy (by omega)).2
  have hstop2 : α.getD (x + runlenW α M x) 0 ≠ M := by
    rcases hst with h1 | h1
    · omega
    · intro hm
      exact h1 ⟨by omega, hm⟩
  have := runlen_exact (α ++ δ) M x (x + runlenW α M x) (by omega)
    (by simp; omega)
    (fun y hy1 hy2 => by
      rw [getD_append_left' α δ y (by omega)]
      exact (hall y hy1 hy2).2)
    (Or.inr (by
      rw [getD_append_left' α δ _ (by omega)]
      exact hstop2))
  omega

/-- `w` is a necklace of length `n` with letter counts `cnt` extending the
prefix `α`: exactly the words the subtree rooted at `α` must emit. -/
def ExtN (cnt : List Nat) (n : Nat) (α w : List Nat) : Prop :=
  IsNeck w ∧ w.length = n ∧ (∀ ℓ, w.count ℓ = cnt.getD ℓ 0) ∧ α <+: w

/-- The invariant `sawadaMut` maintains at a recursion node `(st, t, p, s)`
for target content `cnt` and scale length `n`. -/
structure SawInv (cnt : List Nat) (n : Nat) (st : SawadaState)
    (t p s : Nat) : Prop where
  ht1 : 1 ≤ t
  htn : t ≤ n
  hlen : st.a.length = n
  hp : p = perW (st.a.take t)
  hpre : isPre (st.a.take t)
  h0 : st.a.getD 0 0 = 0
  hletters : ∀ i, i < t → st.a.getD i 0 < cnt.length
  hfill : ∀ i, t ≤ i → i < n → st.a.getD i 0 = cnt.length - 1
  hs1 : 1 ≤ s
  hst : s ≤ t
  hsM : ∀ y, s ≤ y → y < t → st.a.getD y 0 = cnt.length - 1
  hsNe : st.a.getD (s - 1) 0 ≠ cnt.length - 1
  hremlen : st.remContent.length = cnt.length
  hcount : ∀ c, (st.a.take t).count c ≤ cnt.getD c 0
  hrem : ∀ c, st.remContent.getD c 0 = cnt.getD c 0 - (st.a.take t).count c
  hsum : st.remContent.sum + t = n
  havail : st.availLetters = availCanon cnt (st.a.take t)
  hrunslen : st.runs.length = n
  hruns : ∀ x, x < s → (x = 0 ∨ st.a.getD (x - 1) 0 ≠ cnt.length - 1) →
    st.runs.getD x 0 = runlenW (st.a.take t) (cnt.length - 1) x
  hlastM : st.a.getD (t - 1) 0 = cnt.length - 1 →
    st.remContent.getD (cnt.length - 1) 0 ≠ n - t

theorem ext_node_iff (cnt : List Nat) (n : Nat) (st : SawadaState)
    (t p s : Nat) (inv : SawInv cnt n st t p s)
    (htn : t < n) (w : List Nat) :
    ExtN cnt n (st.a.take t) w ↔
      ∃ j ∈ st.availLetters.takeWhile (fun j => j ≥ st.a.getD (t - p) 0),
        ExtN cnt n (st.a.take t ++ [j]) w := by
  have hαlen : (st.a.take t).length = t := by
    have h1 := inv.htn
    have h2 := inv.hlen
    rw [List.length_take]
    omega
  have hp1 : 1 ≤ perW (st.a.take t) := perW_ge_one _
  have ht1 := inv.ht1
  have htn' := inv.htn
  have halen := inv.hlen
  have hpp := inv.hp
  have hthr : st.a.getD (t - p) 0 = (st.a.take t).getD (t - p) 0 :=
    (getD_take' st.a t (t - p) (by omega) (by omega)).symm
  constructor
  · rintro ⟨hneck, hwlen, hwcount, hwpre⟩
    refine ⟨w.getD t 0, ?_, hneck, hwlen, hwcount, ?_⟩
    · rw [mem_takeWhile_ge _ _ (by rw [inv.havail]; exact availCanon_sorted _ _)]
      have hprec : (st.a.take t ++ [w.getD t 0]) <+: w := by
        have := prefix_ext_getD (st.a.take t) w hwpre (by omega)
        rwa [hαlen] at this
      have hwmem : w.getD t 0 ∈ w := getD_mem w t (by omega)
      have hcntpos : 0 < cnt.getD (w.getD t 0) 0 := by
        rw [← hwcount]
        exact List.count_pos_iff.mpr hwmem
      have hclt : w.getD t 0 < cnt.length := by
        by_contra hge
        rw [List.getD_eq_default _ _ (by omega)] at hcntpos
        omega
      have hccount : (st.a.take t).count (w.getD t 0) + 1
          ≤ cnt.getD (w.getD t 0) 0 := by
        have h1 := count_le_of_prefix _ w (w.getD t 0) hprec
        rw [count_append_singleton, if_pos rfl, hwcount] at h1
        exact h1
      constructor
      · rw [inv.havail, mem_availCanon]
        exact ⟨hclt, by omega⟩
      · obtain ⟨rest, hrest⟩ := hprec
        have hpre2 : isPre (st.a.take t ++ [w.getD t 0]) :=
          isPre_prefix _ rest (by
            rw [hrest]
            exact isNeck_isPre w (by omega) hneck)
        have := fkm_ext_necessary (st.a.take t) (w.getD t 0)
          (by omega) hpre2
        rw [hαlen] at this
        rw [hthr, inv.hp]
        exact this
    · have := prefix_ext_getD (st.a.take t) w hwpre (by omega)
      rwa [hαlen] at this
  · rintro ⟨j, _, hneck, hwlen, hwcount, hwpre⟩
    exact ⟨hneck, hwlen, hwcount,
      List.IsPrefix.trans ⟨[j], rfl⟩ hwpre⟩

theorem getD_append_at (α : List Nat) (c i : Nat) (h : i = α.length) :
    (α ++ [c]).getD i 0 = c := by
  subst h
  exact getD_append_last α c

theorem saw_child_inv (cnt : List Nat) (n : Nat) (st : SawadaState)
    (t p s : Nat) (inv : SawInv cnt n st t p s)
    (harity : 2 ≤ cnt.length)
    (htn : t < n)
    (hMne : st.remContent.getD (cnt.length - 1) 0 ≠ n - t)
    (cur : SawadaState)
    (hcr : cur.remContent = st.remContent)
    (hcav : cur.availLetters = st.availLetters)
    (hcal : cur.a.length = n)
    (hcag : ∀ i, i ≠ t → cur.a.getD i 0 = st.a.getD i 0)
    (hcrl : cur.runs.length = n)
    (hcruns : ∀ x, x < s → cur.runs.getD x 0 = st.runs.getD x 0)
    (j : Nat) (hjlt : j < cnt.length)
    (hjcount : (st.a.take t).count j < cnt.getD j 0)
    (hjge : st.a.getD (t - p) 0 ≤ j) :
    SawInv cnt n
      { remContent := cur.remContent.set j (cur.remContent.getD j 0 - 1),
        runs := cur.runs.set s (t - s),
        availLetters := if cur.remContent.getD j 0 = 1
          then cur.availLetters.erase j else cur.availLetters,
        a := cur.a.set t j, coll := cur.coll }
      (t + 1)
      (if j = (cur.a.set t j).getD (t - p) 0 then p else t + 1)
      (if j = cnt.length - 1 then s else t + 1) := by
  have ht1 := inv.ht1
  have htn' := inv.htn
  have halen := inv.hlen
  have hpp := inv.hp
  have hs1 := inv.hs1
  have hst := inv.hst
  have hαl : (st.a.take t).length = t := by
    rw [List.length_take]
    omega
  have hp1 : 1 ≤ perW (st.a.take t) := perW_ge_one _
  have hple : perW (st.a.take t) ≤ t := by
    have := perW_le (st.a.take t) (by omega)
    omega
  have htp : t - p < t := by omega
  have hcat : cur.a.take t = st.a.take t := by
    apply ext_getD
    · simp [hcal, halen]
    · intro i hi
      rw [List.length_take] at hi
      rw [getD_take' _ _ _ (by omega) (by omega),
        getD_take' _ _ _ (by omega) (by omega)]
      exact hcag i (by omega)
  have hα' : (cur.a.set t j).take (t + 1) = st.a.take t ++ [j] := by
    rw [take_set_succ' _ _ _ (by omega), hcat]
  have hthr : st.a.getD (t - p) 0 = (st.a.take t).getD (t - p) 0 :=
    (getD_take' st.a t (t - p) htp (by omega)).symm
  have hjge' : (st.a.take t).getD (t - p) 0 ≤ j := by
    rw [← hthr]
    exact hjge
  have hidx : t - p = (st.a.take t).length - perW (st.a.take t) := by
    rw [hαl, hpp]
  have ha2t : (cur.a.set t j).getD t 0 = j :=
    getD_set_self_nat _ _ _ (by omega)
  have ha2ne : ∀ i, i ≠ t → (cur.a.set t j).getD i 0 = st.a.getD i 0 := by
    intro i hi
    rw [getD_set_ne_nat _ _ _ _ (fun he => hi he.symm)]
    exact hcag i hi
  have ha2tp : (cur.a.set t j).getD (t - p) 0
      = (st.a.take t).getD (t - p) 0 := by
    rw [ha2ne _ (by omega)]
    exact hthr
  have hremj : st.remContent.getD j 0
      = cnt.getD j 0 - (st.a.take t).count j := inv.hrem j
  have hremlen := inv.hremlen
  have hsNe' : (st.a.take t).getD (s - 1) 0 ≠ cnt.length - 1 := by
    rw [getD_take' _ _ _ (by omega) (by omega)]
    exact inv.hsNe
  constructor
  · omega
  · omega
  · simp [hcal]
  · show (if j = (cur.a.set t j).getD (t - p) 0 then p else t + 1)
      = perW ((cur.a.set t j).take (t + 1))
    rw [hα']
    by_cases hc : j = (cur.a.set t j).getD (t - p) 0
    · rw [if_pos hc]
      rw [fkm_ext_per_eq (st.a.take t) j (by omega)
        (by rw [← hidx, ← ha2tp]; exact hc)]
      exact hpp
    · rw [if_neg hc]
      rw [fkm_ext_per_gt (st.a.take t) j (by omega) inv.hpre
        (by rw [← hidx]; rw [ha2tp] at hc; omega)]
      rw [hαl]
  · show isPre ((cur.a.set t j).take (t + 1))
    rw [hα']
    exact fkm_ext_pre (st.a.take t) j (by omega) inv.hpre
      (by rw [← hidx]; exact hjge')
  · show (cur.a.set t j).getD 0 0 = 0
    rw [ha2ne 0 (by omega)]
    exact inv.h0
  · intro i hi
    show (cur.a.set t j).getD i 0 < cnt.length
    by_cases hit : i = t
    · rw [hit, ha2t]
      exact hjlt
    · rw [ha2ne i hit]
      exact inv.hletters i (by omega)
  · intro i hi1 hi2
    show (cur.a.set t j).getD i 0 = cnt.length - 1
    rw [ha2ne i (by omega)]
    exact inv.hfill i (by omega) hi2
  · by_cases hc : j = cnt.length - 1
    · rw [if_pos hc]; omega
    · rw [if_neg hc]; omega
  · by_cases hc : j = cnt.length - 1
    · rw [if_pos hc]; omega
    · rw [if_neg hc]
  · intro y hy1 hy2
    show (cur.a.set t j).getD y 0 = cnt.length - 1
    by_cases hc : j = cnt.length - 1
    · rw [if_pos hc] at hy1
      by_cases hyt : y = t
      · rw [hyt, ha2t]
        exact hc
      · rw [ha2ne y hyt]
        exact inv.hsM y hy1 (by omega)
    · rw [if_neg hc] at hy1
      omega
  · by_cases hc : j = cnt.length - 1
    · rw [if_pos hc]
      show (cur.a.set t j).getD (s - 1) 0 ≠ cnt.length - 1
      rw [ha2ne (s - 1) (by omega)]
      exact inv.hsNe
    · rw [if_neg hc]
      show (cur.a.set t j).getD (t + 1 - 1) 0 ≠ cnt.length - 1
      rw [show t + 1 - 1 = t by omega, ha2t]
      exact hc
  · show (cur.remContent.set j (cur.remContent.getD j 0 - 1)).length
      = cnt.length
    rw [List.length_set, hcr]
    exact hremlen
  · intro c
    show ((cur.a.set t j).take (t + 1)).count c ≤ cnt.getD c 0
    rw [hα', count_append_singleton]
    by_cases hc : j = c
    · subst hc
      rw [if_pos rfl]
      omega
    · rw [if_neg hc]
      have := inv.hcount c
      omega
  · intro c
    show (cur.remContent.set j (cur.remContent.getD j 0 - 1)).getD c 0
      = cnt.getD c 0 - ((cur.a.set t j).take (t + 1)).count c
    rw [hα', count_append_singleton]
    by_cases hc : j = c
    · subst hc
      rw [if_pos rfl, getD_set_self_nat _ _ _ (by rw [hcr]; omega), hcr,
        hremj]
      omega
    · rw [if_neg hc, getD_set_ne_nat _ _ _ _ hc, hcr, inv.hrem c]
      omega
  · show (cur.remContent.set j (cur.remContent.getD j 0 - 1)).sum + (t + 1)
      = n
    have hss := sum_set_nat cur.remContent j (cur.remContent.getD j 0 - 1)
      (by rw [hcr]; omega)
    have hsum := inv.hsum
    have hjpos : 1 ≤ st.remContent.getD j 0 := by
      rw [hremj]
      omega
    rw [hcr] at hss
    rw [hcr]
    omega
  · show (if cur.remContent.getD j 0 = 1 then cur.availLetters.erase j
      else cur.availLetters) = availCanon cnt ((cur.a.set t j).take (t + 1))
    rw [hα', hcr, hcav, inv.havail]
    by_cases hc : st.remContent.getD j 0 = 1
    · rw [if_pos hc]
      rw [availCanon_append_last cnt (st.a.take t) j (by rw [hremj] at hc; omega)]
    · rw [if_neg hc]
      rw [availCanon_append_keep cnt (st.a.take t) j (by rw [hremj] at hc; omega)]
  · show (cur.runs.set s (t - s)).length = n
    rw [List.length_set]
    exact hcrl
  · intro x hx hguard
    show (cur.runs.set s (t - s)).getD x 0
      = runlenW ((cur.a.set t j).take (t + 1)) (cnt.length - 1) x
    rw [hα']
    by_cases hxs : x < s
    · rw [getD_set_ne_nat _ _ _ _ (by omega), hcruns x hxs]
      rw [runlen_append_stop (st.a.take t) [j] (cnt.length - 1) x (s - 1)
        (by omega) (by omega) hsNe']
      apply inv.hruns x hxs
      rcases hguard with h1 | h1
      · exact Or.inl h1
      · right
        rw [ha2ne (x - 1) (by omega)] at h1
        exact h1
    · by_cases hxe : x = s
      · have hcM : j ≠ cnt.length - 1 := by
          intro hjM
          rw [if_pos hjM] at hx
          omega
        have hstop : (st.a.take t ++ [j]).getD t 0 ≠ cnt.length - 1 := by
          rw [getD_append_at _ _ _ hαl.symm]
          exact hcM
        rw [hxe, getD_set_self_nat _ _ _ (by omega)]
        rw [runlen_exact (st.a.take t ++ [j]) (cnt.length - 1) s t
          (by omega) (by simp; omega)
          (fun y hy1 hy2 => by
            rw [getD_append_left' _ _ _ (by omega),
              getD_take' _ _ _ (by omega) (by omega)]
            exact inv.hsM y hy1 hy2)
          (Or.inr hstop)]
      · exfalso
        have hxlt : x < t + 1 := by
          by_cases hc : j = cnt.length - 1
          · rw [if_pos hc] at hx
            omega
          · rw [if_neg hc] at hx
            omega
        have hxs1 : s ≤ x - 1 := by omega
        have hxt : x - 1 < t := by omega
        rcases hguard with h1 | h1
        · omega
        · rw [ha2ne (x - 1) (by omega)] at h1
          exact h1 (inv.hsM (x - 1) hxs1 hxt)
  · intro hM
    show (cur.remContent.set j (cur.remContent.getD j 0 - 1)).getD
      (cnt.length - 1) 0 ≠ n - (t + 1)
    rw [show t + 1 - 1 = t by omega, ha2t] at hM
    rw [← hM]
    rw [getD_set_self_nat _ _ _ (by rw [hcr]; omega), hcr]
    have hjpos : 1 ≤ st.remContent.getD j 0 := by
      rw [hremj]
      omega
    have hMne' : st.remContent.getD j 0 ≠ n - t := by
      rw [hM]
      exact hMne
    omega

theorem count_take_zero_of_ge (cnt : List Nat) (st : SawadaState)
    (t ℓ : Nat) (htn : t ≤ st.a.length)
    (hletters : ∀ i, i < t → st.a.getD i 0 < cnt.length)
    (hge : cnt.length ≤ ℓ) : (st.a.take t).count ℓ = 0 := by
  apply List.count_eq_zero.mpr
  intro hmem
  obtain ⟨i, hi, hgi⟩ := mem_to_getD _ _ hmem
  rw [List.length_take] at hi
  rw [getD_take' _ _ _ (by omega) (by omega)] at hgi
  have := hletters i (by omega)
  omega

theorem saw_emit_case (cnt : List Nat) (n : Nat) (st : SawadaState)
    (t p s : Nat) (inv : SawInv cnt n st t p s)
    (harity : 2 ≤ cnt.length)
    (hM : st.remContent.getD (cnt.length - 1) 0 = n - t) :
    (∀ w, ExtN cnt n (st.a.take t) w ↔ w = st.a ∧ IsNeck st.a) ∧
    (IsNeck st.a ↔
      ((st.remContent.getD (cnt.length - 1) 0 = st.runs.getD (t - p) 0 ∧
          n % p = 0) ∨
        st.remContent.getD (cnt.length - 1) 0 > st.runs.getD (t - p) 0)) := by
  have ht1 := inv.ht1
  have htn' := inv.htn
  have halen := inv.hlen
  have hpp := inv.hp
  have hs1 := inv.hs1
  have hst := inv.hst
  have hremlen := inv.hremlen
  have hαl : (st.a.take t).length = t := by
    rw [List.length_take]
    omega
  have hp1 : 1 ≤ perW (st.a.take t) := perW_ge_one _
  have hple : perW (st.a.take t) ≤ t := by
    have := perW_le (st.a.take t) (by omega)
    omega
  have hlast : st.a.getD (t - 1) 0 ≠ cnt.length - 1 :=
    fun h => absurd hM (inv.hlastM h)
  have hlastα : (st.a.take t).getD (t - 1) 0 ≠ cnt.length - 1 := by
    rw [getD_take' _ _ _ (by omega) (by omega)]
    exact hlast
  have hseq : s = t := by
    by_contra hne
    exact hlast (inv.hsM (t - 1) (by omega) (by omega))
  have hfillrep : st.a = st.a.take t
      ++ List.replicate (n - t) (cnt.length - 1) := by
    conv_lhs => rw [← List.take_append_drop t st.a]
    congr 1
    have := drop_eq_replicate_of st.a t (cnt.length - 1) (by omega)
      (fun i h1 h2 => inv.hfill i h1 (by omega))
    rw [this, halen]
  have hremzero : ∀ c, c < cnt.length → c ≠ cnt.length - 1 →
      st.remContent.getD c 0 = 0 := by
    intro c hc hcM
    have hpair := pair_le_sum st.remContent c (cnt.length - 1) hcM
      (by omega) (by omega)
    have hsum := inv.hsum
    omega
  have hαfull : ∀ c, c < cnt.length → c ≠ cnt.length - 1 →
      (st.a.take t).count c = cnt.getD c 0 := by
    intro c hc hcM
    have h1 := inv.hrem c
    have h2 := inv.hcount c
    have h3 := hremzero c hc hcM
    omega
  have hcnt_a : ∀ ℓ, st.a.count ℓ = cnt.getD ℓ 0 := by
    intro ℓ
    conv_lhs => rw [hfillrep]
    rw [List.count_append, List.count_replicate]
    by_cases hℓM : ℓ = cnt.length - 1
    · rw [if_pos (by simp [hℓM])]
      have h1 := inv.hrem (cnt.length - 1)
      have h2 := inv.hcount (cnt.length - 1)
      rw [hℓM]
      omega
    · rw [if_neg (by simp; omega), Nat.add_zero]
      by_cases hℓlt : ℓ < cnt.length
      · exact hαfull ℓ hℓlt hℓM
      · rw [count_take_zero_of_ge cnt st t ℓ (by omega) inv.hletters
          (by omega), List.getD_eq_default _ _ (by omega)]
  refine ⟨fun w => ?_, ?_⟩
  · constructor
    · rintro ⟨hneck, hwlen, hwcount, hwpre⟩
      have hother : ∀ c, c < cnt.length → c ≠ cnt.length - 1 →
          (st.a.take t).count c = cnt.getD c 0 := hαfull
      have hforced := forced_completion cnt (st.a.take t) w
        (cnt.length - 1) hwcount hwpre hother
      rw [hwlen, hαl] at hforced
      rw [← hfillrep] at hforced
      exact ⟨hforced, hforced ▸ hneck⟩
    · rintro ⟨hw, hneckA⟩
      subst hw
      exact ⟨hneckA, by omega, hcnt_a, List.take_prefix t st.a⟩
  · have hruns_read : st.runs.getD (t - p) 0
        = runlenW (st.a.take t) (cnt.length - 1) (t - p) := by
      apply inv.hruns (t - p) (by omega)
      by_cases hpt : p = t
      · exact Or.inl (by omega)
      · right
        have hwp := perW_holds (st.a.take t) (by omega) (t - 1)
          (by omega) (by rw [← hpp]; omega)
        rw [← hpp] at hwp
        rw [← getD_take' st.a t (t - p - 1) (by omega) (by omega)]
        rw [show t - p - 1 = t - 1 - p by omega, ← hwp]
        exact hlastα
    have hchar := sawada_emit_char (st.a.take t) (cnt.length - 1) (n - t)
      (by omega) inv.hpre
      (by rw [getD_take' _ _ _ (by omega) (by omega)]; exact inv.h0)
      (by omega)
      (fun i hi => by
        rw [hαl] at hi
        rw [getD_take' _ _ _ (by omega) (by omega)]
        have := inv.hletters i hi
        omega)
      (by rw [hαl]; exact hlastα)
    rw [hαl, ← hpp] at hchar
    rw [show t + (n - t) = n by omega] at hchar
    constructor
    · intro hneck
      rw [hfillrep] at hneck
      rcases hchar.mp hneck with ⟨h1, h2⟩ | h1
      · exact Or.inl ⟨by rw [hM, hruns_read, h1], h2⟩
      · exact Or.inr (by rw [hM, hruns_read]; omega)
    · intro hcond
      rw [hfillrep]
      apply hchar.mpr
      rw [hM, hruns_read] at hcond
      rcases hcond with ⟨h1, h2⟩ | h1
      · exact Or.inl ⟨h1, h2⟩
      · exact Or.inr (by omega)

theorem saw_prune_case (cnt : List Nat) (n : Nat) (st : SawadaState)
    (t p s : Nat) (inv : SawInv cnt n st t p s)
    (harity : 2 ≤ cnt.length)
    (hpos : ∀ c, c < cnt.length → 1 ≤ cnt.getD c 0)
    (hMne : st.remContent.getD (cnt.length - 1) 0 ≠ n - t)
    (h0eq : st.remContent.getD 0 0 = n - t) :
    ∀ w, ¬ ExtN cnt n (st.a.take t) w := by
  have ht1 := inv.ht1
  have htn' := inv.htn
  have halen := inv.hlen
  have hremlen := inv.hremlen
  have hsum := inv.hsum
  have hαl : (st.a.take t).length = t := by
    rw [List.length_take]
    omega
  have htlt : t < n := by
    by_contra hc
    have h1 := getD_le_sum st.remContent (cnt.length - 1)
    omega
  have hremzero : ∀ c, c < cnt.length → c ≠ 0 →
      st.remContent.getD c 0 = 0 := by
    intro c hc hc0
    have hpair := pair_le_sum st.remContent 0 c (fun he => hc0 he.symm)
      (by omega) (by omega)
    omega
  rintro w ⟨hneck, hwlen, hwcount, hwpre⟩
  have hother : ∀ c, c < cnt.length → c ≠ 0 →
      (st.a.take t).count c = cnt.getD c 0 := by
    intro c hc hc0
    have h1 := inv.hrem c
    have h2 := inv.hcount c
    have h3 := hremzero c hc hc0
    omega
  have hforced := forced_completion cnt (st.a.take t) w 0
    hwcount hwpre hother
  rw [hwlen, hαl] at hforced
  have hzlast : w.getD (w.length - 1) 0 = 0 := by
    rw [hwlen, hforced]
    rw [getD_append_right' _ _ _ (by rw [hαl]; omega) (by simp; omega)]
    rw [hαl]
    exact getD_replicate' 0 (n - t) (n - 1 - t) (by omega)
  have hMw : cnt.length - 1 ∈ w := by
    apply List.count_pos_iff.mp
    rw [hwcount]
    exact hpos (cnt.length - 1) (by omega)
  obtain ⟨i, hi, hgi⟩ := mem_to_getD w _ hMw
  exact neck_no_trailing_zero w (by omega) hneck hzlast
    ⟨i, hi, by rw [hgi]; omega⟩

/-- One iteration of the candidate-letter `while` loop of `sawadaMut`
(the fold function of the embedding, named for the correctness proof). -/
def sawStep (cnt : List Nat) (n fuel t p s : Nat)
    (cur : SawadaState) (j : Nat) : SawadaState :=
  let runs2 := cur.runs.set s (t - s)
  let wasLastOfKind := cur.remContent.getD j 0 = 1
  let avail2 := if wasLastOfKind then cur.availLetters.erase j
    else cur.availLetters
  let rem2 := cur.remContent.set j (cur.remContent.getD j 0 - 1)
  let a2 := cur.a.set t j
  let deep := sawadaMut cnt.length n fuel
    { remContent := rem2, runs := runs2, availLetters := avail2,
      a := a2, coll := cur.coll }
    (t + 1)
    (if j = a2.getD (t - p) 0 then p else t + 1)
    (if j = cnt.length - 1 then s else t + 1)
  { deep with
    availLetters := if wasLastOfKind then insortDesc j deep.availLetters
      else deep.availLetters,
    remContent := deep.remContent.set j (deep.remContent.getD j 0 + 1) }

/-- Postcondition of a `sawadaMut` call: the collection grows by exactly the
decreasing list of necklaces extending the current prefix, and the mutable
state is restored (runs only below `s`). -/
def SawPost (cnt : List Nat) (n s : Nat) (α : List Nat)
    (base res : SawadaState) : Prop :=
  ∃ L, res.coll = base.coll ++ L ∧
    (∀ w, w ∈ L ↔ ExtN cnt n α w) ∧
    L.Pairwise (fun x y => 0 < compareArrays x y) ∧
    res.remContent = base.remContent ∧
    res.availLetters = base.availLetters ∧
    res.a = base.a ∧
    res.runs.length = n ∧
    (∀ x, x < s → res.runs.getD x 0 = base.runs.getD x 0)

theorem saw_fold_spec (cnt : List Nat) (n : Nat)
    (harity : 2 ≤ cnt.length)
    (fuel t p s : Nat) (st : SawadaState)
    (inv : SawInv cnt n st t p s)
    (htlt : t < n)
    (hMne : st.remContent.getD (cnt.length - 1) 0 ≠ n - t)
    (IH : ∀ t' p' s' st', SawInv cnt n st' t' p' s' →
      n + 1 ≤ fuel + t' →
      SawPost cnt n s' (st'.a.take t') st'
        (sawadaMut cnt.length n fuel st' t' p' s'))
    (hfuel : n ≤ fuel + t) :
    ∀ js : List Nat, js.Pairwise (fun x y => y < x) →
      (∀ j, j ∈ js → j < cnt.length ∧
        (st.a.take t).count j < cnt.getD j 0 ∧
        st.a.getD (t - p) 0 ≤ j) →
      ∀ cur : SawadaState, cur.remContent = st.remContent →
        cur.availLetters = st.availLetters →
        cur.a.length = n →
        (∀ i, i ≠ t → cur.a.getD i 0 = st.a.getD i 0) →
        cur.runs.length = n →
        (∀ x, x < s → cur.runs.getD x 0 = st.runs.getD x 0) →
        ∃ L, (js.foldl (sawStep cnt n fuel t p s) cur).coll
            = cur.coll ++ L ∧
          (∀ w, w ∈ L ↔ ∃ j ∈ js, ExtN cnt n (st.a.take t ++ [j]) w) ∧
          L.Pairwise (fun x y => 0 < compareArrays x y) ∧
          (js.foldl (sawStep cnt n fuel t p s) cur).remContent
            = st.remContent ∧
          (js.foldl (sawStep cnt n fuel t p s) cur).availLetters
            = st.availLetters ∧
          (js.foldl (sawStep cnt n fuel t p s) cur).a.length = n ∧
          (∀ i, i ≠ t →
            (js.foldl (sawStep cnt n fuel t p s) cur).a.getD i 0
              = st.a.getD i 0) ∧
          (js.foldl (sawStep cnt n fuel t p s) cur).runs.length = n ∧
          (∀ x, x < s →
            (js.foldl (sawStep cnt n fuel t p s) cur).runs.getD x 0
              = st.runs.getD x 0) := by
  intro js
  induction js with
  | nil =>
    intro _ _ cur h1 h2 h3 h4 h5 h6
    exact ⟨[], by simp, by simp, List.Pairwise.nil, h1, h2, h3, h4, h5, h6⟩
  | cons j js' ih =>
    intro hpair hconds cur h1 h2 h3 h4 h5 h6
    have ht1 := inv.ht1
    have htn' := inv.htn
    have halen := inv.hlen
    have hremlen := inv.hremlen
    have hpp := inv.hp
    have hp1 : 1 ≤ perW (st.a.take t) := perW_ge_one _
    have hs1 := inv.hs1
    have hst := inv.hst
    have hαl : (st.a.take t).length = t := by
      rw [List.length_take]
      omega
    rcases List.pairwise_cons.mp hpair with ⟨hdj, hpair'⟩
    have hj := hconds j (List.mem_cons_self _ _)
    have hconds' : ∀ x, x ∈ js' → x < cnt.length ∧
        (st.a.take t).count x < cnt.getD x 0 ∧
        st.a.getD (t - p) 0 ≤ x :=
      fun x hx => hconds x (List.mem_cons_of_mem _ hx)
    have hcat : cur.a.take t = st.a.take t := by
      apply ext_getD
      · simp [h3, halen]
      · intro i hi
        rw [List.length_take] at hi
        rw [getD_take' _ _ _ (by omega) (by omega),
          getD_take' _ _ _ (by omega) (by omega)]
        exact h4 i (by omega)
    have hjpos : 1 ≤ st.remContent.getD j 0 := by
      rw [inv.hrem j]
      have := inv.hcount j
      omega
    obtain ⟨child, hchilddef⟩ : ∃ c : SawadaState,
        c = { remContent := cur.remContent.set j
                (cur.remContent.getD j 0 - 1),
              runs := cur.runs.set s (t - s),
              availLetters := if cur.remContent.getD j 0 = 1
                then cur.availLetters.erase j else cur.availLetters,
              a := cur.a.set t j, coll := cur.coll } := ⟨_, rfl⟩
    obtain ⟨pch, hpchdef⟩ : ∃ q,
        q = (if j = (cur.a.set t j).getD (t - p) 0 then p else t + 1) :=
      ⟨_, rfl⟩
    obtain ⟨sch, hschdef⟩ : ∃ q,
        q = (if j = cnt.length - 1 then s else t + 1) := ⟨_, rfl⟩
    have hchildinv : SawInv cnt n child (t + 1) pch sch := by
      rw [hchilddef, hpchdef, hschdef]
      exact saw_child_inv cnt n st t p s inv harity htlt hMne
        cur h1 h2 h3 h4 h5 h6 j hj.1 hj.2.1 hj.2.2
    obtain ⟨Lc, hdcoll, hdmem, hdpair, hdrem, hdavail, hda, hdrl, hdruns⟩ :=
      IH (t + 1) pch sch child hchildinv (by omega)
    obtain ⟨deep, hdeepdef⟩ : ∃ d,
        d = sawadaMut cnt.length n fuel child (t + 1) pch sch := ⟨_, rfl⟩
    rw [← hdeepdef] at hdcoll hdrem hdavail hda hdrl hdruns
    have hα'c : child.a.take (t + 1) = st.a.take t ++ [j] := by
      rw [hchilddef]
      show (cur.a.set t j).take (t + 1) = st.a.take t ++ [j]
      rw [take_set_succ' _ _ _ (by omega), hcat]
    rw [hα'c] at hdmem
    have hccoll : child.coll = cur.coll := by
      rw [hchilddef]
    have hstep : sawStep cnt n fuel t p s cur j
        = { deep with
            availLetters := if cur.remContent.getD j 0 = 1
              then insortDesc j deep.availLetters else deep.availLetters,
            remContent := deep.remContent.set j
              (deep.remContent.getD j 0 + 1) } := by
      rw [hdeepdef, hchilddef, hpchdef, hschdef]
      rfl
    rw [List.foldl_cons, hstep]
    have hcrem : child.remContent
        = cur.remContent.set j (cur.remContent.getD j 0 - 1) := by
      rw [hchilddef]
    have hnrem : ({ deep with
        availLetters := if cur.remContent.getD j 0 = 1
          then insortDesc j deep.availLetters else deep.availLetters,
        remContent := deep.remContent.set j
          (deep.remContent.getD j 0 + 1) } : SawadaState).remContent
        = st.remContent := by
      show deep.remContent.set j (deep.remContent.getD j 0 + 1)
        = st.remContent
      rw [hdrem, hcrem]
      rw [getD_set_self_nat _ _ _ (by rw [h1]; omega)]
      rw [List.set_set, h1]
      rw [show st.remContent.getD j 0 - 1 + 1 = st.remContent.getD j 0
        by omega]
      exact set_getD_self' _ _ _ rfl
    have hcavail : child.availLetters
        = (if cur.remContent.getD j 0 = 1
          then cur.availLetters.erase j else cur.availLetters) := by
      rw [hchilddef]
    have hnavail : ({ deep with
        availLetters := if cur.remContent.getD j 0 = 1
          then insortDesc j deep.availLetters else deep.availLetters,
        remContent := deep.remContent.set j
          (deep.remContent.getD j 0 + 1) } : SawadaState).availLetters
        = st.availLetters := by
      show (if cur.remContent.getD j 0 = 1
        then insortDesc j deep.availLetters else deep.availLetters)
        = st.availLetters
      by_cases hwl : cur.remContent.getD j 0 = 1
      · rw [if_pos hwl, hdavail, hcavail, if_pos hwl, h2, inv.havail]
        rw [h1] at hwl
        have hlastj : (st.a.take t).count j + 1 = cnt.getD j 0 := by
          have := inv.hrem j
          have := inv.hcount j
          omega
        rw [← availCanon_append_last cnt (st.a.take t) j hlastj]
        show insortDesc j (availCanon cnt (st.a.take t ++ [j]))
          = availCanon cnt (st.a.take t)
        unfold availCanon
        apply insortDesc_restore
        · rw [List.pairwise_reverse]
          exact List.pairwise_lt_range _
        · simp
          exact hj.1
        · apply decide_eq_false
          rw [count_append_singleton, if_pos rfl]
          omega
        · exact decide_eq_true hj.2.1
        · intro c hc
          rw [count_append_singleton, if_neg (fun he => hc he.symm),
            Nat.add_zero]
      · rw [if_neg hwl, hdavail, hcavail, if_neg hwl, h2]
    have hna : ({ deep with
        availLetters := if cur.remContent.getD j 0 = 1
          then insortDesc j deep.availLetters else deep.availLetters,
        remContent := deep.remContent.set j
          (deep.remContent.getD j 0 + 1) } : SawadaState).a
        = cur.a.set t j := by
      show deep.a = cur.a.set t j
      rw [hda, hchilddef]
    obtain ⟨L', hfcoll, hfmem, hfpair, hfrem, hfavail, hfal, hfaoff,
        hfrl, hfruns⟩ :=
      ih hpair' hconds'
        ({ deep with
          availLetters := if cur.remContent.getD j 0 = 1
            then insortDesc j deep.availLetters else deep.availLetters,
          remContent := deep.remContent.set j
            (deep.remContent.getD j 0 + 1) })
        hnrem hnavail
        (by rw [hna, List.length_set]; exact h3)
        (fun i hi => by
          rw [hna, getD_set_ne_nat _ _ _ _ (fun he => hi he.symm)]
          exact h4 i hi)
        (by show deep.runs.length = n; exact hdrl)
        (fun x hx => by
          show deep.runs.getD x 0 = st.runs.getD x 0
          have hxs : x < sch := by
            rw [hschdef]
            by_cases hc : j = cnt.length - 1
            · rw [if_pos hc]; omega
            · rw [if_neg hc]; omega
          rw [hdruns x hxs, hchilddef]
          show (cur.runs.set s (t - s)).getD x 0 = st.runs.getD x 0
          rw [getD_set_ne_nat _ _ _ _ (by omega)]
          exact h6 x hx)
    refine ⟨Lc ++ L', ?_, ?_, ?_, hfrem, hfavail, hfal, hfaoff,
      hfrl, hfruns⟩
    · rw [hfcoll]
      show deep.coll ++ L' = cur.coll ++ (Lc ++ L')
      rw [hdcoll, hccoll, List.append_assoc]
    · intro w
      rw [List.mem_append]
      constructor
      · rintro (hw | hw)
        · exact ⟨j, List.mem_cons_self _ _, (hdmem w).mp hw⟩
        · obtain ⟨j', hj', he⟩ := (hfmem w).mp hw
          exact ⟨j', List.mem_cons_of_mem _ hj', he⟩
      · rintro ⟨j', hj'mem, he⟩
        rcases List.mem_cons.mp hj'mem with hje | hje
        · left
          rw [hje] at he
          exact (hdmem w).mpr he
        · right
          exact (hfmem w).mpr ⟨j', hje, he⟩
    · rw [List.pairwise_append]
      refine ⟨hdpair, hfpair, ?_⟩
      intro w1 hw1 w2 hw2
      have he1 := (hdmem w1).mp hw1
      obtain ⟨j', hj', he2⟩ := (hfmem w2).mp hw2
      exact ext_cross_lt (st.a.take t) j j' w1 w2 (hdj j' hj')
        he1.2.2.2 he2.2.2.2 (by rw [he1.2.1, he2.2.1])

theorem sawadaMut_spec (cnt : List Nat) (n : Nat)
    (harity : 2 ≤ cnt.length)
    (hpos : ∀ c, c < cnt.length → 1 ≤ cnt.getD c 0) :
    ∀ fuel t p s st, SawInv cnt n st t p s → n + 1 ≤ fuel + t →
      SawPost cnt n s (st.a.take t) st
        (sawadaMut cnt.length n fuel st t p s) := by
  intro fuel
  induction fuel with
  | zero =>
    intro t p s st inv hb
    have := inv.htn
    exact absurd hb (by omega)
  | succ fuel ihf =>
    intro t p s st inv hb
    have htn' := inv.htn
    have halen := inv.hlen
    have hremlen := inv.hremlen
    unfold sawadaMut
    by_cases hM : st.remContent.getD (cnt.length - 1) 0 = n - t
    · rw [if_pos hM]
      obtain ⟨hmem, hneckiff⟩ := saw_emit_case cnt n st t p s inv harity hM
      by_cases hcond : (st.remContent.getD (cnt.length - 1) 0
            = st.runs.getD (t - p) 0 ∧ n % p = 0) ∨
          st.remContent.getD (cnt.length - 1) 0 > st.runs.getD (t - p) 0
      · rw [if_pos hcond]
        refine ⟨[st.a], rfl, ?_, ?_, rfl, rfl, rfl, inv.hrunslen,
          fun x _ => rfl⟩
        · intro w
          rw [hmem w]
          simp only [List.mem_singleton]
          constructor
          · intro hw
            exact ⟨hw, hneckiff.mpr hcond⟩
          · rintro ⟨hw, _⟩
            exact hw
        · simp
      · rw [if_neg hcond]
        refine ⟨[], by simp, ?_, List.Pairwise.nil, rfl, rfl, rfl,
          inv.hrunslen, fun x _ => rfl⟩
        intro w
        simp only [List.not_mem_nil, false_iff]
        intro hext
        obtain ⟨_, hneckA⟩ := (hmem w).mp hext
        exact hcond (hneckiff.mp hneckA)
    · rw [if_neg hM]
      by_cases h0 : st.remContent.getD 0 0 = n - t
      · rw [if_neg (not_not_intro h0)]
        refine ⟨[], by simp, ?_, List.Pairwise.nil, rfl, rfl, rfl,
          inv.hrunslen, fun x _ => rfl⟩
        intro w
        simp only [List.not_mem_nil, false_iff]
        exact saw_prune_case cnt n st t p s inv harity hpos hM h0 w
      · rw [if_pos h0]
        have htlt : t < n := by
          by_contra hc
          have hsum := inv.hsum
          have h1 := getD_le_sum st.remContent (cnt.length - 1)
          omega
        dsimp only
        have hsorted : st.availLetters.Pairwise (fun x y => y < x) := by
          rw [inv.havail]
          exact availCanon_sorted _ _
        have hjsconds : ∀ j, j ∈ st.availLetters.takeWhile
            (fun j => j ≥ st.a.getD (t - p) 0) →
            j < cnt.length ∧ (st.a.take t).count j < cnt.getD j 0 ∧
            st.a.getD (t - p) 0 ≤ j := by
          intro j hjm
          rw [mem_takeWhile_ge _ _ hsorted] at hjm
          obtain ⟨hmem', hge⟩ := hjm
          rw [inv.havail, mem_availCanon] at hmem'
          exact ⟨hmem'.1, hmem'.2, hge⟩
        have hjspair : (st.availLetters.takeWhile
            (fun j => j ≥ st.a.getD (t - p) 0)).Pairwise
            (fun x y => y < x) :=
          hsorted.sublist (List.takeWhile_sublist _)
        obtain ⟨L, hfc, hfm, hfp, hfr, hfav, hfal, hfaoff, hfrl, hfruns⟩ :=
          saw_fold_spec cnt n harity fuel t p s st inv htlt hM ihf
            (by omega)
            (st.availLetters.takeWhile (fun j => j ≥ st.a.getD (t - p) 0))
            hjspair hjsconds st rfl rfl halen (fun i _ => rfl)
            inv.hrunslen (fun x _ => rfl)
        have hseta : (List.foldl (sawStep cnt n fuel t p s) st
            (st.availLetters.takeWhile
              (fun j => j ≥ st.a.getD (t - p) 0))).a.set t
            (cnt.length - 1) = st.a := by
          apply ext_getD
          · rw [List.length_set, hfal, halen]
          · intro i hi
            by_cases hit : i = t
            · rw [hit, getD_set_self_nat _ _ _ (by rw [hfal]; omega)]
              exact (inv.hfill t (le_refl t) htlt).symm
            · rw [getD_set_ne_nat _ _ _ _ (fun he => hit he.symm)]
              exact hfaoff i hit
        refine ⟨L, hfc, ?_, hfp, hfr, hfav, hseta, hfrl, hfruns⟩
        intro w
        rw [hfm w]
        exact (ext_node_iff cnt n st t p s inv htlt w).symm

theorem compare_map_le_iff (f : Nat → Nat) (P : Nat → Prop)
    (hmono : ∀ a b, P a → P b → a < b → f a < f b) :
    ∀ (a b : List Nat), a.length = b.length →
      (∀ x ∈ a, P x) → (∀ x ∈ b, P x) →
      (compareArrays (a.map f) (b.map f) ≤ 0 ↔ compareArrays a b ≤ 0) := by
  intro a
  induction a with
  | nil =>
    intro b hlen _ _
    cases b with
    | nil => simp
    | cons y ys => simp at hlen
  | cons x xs ih =>
    intro b hlen hPa hPb
    cases b with
    | nil => simp at hlen
    | cons y ys =>
      have hPx : P x := hPa x (List.mem_cons_self _ _)
      have hPy : P y := hPb y (List.mem_cons_self _ _)
      show compareArrays (f x :: xs.map f) (f y :: ys.map f) ≤ 0 ↔ _
      unfold compareArrays
      by_cases hxy : x < y
      · rw [if_pos hxy, if_pos (hmono x y hPx hPy hxy)]
      · rw [if_neg hxy]
        by_cases hyx : y < x
        · rw [if_pos hyx, if_neg (by
            intro hc
            have := hmono y x hPy hPx hyx
            omega), if_pos (hmono y x hPy hPx hyx)]
        · have hxe : x = y := by omega
          rw [if_neg hyx, if_neg (by subst hxe; omega),
            if_neg (by subst hxe; omega)]
          exact ih ys (by simpa using hlen)
            (fun z hz => hPa z (List.mem_cons_of_mem _ hz))
            (fun z hz => hPb z (List.mem_cons_of_mem _ hz))

theorem compare_map_pos_iff (f : Nat → Nat) (P : Nat → Prop)
    (hmono : ∀ a b, P a → P b → a < b → f a < f b)
    (a b : List Nat) (hlen : a.length = b.length)
    (hPa : ∀ x ∈ a, P x) (hPb : ∀ x ∈ b, P x) :
    (0 < compareArrays (a.map f) (b.map f) ↔ 0 < compareArrays a b) := by
  rw [← Int.not_le, ← Int.not_le]
  exact not_congr (compare_map_le_iff f P hmono a b hlen hPa hPb)

theorem rotate_map (f : Nat → Nat) (w : List Nat) (r : Int) :
    rotate (w.map f) r = (rotate w r).map f := by
  unfold rotate
  rw [List.length_map]
  by_cases h0 : w.length = 0
  · rw [if_pos h0, if_pos h0]
  · rw [if_neg h0, if_neg h0]
    by_cases hn : (jsMod r ↑w.length).toNat = 0
    · rw [if_pos hn, if_pos hn]
    · rw [if_neg hn, if_neg hn]
      rw [List.map_append, List.map_drop, List.map_take]

theorem mem_rotate_sub (w : List Nat) (r : Int) (x : Nat)
    (h : x ∈ rotate w r) : x ∈ w := by
  unfold rotate at h
  by_cases h0 : w.length = 0
  · rw [if_pos h0] at h
    exact h
  · rw [if_neg h0] at h
    by_cases hn : (jsMod r ↑w.length).toNat = 0
    · rw [if_pos hn] at h
      exact h
    · rw [if_neg hn] at h
      rcases List.mem_append.mp h with h1 | h1
      · exact List.mem_of_mem_drop h1
      · exact List.mem_of_mem_take h1

theorem isNeck_map_iff (f : Nat → Nat) (P : Nat → Prop)
    (hmono : ∀ a b, P a → P b → a < b → f a < f b)
    (w : List Nat) (hP : ∀ x ∈ w, P x) :
    IsNeck (w.map f) ↔ IsNeck w := by
  unfold IsNeck
  rw [List.length_map]
  constructor
  · intro h i hi
    have := h i hi
    rw [rotate_map] at this
    exact (compare_map_le_iff f P hmono w (rotate w (i : Int))
      (by rw [rotate_len]) hP
      (fun x hx => hP x (mem_rotate_sub w _ x hx))).mp this
  · intro h i hi
    have := h i hi
    rw [rotate_map]
    exact (compare_map_le_iff f P hmono w (rotate w (i : Int))
      (by rw [rotate_len]) hP
      (fun x hx => hP x (mem_rotate_sub w _ x hx))).mpr this

theorem count_map_inj_on (f : Nat → Nat) (P : Nat → Prop)
    (hinj : ∀ a b, P a → P b → f a = f b → a = b)
    (w : List Nat) (hP : ∀ x ∈ w, P x) (c : Nat) (hc : P c) :
    (w.map f).count (f c) = w.count c := by
  induction w with
  | nil => rfl
  | cons x xs ih =>
    have hPx : P x := hP x (List.mem_cons_self _ _)
    show ((f x :: xs.map f).count (f c)) = _
    rw [List.count_cons, List.count_cons]
    rw [ih (fun z hz => hP z (List.mem_cons_of_mem _ hz))]
    congr 1
    by_cases hxc : x = c
    · subst hxc
      simp
    · rw [if_neg (by
        simp only [beq_iff_eq]
        intro hfc
        exact hxc (hinj x c hPx hc hfc)), if_neg (by simpa using hxc)]

theorem count_map_zero (f : Nat → Nat) (P : Nat → Prop)
    (w : List Nat) (hP : ∀ x ∈ w, P x) (d : Nat)
    (hd : ∀ x, P x → f x ≠ d) : (w.map f).count d = 0 := by
  apply List.count_eq_zero.mpr
  intro hmem
  obtain ⟨x, hx, hfx⟩ := List.mem_map.mp hmem
  exact hd x (hP x hx) hfx

theorem getD_map' (f : Nat → Nat) (l : List Nat) (i : Nat)
    (h : i < l.length) : (l.map f).getD i 0 = f (l.getD i 0) := by
  rw [List.getD_eq_getElem _ _ (by simpa using h),
    List.getD_eq_getElem _ _ h, List.getElem_map]

theorem pairwise_getD_lt (l : List Nat) (h : l.Pairwise (· < ·))
    (a b : Nat) (hab : a < b) (hb : b < l.length) :
    l.getD a 0 < l.getD b 0 := by
  rw [List.getD_eq_getElem _ _ (by omega), List.getD_eq_getElem _ _ hb]
  exact List.pairwise_iff_getElem.mp h a b (by omega) hb hab

theorem foldl_add_sum (l : List Nat) : ∀ a : Nat,
    l.foldl (· + ·) a = a + l.sum := by
  induction l with
  | nil => intro a; simp
  | cons x xs ih =>
    intro a
    rw [List.foldl_cons, ih (a + x), List.sum_cons]
    omega

theorem map_getD_range (content : List Nat) :
    (List.range content.length).map (fun i => content.getD i 0)
      = content := by
  apply ext_getD
  · simp
  · intro i hi
    rw [getD_range_map _ _ _ hi]

theorem sum_filter_map_eq (l : List Nat) (g : Nat → Nat) (Q : Nat → Bool)
    (hz : ∀ x ∈ l, Q x = false → g x = 0) :
    ((l.filter Q).map g).sum = (l.map g).sum := by
  induction l with
  | nil => rfl
  | cons x xs ih =>
    rw [List.filter_cons]
    by_cases hQ : Q x = true
    · rw [if_pos hQ]
      show (g x :: (xs.filter Q).map g).sum = (g x :: xs.map g).sum
      rw [List.sum_cons, List.sum_cons,
        ih (fun z hz2 => hz z (List.mem_cons_of_mem _ hz2))]
    · rw [if_neg hQ]
      show ((xs.filter Q).map g).sum = (g x :: xs.map g).sum
      rw [List.sum_cons, ih (fun z hz2 => hz z (List.mem_cons_of_mem _ hz2)),
        hz x (List.mem_cons_self _ _) (by simpa using hQ)]
      omega

theorem prefix_zero_of_first (w : List Nat) (h0 : 0 < w.length)
    (hz : w.getD 0 0 = 0) : [0] <+: w := by
  cases w with
  | nil => simp at h0
  | cons x rest =>
    have : x = 0 := by simpa using hz
    subst this
    exact ⟨rest, rfl⟩

theorem compare_self_le (a : List Nat) : compareArrays a a ≤ 0 := by
  apply compareArrays_le_zero_of a a rfl
  exact Or.inl (fun i _ => rfl)

theorem rotate_replicate (n x : Nat) (r : Int) :
    rotate (List.replicate n x) r = List.replicate n x := by
  unfold rotate
  by_cases h0 : (List.replicate n x).length = 0
  · rw [if_pos h0]
  · rw [if_neg h0]
    by_cases hn : (jsMod r ↑(List.replicate n x).length).toNat = 0
    · rw [if_pos hn]
    · rw [if_neg hn]
      rw [List.drop_replicate, List.take_replicate]
      rw [← List.replicate_add]
      congr 1
      have hlt : (jsMod r ↑(List.replicate n x).length).toNat
          ≤ n := by
        simp only [List.length_replicate] at h0 ⊢
        have := jsMod_nonneg_lt r (n : Int) (by omega)
        omega
      simp only [List.length_replicate] at hlt
      omega

theorem isNeck_replicate (n x : Nat) : IsNeck (List.replicate n x) := by
  intro i _
  rw [rotate_replicate]
  exact compare_self_le _

theorem saw_init_inv (cnt : List Nat) (harity : 2 ≤ cnt.length)
    (hpos : ∀ c, c < cnt.length → 1 ≤ cnt.getD c 0) :
    SawInv cnt cnt.sum
      { remContent := cnt.set 0 (cnt.getD 0 0 - 1),
        runs := List.replicate cnt.sum 0,
        availLetters := ((List.range cnt.length).reverse).filter
          (fun i => !(i == 0 &&
            (cnt.set 0 (cnt.getD 0 0 - 1)).getD 0 0 == 0)),
        a := 0 :: List.replicate (cnt.sum - 1) (cnt.length - 1),
        coll := [] } 1 1 1 := by
  have hn2 : 2 ≤ cnt.sum := by
    have h01 := pair_le_sum cnt 0 1 (by omega) (by omega) (by omega)
    have h0 := hpos 0 (by omega)
    have h1 := hpos 1 (by omega)
    omega
  have hc0 : 1 ≤ cnt.getD 0 0 := hpos 0 (by omega)
  have hα : (0 :: List.replicate (cnt.sum - 1) (cnt.length - 1)).take 1
      = [0] := rfl
  have hset0 : (cnt.set 0 (cnt.getD 0 0 - 1)).getD 0 0
      = cnt.getD 0 0 - 1 := getD_set_self_nat _ _ _ (by omega)
  constructor
  · omega
  · omega
  · show (0 :: List.replicate (cnt.sum - 1) (cnt.length - 1)).length
      = cnt.sum
    simp only [List.length_cons, List.length_replicate]
    omega
  · show 1 = perW ((0 :: List.replicate (cnt.sum - 1)
      (cnt.length - 1)).take 1)
    rw [hα]
    have h1 : perW ([0] : List Nat) ≤ 1 := by
      have := perW_le ([0] : List Nat) (by simp)
      simpa using this
    have h2 := perW_ge_one ([0] : List Nat)
    omega
  · show isPre ((0 :: List.replicate (cnt.sum - 1)
      (cnt.length - 1)).take 1)
    rw [hα]
    intro i hi hi1
    simp at hi
    omega
  · rfl
  · intro i hi
    show (0 :: List.replicate (cnt.sum - 1) (cnt.length - 1)).getD i 0
      < cnt.length
    have : i = 0 := by omega
    subst this
    show (0 : Nat) < cnt.length
    omega
  · intro i hi1 hi2
    show (0 :: List.replicate (cnt.sum - 1) (cnt.length - 1)).getD i 0
      = cnt.length - 1
    obtain ⟨i', rfl⟩ : ∃ i', i = i' + 1 := ⟨i - 1, by omega⟩
    rw [List.getD_cons_succ]
    exact getD_replicate' _ _ _ (by omega)
  · omega
  · omega
  · intro y hy1 hy2
    omega
  · show (0 :: List.replicate (cnt.sum - 1) (cnt.length - 1)).getD 0 0
      ≠ cnt.length - 1
    show (0 : Nat) ≠ cnt.length - 1
    omega
  · show (cnt.set 0 (cnt.getD 0 0 - 1)).length = cnt.length
    rw [List.length_set]
  · intro c
    show ((0 :: List.replicate (cnt.sum - 1)
      (cnt.length - 1)).take 1).count c ≤ cnt.getD c 0
    rw [hα]
    by_cases hc : c = 0
    · subst hc
      rw [show ([0] : List Nat).count 0 = 1 by rfl]
      exact hc0
    · rw [show ([0] : List Nat).count c = 0 by
        apply List.count_eq_zero.mpr
        simp
        omega]
      omega
  · intro c
    show (cnt.set 0 (cnt.getD 0 0 - 1)).getD c 0
      = cnt.getD c 0 - ((0 :: List.replicate (cnt.sum - 1)
        (cnt.length - 1)).take 1).count c
    rw [hα]
    by_cases hc : c = 0
    · subst hc
      rw [hset0, show ([0] : List Nat).count 0 = 1 by rfl]
    · rw [getD_set_ne_nat _ _ _ _ (fun he => hc he.symm),
        show ([0] : List Nat).count c = 0 by
          apply List.count_eq_zero.mpr
          simp
          omega]
      omega
  · show (cnt.set 0 (cnt.getD 0 0 - 1)).sum + 1 = cnt.sum
    have := sum_set_nat cnt 0 (cnt.getD 0 0 - 1) (by omega)
    omega
  · show ((List.range cnt.length).reverse).filter
        (fun i => !(i == 0 &&
          (cnt.set 0 (cnt.getD 0 0 - 1)).getD 0 0 == 0))
      = availCanon cnt ((0 :: List.replicate (cnt.sum - 1)
        (cnt.length - 1)).take 1)
    rw [hα]
    unfold availCanon
    apply List.filter_congr
    intro c hcm
    have hclt : c < cnt.length := by
      rw [List.mem_reverse, List.mem_range] at hcm
      exact hcm
    by_cases hc : c = 0
    · subst hc
      rw [hset0]
      show (!(true && (cnt.getD 0 0 - 1 == 0))) = _
      rw [Bool.true_and]
      rw [show ([0] : List Nat).count 0 = 1 by rfl]
      by_cases h1 : cnt.getD 0 0 - 1 = 0
      · rw [decide_eq_false (by omega)]
        have h1' : (cnt.getD 0 0 - 1 == 0) = true := by simpa using h1
        rw [h1']
        rfl
      · rw [decide_eq_true (by omega)]
        have h1' : (cnt.getD 0 0 - 1 == 0) = false := by simpa using h1
        rw [h1']
        rfl
    · rw [show (c == 0) = false by simpa using hc, Bool.false_and]
      rw [show ([0] : List Nat).count c = 0 by
        apply List.count_eq_zero.mpr
        simp
        omega]
      rw [decide_eq_true (by have := hpos c hclt; omega)]
      rfl
  · show (List.replicate cnt.sum 0).length = cnt.sum
    rw [List.length_replicate]
  · intro x hx hguard
    have hx0 : x = 0 := by omega
    subst hx0
    show (List.replicate cnt.sum 0).getD 0 0
      = runlenW ((0 :: List.replicate (cnt.sum - 1)
        (cnt.length - 1)).take 1) (cnt.length - 1) 0
    rw [hα, getD_replicate' _ _ _ (by omega)]
    rw [runlen_exact [0] (cnt.length - 1) 0 0 (by omega) (by simp)
      (fun y hy1 hy2 => by omega)
      (Or.inr (by
        show (0 : Nat) ≠ cnt.length - 1
        omega))]
  · intro hlast
    exfalso
    have : (0 : Nat) = cnt.length - 1 := hlast
    omega

theorem rotate_zero' (w : List Nat) : rotate w (0 : Int) = w := by
  unfold rotate jsMod
  by_cases h : w.length = 0
  · rw [if_pos h]
  · rw [if_neg h]
    have hlen : (0 : Int) % ↑w.length = 0 := Int.zero_emod _
    rw [hlen, Int.zero_add, Int.emod_self]
    rfl

theorem extN_zero_iff (cnt : List Nat) (n : Nat) (hn : 1 ≤ n)
    (h0 : 1 ≤ cnt.getD 0 0) (w : List Nat) :
    ExtN cnt n [0] w ↔
      (IsNeck w ∧ w.length = n ∧ ∀ ℓ, w.count ℓ = cnt.getD ℓ 0) := by
  constructor
  · rintro ⟨hneck, hlen, hcount, _⟩
    exact ⟨hneck, hlen, hcount⟩
  · rintro ⟨hneck, hlen, hcount⟩
    refine ⟨hneck, hlen, hcount, ?_⟩
    apply prefix_zero_of_first w (by omega)
    have hmem : (0 : Nat) ∈ w := by
      apply List.count_pos_iff.mp
      rw [hcount 0]
      omega
    obtain ⟨i, hi, hgi⟩ := mem_to_getD w 0 hmem
    have := neck_first_le w (by omega) hneck i hi
    omega

theorem neck_unique_rot (w1 w2 : List Nat) (h1 : IsNeck w1) (h2 : IsNeck w2)
    (hlen : w1.length = w2.length) (hpos : 0 < w1.length)
    (r : Int) (hrot : rotate w1 r = w2) : w1 = w2 := by
  rw [rotate_int_reduce w1 hpos r] at hrot
  have hk := jsMod_nonneg_lt r ↑w1.length (by exact_mod_cast hpos)
  have hklt : (jsMod r ↑w1.length).toNat < w1.length := by omega
  by_cases hk0 : (jsMod r ↑w1.length).toNat = 0
  · rw [hk0] at hrot
    rw [show ((0 : Nat) : Int) = (0 : Int) by rfl, rotate_zero'] at hrot
    exact hrot
  · have hc1 : compareArrays w1 w2 ≤ 0 := by
      rw [← hrot]
      exact h1 _ hklt
    have hc2 : compareArrays w2 w1 ≤ 0 := by
      have hback : rotate w2
          ((w1.length - (jsMod r ↑w1.length).toNat : Nat) : Int) = w1 := by
        rw [← hrot, rotate_rotate_nat w1 hpos]
        rw [show (jsMod r ↑w1.length).toNat +
          (w1.length - (jsMod r ↑w1.length).toNat) = w1.length by omega]
        rw [rotate_nat_mod w1 hpos, Nat.mod_self]
        rw [show ((0 : Nat) : Int) = (0 : Int) by rfl, rotate_zero']
      rw [← hback]
      exact h2 _ (by rw [← hlen]; omega)
    exact compareArrays_antisymm w1 w2 hlen hc1 hc2


theorem saw_arity_one (x : Nat) (hx : 1 ≤ x) (A : List Nat) :
    (sawadaMut 1 x (x + 1)
      { remContent := [x - 1], runs := List.replicate x 0,
        availLetters := A, a := 0 :: List.replicate (x - 1) 0,
        coll := [] } 1 1 1).coll = [0 :: List.replicate (x - 1) 0] := by
  unfold sawadaMut
  rw [if_pos (by
    show ([x - 1] : List Nat).getD (1 - 1) 0 = x - 1
    rfl)]
  rw [if_pos (by
    show (([x - 1] : List Nat).getD (1 - 1) 0
        = (List.replicate x 0).getD (1 - 1) 0 ∧ x % 1 = 0) ∨
      ([x - 1] : List Nat).getD (1 - 1) 0
        > (List.replicate x 0).getD (1 - 1) 0
    rw [getD_replicate' 0 x (1 - 1) (by omega)]
    show (x - 1 = 0 ∧ x % 1 = 0) ∨ x - 1 > 0
    by_cases hx1 : x = 1
    · exact Or.inl ⟨by omega, by omega⟩
    · exact Or.inr (by omega))]
  simp

theorem saw_top (cnt : List Nat) (harity1 : 1 ≤ cnt.length)
    (hpos : ∀ c, c < cnt.length → 1 ≤ cnt.getD c 0) :
    (∀ w, w ∈ (sawadaMut cnt.length cnt.sum (cnt.sum + 1)
        { remContent := cnt.set 0 (cnt.getD 0 0 - 1),
          runs := List.replicate cnt.sum 0,
          availLetters := ((List.range cnt.length).reverse).filter
            (fun i => !(i == 0 &&
              (cnt.set 0 (cnt.getD 0 0 - 1)).getD 0 0 == 0)),
          a := 0 :: List.replicate (cnt.sum - 1) (cnt.length - 1),
          coll := [] } 1 1 1).coll ↔
      (IsNeck w ∧ w.length = cnt.sum ∧
        ∀ ℓ, w.count ℓ = cnt.getD ℓ 0)) ∧
    (sawadaMut cnt.length cnt.sum (cnt.sum + 1)
        { remContent := cnt.set 0 (cnt.getD 0 0 - 1),
          runs := List.replicate cnt.sum 0,
          availLetters := ((List.range cnt.length).reverse).filter
            (fun i => !(i == 0 &&
              (cnt.set 0 (cnt.getD 0 0 - 1)).getD 0 0 == 0)),
          a := 0 :: List.replicate (cnt.sum - 1) (cnt.length - 1),
          coll := [] } 1 1 1).coll.Pairwise
      (fun x y => 0 < compareArrays x y) := by
  by_cases harity : 2 ≤ cnt.length
  · have hinv := saw_init_inv cnt harity hpos
    obtain ⟨L, hcoll, hmem, hpair, _, _, _, _, _⟩ :=
      sawadaMut_spec cnt cnt.sum harity hpos (cnt.sum + 1) 1 1 1 _ hinv
        (by omega)
    rw [hcoll]
    have hn2 : 2 ≤ cnt.sum := by
      have h01 := pair_le_sum cnt 0 1 (by omega) (by omega) (by omega)
      have h0 := hpos 0 (by omega)
      have h1 := hpos 1 (by omega)
      omega
    have hα : ((0 :: List.replicate (cnt.sum - 1)
        (cnt.length - 1)) : List Nat).take 1 = [0] := rfl
    rw [hα] at hmem
    constructor
    · intro w
      rw [List.nil_append, hmem w]
      exact extN_zero_iff cnt cnt.sum (by omega) (hpos 0 (by omega)) w
    · rw [List.nil_append]
      exact hpair
  · have h1 : cnt.length = 1 := by omega
    obtain ⟨x, rfl⟩ : ∃ x, cnt = [x] := by
      cases cnt with
      | nil => simp at h1
      | cons x rest =>
        cases rest with
        | nil => exact ⟨x, rfl⟩
        | cons y ys => simp at h1
    have hx1 : 1 ≤ x := by
      have := hpos 0 (by simp)
      simpa using this
    have hrepl : List.replicate x (0 : Nat)
        = 0 :: List.replicate (x - 1) 0 := by
      conv_lhs => rw [show x = (x - 1) + 1 by omega]
      rfl
    have hcoll : (sawadaMut ([x] : List Nat).length ([x] : List Nat).sum
        (([x] : List Nat).sum + 1)
        { remContent := ([x] : List Nat).set 0
            (([x] : List Nat).getD 0 0 - 1),
          runs := List.replicate ([x] : List Nat).sum 0,
          availLetters := ((List.range ([x] : List Nat).length).reverse).filter
            (fun i => !(i == 0 && (([x] : List Nat).set 0
              (([x] : List Nat).getD 0 0 - 1)).getD 0 0 == 0)),
          a := 0 :: List.replicate (([x] : List Nat).sum - 1)
            (([x] : List Nat).length - 1),
          coll := [] } 1 1 1).coll = [0 :: List.replicate (x - 1) 0] :=
      saw_arity_one x hx1 _
    rw [hcoll]
    constructor
    · intro w
      simp only [List.mem_singleton]
      constructor
      · rintro rfl
        refine ⟨?_, ?_, ?_⟩
        · rw [← hrepl]
          exact isNeck_replicate x 0
        · show (0 :: List.replicate (x - 1) 0).length = ([x] : List Nat).sum
          simp only [List.length_cons, List.length_replicate, List.sum_cons,
            List.sum_nil]
          omega
        · intro ℓ
          rw [← hrepl]
          by_cases hℓ : ℓ = 0
          · subst hℓ
            simp [List.count_replicate]
          · have hz : (List.replicate x (0 : Nat)).count ℓ = 0 := by
              apply List.count_eq_zero.mpr
              rw [List.mem_replicate]
              rintro ⟨_, h⟩
              exact hℓ h
            rw [hz]
            have : ([x] : List Nat).getD ℓ 0 = 0 := by
              obtain ⟨ℓ', rfl⟩ : ∃ l', ℓ = l' + 1 := ⟨ℓ - 1, by omega⟩
              rfl
            rw [this]
      · rintro ⟨hneck, hlen, hcount⟩
        have hall : ∀ z ∈ w, z = 0 := by
          intro z hz
          by_contra hne
          have hc := List.count_pos_iff.mpr hz
          rw [hcount z] at hc
          have hzz : ([x] : List Nat).getD z 0 = 0 := by
            obtain ⟨z', rfl⟩ : ∃ z', z = z' + 1 := ⟨z - 1, by omega⟩
            rfl
          omega
        have hw := List.eq_replicate_of_mem hall
        rw [hw, hlen]
        show List.replicate (([x] : List Nat).sum) (0 : Nat) = _
        rw [show ([x] : List Nat).sum = x by simp, hrepl]
    · simp

theorem necklacesFixedContent_chars (content : List Nat)
    (hpos : ∃ c ∈ content, 0 < c) :
    (∀ w, w ∈ necklacesFixedContent content ↔
      (IsNeck w ∧ w.length = content.sum ∧
        ∀ ℓ, w.count ℓ = content.getD ℓ 0)) ∧
    (necklacesFixedContent content).Pairwise
      (fun x y => 0 < compareArrays x y) := by
  obtain ⟨c0, hc0mem, hc0pos⟩ := hpos
  obtain ⟨i0, hi0lt, hi0⟩ := List.getElem_of_mem hc0mem
  have hi0' : content.getD i0 0 = c0 := by
    rw [List.getD_eq_getElem _ _ hi0lt]
    exact hi0
  have hlen0 : ¬ content.length = 0 := by omega
  obtain ⟨lm, hlm⟩ : ∃ l, l = (List.range content.length).filter
      (fun i => content.getD i 0 > 0) := ⟨_, rfl⟩
  obtain ⟨cnt, hcnt⟩ : ∃ l, l = lm.map (fun i => content.getD i 0) :=
    ⟨_, rfl⟩
  have hlm_mem : ∀ d, d ∈ lm ↔ d < content.length ∧
      0 < content.getD d 0 := by
    intro d
    rw [hlm, List.mem_filter, List.mem_range]
    simp
  have hlm_sorted : lm.Pairwise (· < ·) := by
    rw [hlm]
    exact List.Pairwise.filter _ (List.pairwise_lt_range _)
  have hlm_nodup : lm.Nodup := hlm_sorted.imp (fun h => Nat.ne_of_lt h)
  have hlm_ne : lm ≠ [] := by
    have : i0 ∈ lm := (hlm_mem i0).mpr ⟨hi0lt, by omega⟩
    exact List.ne_nil_of_mem this
  have hlmlen : 1 ≤ lm.length := by
    have := List.length_pos.mpr hlm_ne
    omega
  have hcntlen : cnt.length = lm.length := by
    rw [hcnt, List.length_map]
  have harity1 : 1 ≤ cnt.length := by omega
  have hcnt_get : ∀ c, c < cnt.length →
      cnt.getD c 0 = content.getD (lm.getD c 0) 0 := by
    intro c hc
    rw [hcnt, getD_map' _ _ _ (by omega)]
  have hg_mem_lm : ∀ c, c < cnt.length → lm.getD c 0 ∈ lm := by
    intro c hc
    exact getD_mem lm c (by omega)
  have hcnt_pos : ∀ c, c < cnt.length → 1 ≤ cnt.getD c 0 := by
    intro c hc
    rw [hcnt_get c hc]
    have := (hlm_mem _).mp (hg_mem_lm c hc)
    omega
  have hcnt_sum : cnt.sum = content.sum := by
    rw [hcnt, hlm]
    rw [sum_filter_map_eq _ _ _ (fun x _ hQ => by
      simp only [decide_eq_false_iff_not, Nat.not_lt,
        Nat.le_zero] at hQ
      exact hQ)]
    rw [map_getD_range]
  have hn1 : 1 ≤ content.sum := by
    have h1 := getD_le_sum content i0
    omega
  have hout_eq : necklacesFixedContent content
      = (sawadaMut cnt.length content.sum (content.sum + 1)
          { remContent := cnt.set 0 (cnt.getD 0 0 - 1),
            runs := List.replicate content.sum 0,
            availLetters := ((List.range cnt.length).reverse).filter
              (fun i => !(i == 0 &&
                (cnt.set 0 (cnt.getD 0 0 - 1)).getD 0 0 == 0)),
            a := 0 :: List.replicate (content.sum - 1) (cnt.length - 1),
            coll := [] } 1 1 1).coll.map
        (fun necklace => necklace.map
          (fun letter => lm.getD letter 0)) := by
    unfold necklacesFixedContent
    rw [if_neg hlen0]
    dsimp only
    rw [← hlm]
    rw [← hcnt]
    rw [if_neg (by omega)]
    rw [foldl_add_sum cnt 0, Nat.zero_add, hcnt_sum]
  obtain ⟨hmem_iff, hpair⟩ := saw_top cnt harity1 hcnt_pos
  rw [hcnt_sum] at hmem_iff hpair
  have hg_mono : ∀ a b, a < cnt.length → b < cnt.length → a < b →
      lm.getD a 0 < lm.getD b 0 := by
    intro a b _ hb hab
    exact pairwise_getD_lt lm hlm_sorted a b hab (by omega)
  have hg_inj : ∀ a b, a < cnt.length → b < cnt.length →
      lm.getD a 0 = lm.getD b 0 → a = b := by
    intro a b ha hb he
    by_contra hne
    rcases Nat.lt_or_ge a b with h | h
    · have := hg_mono a b ha hb h
      omega
    · have : b < a := by omega
      have := hg_mono b a hb ha this
      omega
  have hmem_letters : ∀ w', w' ∈ (sawadaMut cnt.length content.sum
      (content.sum + 1)
      { remContent := cnt.set 0 (cnt.getD 0 0 - 1),
        runs := List.replicate content.sum 0,
        availLetters := ((List.range cnt.length).reverse).filter
          (fun i => !(i == 0 &&
            (cnt.set 0 (cnt.getD 0 0 - 1)).getD 0 0 == 0)),
        a := 0 :: List.replicate (content.sum - 1) (cnt.length - 1),
        coll := [] } 1 1 1).coll → ∀ z ∈ w', z < cnt.length := by
    intro w' hw' z hz
    obtain ⟨_, _, hcount'⟩ := (hmem_iff w').mp hw'
    by_contra hge
    have hc := List.count_pos_iff.mpr hz
    rw [hcount' z, List.getD_eq_default _ _ (by omega)] at hc
    omega
  have hmem_out : ∀ w, w ∈ necklacesFixedContent content ↔
      (IsNeck w ∧ w.length = content.sum ∧
        ∀ ℓ, w.count ℓ = content.getD ℓ 0) := by
    intro w
    rw [hout_eq, List.mem_map]
    constructor
    · rintro ⟨w', hw'coll, rfl⟩
      obtain ⟨hneck', hlen', hcount'⟩ := (hmem_iff w').mp hw'coll
      have hletters' := hmem_letters w' hw'coll
      refine ⟨?_, ?_, ?_⟩
      · exact (isNeck_map_iff _ (· < cnt.length) hg_mono w'
          hletters').mpr hneck'
      · rw [List.length_map]
        exact hlen'
      · intro d
        by_cases hex : ∃ c, c < cnt.length ∧ lm.getD c 0 = d
        · obtain ⟨c, hc, rfl⟩ := hex
          rw [count_map_inj_on _ (· < cnt.length) hg_inj w' hletters' c hc]
          rw [hcount' c, hcnt_get c hc]
        · rw [count_map_zero _ (· < cnt.length) w' hletters' d
            (fun x hx hfx => hex ⟨x, hx, hfx⟩)]
          push_neg at hex
          have hdnm : d ∉ lm := by
            intro hdm
            obtain ⟨i, hilt, hig⟩ := List.getElem_of_mem hdm
            have : lm.getD i 0 = d := by
              rw [List.getD_eq_getElem _ _ hilt]
              exact hig
            exact absurd this (hex i (by omega))
          rw [hlm_mem d] at hdnm
          push_neg at hdnm
          by_cases hdlt : d < content.length
          · have := hdnm hdlt
            omega
          · rw [List.getD_eq_default _ _ (by omega)]
    · rintro ⟨hneck, hlenw, hcountw⟩
      have hwletters : ∀ z ∈ w, z ∈ lm := by
        intro z hz
        have hc := List.count_pos_iff.mpr hz
        rw [hcountw z] at hc
        apply (hlm_mem z).mpr
        constructor
        · by_contra hge
          rw [List.getD_eq_default _ _ (by omega)] at hc
          omega
        · exact hc
      have hh_mono : ∀ a b, a ∈ lm → b ∈ lm → a < b →
          lm.indexOf a < lm.indexOf b := by
        intro a b ha hb hab
        have hia : lm.indexOf a < lm.length := List.indexOf_lt_length.mpr ha
        have hib : lm.indexOf b < lm.length := List.indexOf_lt_length.mpr hb
        have hga : lm.getD (lm.indexOf a) 0 = a := by
          rw [List.getD_eq_getElem _ _ hia]
          exact List.getElem_indexOf _
        have hgb : lm.getD (lm.indexOf b) 0 = b := by
          rw [List.getD_eq_getElem _ _ hib]
          exact List.getElem_indexOf _
        by_contra hc
        push_neg at hc
        rcases Nat.eq_or_lt_of_le hc with he | hlt
        · rw [← he] at hga
          omega
        · have := pairwise_getD_lt lm hlm_sorted _ _ hlt hia
          omega
      have hh_inj : ∀ a b, a ∈ lm → b ∈ lm →
          lm.indexOf a = lm.indexOf b → a = b := by
        intro a b ha hb he
        have hia : lm.indexOf a < lm.length := List.indexOf_lt_length.mpr ha
        have hga : lm.getD (lm.indexOf a) 0 = a := by
          rw [List.getD_eq_getElem _ _ hia]
          exact List.getElem_indexOf _
        have hib : lm.indexOf b < lm.length := List.indexOf_lt_length.mpr hb
        have hgb : lm.getD (lm.indexOf b) 0 = b := by
          rw [List.getD_eq_getElem _ _ hib]
          exact List.getElem_indexOf _
        rw [← hga, ← hgb, he]
      have hback : (w.map (fun d => lm.indexOf d)).map
          (fun letter => lm.getD letter 0) = w := by
        rw [List.map_map]
        have : ∀ x ∈ w, lm.getD (lm.indexOf x) 0 = x := by
          intro x hx
          rw [List.getD_eq_getElem _ _
            (List.indexOf_lt_length.mpr (hwletters x hx))]
          exact List.getElem_indexOf _
        calc w.map ((fun letter => lm.getD letter 0) ∘
              (fun d => lm.indexOf d))
            = w.map id := List.map_congr_left (fun x hx => this x hx)
          _ = w := List.map_id w
      refine ⟨w.map (fun d => lm.indexOf d), ?_, hback⟩
      apply (hmem_iff _).mpr
      have hw'letters : ∀ z ∈ w.map (fun d => lm.indexOf d),
          z < cnt.length := by
        intro z hz
        obtain ⟨x, hx, rfl⟩ := List.mem_map.mp hz
        have := List.indexOf_lt_length.mpr (hwletters x hx)
        omega
      refine ⟨?_, ?_, ?_⟩
      · exact (isNeck_map_iff _ (· ∈ lm) hh_mono w hwletters).mpr hneck
      · rw [List.length_map]
        exact hlenw
      · intro c
        by_cases hc : c < cnt.length
        · have hgc : lm.indexOf (lm.getD c 0) = c := by
            rw [List.getD_eq_getElem _ _ (by omega)]
            exact List.indexOf_getElem hlm_nodup _ _
          rw [← hgc, count_map_inj_on _ (· ∈ lm) hh_inj w hwletters _
            (hg_mem_lm c hc)]
          rw [hcountw _, hgc, hcnt_get c hc]
        · rw [List.getD_eq_default _ _ (by omega)]
          apply List.count_eq_zero.mpr
          intro hmem
          have := hw'letters c hmem
          omega
  refine ⟨hmem_out, ?_⟩
  rw [hout_eq]
  rw [List.pairwise_map]
  apply List.Pairwise.imp_of_mem ?_ hpair
  intro x y hx hy hxy
  obtain ⟨_, hlx, _⟩ := (hmem_iff x).mp hx
  obtain ⟨_, hly, _⟩ := (hmem_iff y).mp hy
  exact (compare_map_pos_iff _ (· < cnt.length) hg_mono x y
    (by omega) (hmem_letters x hx) (hmem_letters y hy)).mpr hxy

/-- C1 counterexample: the claim says the returned list is non-decreasing
in lexicographic order, but for content [2,2] the program returns
[[0,1,0,1],[0,0,1,1]], whose first element is lexicographically GREATER
than its second (compareArrays returns a positive value): the output is
strictly decreasing, not non-decreasing. -/
theorem necklacesFixedContent_order_counterexample :
    necklacesFixedContent [2, 2] = [[0, 1, 0, 1], [0, 0, 1, 1]] ∧
    0 < compareArrays [0, 1, 0, 1] [0, 0, 1, 1] := by
  constructor
  · rfl
  · decide

/-- C1 (amended): for every content list with at least one positive entry,
`necklacesFixedContent(content)` returns exactly the necklaces (words that
are lexicographically ≤ every one of their rotations) whose length is the
total content and whose letter counts equal content; the returned list is
strictly DEcreasing in lexicographic order (not non-decreasing as claimed);
and no two distinct returned words are rotations of each other, so every
rotation-equivalence class with that content appears exactly once, as its
canonical (least) rotation. -/
theorem necklacesFixedContent_amended (content : List Nat)
    (hpos : ∃ c ∈ content, 0 < c) :
    (∀ w, w ∈ necklacesFixedContent content ↔
      (IsNeck w ∧ w.length = content.sum ∧
        ∀ ℓ, w.count ℓ = content.getD ℓ 0)) ∧
    (necklacesFixedContent content).Pairwise
      (fun x y => 0 < compareArrays x y) ∧
    (∀ w1, w1 ∈ necklacesFixedContent content →
      ∀ w2, w2 ∈ necklacesFixedContent content →
      ∀ r : Int, rotate w1 r = w2 → w1 = w2) := by
  obtain ⟨hmem, hpair⟩ := necklacesFixedContent_chars content hpos
  refine ⟨hmem, hpair, ?_⟩
  intro w1 h1 w2 h2 r hrot
  obtain ⟨hn1, hl1, _⟩ := (hmem w1).mp h1
  obtain ⟨hn2, hl2, _⟩ := (hmem w2).mp h2
  have hsumpos : 1 ≤ content.sum := by
    obtain ⟨c0, hc0mem, hc0pos⟩ := hpos
    obtain ⟨i0, hi0lt, hi0⟩ := List.getElem_of_mem hc0mem
    have h1' := getD_le_sum content i0
    rw [List.getD_eq_getElem _ _ hi0lt, hi0] at h1'
    omega
  exact neck_unique_rot w1 w2 hn1 hn2 (by omega) (by omega) r hrot

theorem necklacesFixedContent_amended_witness :
    (∃ c ∈ ([2, 2] : List Nat), 0 < c) ∧
    ((∀ w, w ∈ necklacesFixedContent [2, 2] ↔
      (IsNeck w ∧ w.length = ([2, 2] : List Nat).sum ∧
        ∀ ℓ, w.count ℓ = ([2, 2] : List Nat).getD ℓ 0)) ∧
    (necklacesFixedContent [2, 2]).Pairwise
      (fun x y => 0 < compareArrays x y) ∧
    (∀ w1, w1 ∈ necklacesFixedContent [2, 2] →
      ∀ w2, w2 ∈ necklacesFixedContent [2, 2] →
      ∀ r : Int, rotate w1 r = w2 → w1 = w2)) :=
  ⟨by decide, necklacesFixedContent_amended [2, 2] (by decide)⟩
